import Mathlib

/-!
Verification of the block-structured audio sample sequence (Sequence.cpp).

The shallow embedding models a `Sequence` as its list of `SeqBlock`s (each a
block file's sample contents plus an absolute start position), its total
sample count, the sample format, and the two block-size bounds.  sampleCount
(a signed 64-bit count in the source) is modelled as unbounded `Int`; where
the source's arithmetic width or floating-point rounding matters (the
`Overflows` check computes in IEEE double precision) it is modelled
explicitly.  Mutating methods are state-in/state-out functions returning an
`OpResult`: `ok` for normal return, `exn` for THROW_INCONSISTENCY_EXCEPTION
(carrying the observable state after unwinding), and `diverge` for paths on
which the C++ has no defined result (an out-of-bounds vector access or a
loop that does not terminate); loops are run on explicit fuel that is large
enough for every terminating path of the source.
-/

/-- One PCM sample value.  Sample formats share this value space; the claims
checked here never depend on cross-format numeric conversion. -/
abbrev Sample := Int

/-- Modelled from the spec: the recognised sample formats (SampleFormat.h is
not part of the sources). -/
inductive SampleFormat where
  | int16Sample
  | int24Sample
  | floatSample
deriving DecidableEq, Repr

/-- Modelled from the spec: SAMPLE_SIZE(fmt) in bytes is fixed per format
(16-bit integer samples take 2 bytes; 24-bit and float samples take 4). -/
def SAMPLE_SIZE : SampleFormat → Nat
  | .int16Sample => 2
  | .int24Sample => 4
  | .floatSample => 4

/-- A block file: the contents it yields when read.  A silent block file
reads as zeros; the edit model never needs alias or on-demand blocks. -/
structure BlockFile where
  samples : List Sample
deriving DecidableEq, Repr

/-- BlockFile::GetLength. -/
def BlockFile.GetLength (f : BlockFile) : Nat := f.samples.length

/-- make_blockfile of a SilentBlockFile: reads as `len` zero samples. -/
def SilentBlockFile (len : Nat) : BlockFile := ⟨List.replicate len 0⟩

/-- SeqBlock: a block file plus the absolute sample index of its first
sample.  In the editing model the file pointer is never null; XML loading,
where it can be, is modelled separately with an optional file. -/
structure SeqBlock where
  f : BlockFile
  start : Int
deriving DecidableEq, Repr

/-- SeqBlock::Plus. -/
def SeqBlock.Plus (b : SeqBlock) (delta : Int) : SeqBlock :=
  { b with start := b.start + delta }

/-- The Sequence aggregate (members of Sequence in Sequence.h). -/
structure Sequence where
  mBlock : List SeqBlock
  mNumSamples : Int
  mMinSamples : Nat
  mMaxSamples : Nat
  mSampleFormat : SampleFormat
  mErrorOpening : Bool
deriving DecidableEq, Repr

/-- Result of a mutating method: normal return, InconsistencyException
escaping (with the state the caller then observes), or a path with no
defined result in the C++ (modelled divergence). -/
inductive OpResult (α : Type) where
  | ok : α → OpResult α
  | exn : α → OpResult α
  | diverge : OpResult α
deriving DecidableEq, Repr

/-- Sum of the block lengths of a list of blocks. -/
def sumLens (bs : List SeqBlock) : Nat := (bs.map (·.f.GetLength)).sum

@[simp] theorem sumLens_nil : sumLens [] = 0 := rfl

@[simp] theorem sumLens_cons (b : SeqBlock) (bs : List SeqBlock) :
    sumLens (b :: bs) = b.f.GetLength + sumLens bs := by
  simp [sumLens]

@[simp] theorem sumLens_append (xs ys : List SeqBlock) :
    sumLens (xs ++ ys) = sumLens xs + sumLens ys := by
  simp [sumLens]

/-- The flat array of samples the sequence represents. -/
def Sequence.contents (s : Sequence) : List Sample :=
  s.mBlock.flatMap (·.f.samples)

section DoubleRounding

/-!
The source's overflow guard `Overflows` converts sampleCount values to
`double` and compares the double sum against 9223372036854775807 (which
itself converts to the double 2^63).  We model the value of a nonnegative
integer converted to IEEE double exactly: round to 53 significant bits,
ties to even.
-/

/-- Floor of the base-2 logarithm, by fueled halving so that kernel
reduction works; the fuel covers every value below 2^1100, far beyond any
64-bit sample count. -/
def log2floorAux : Nat → Nat → Nat
  | 0, _ => 0
  | fuel + 1, n => if 2 ≤ n then log2floorAux fuel (n / 2) + 1 else 0

def log2floor (n : Nat) : Nat := log2floorAux 1100 n

/-- The value of the IEEE double nearest to the natural number `n`
(round to nearest, ties to even, 53-bit significand; all naturals in
question are far below the double overflow threshold 2^1024). -/
def roundNatToDouble (n : Nat) : Nat :=
  if n < 2 ^ 53 then n
  else
    let e := log2floor n - 52
    let q := n / 2 ^ e
    let r := n % 2 ^ e
    if r < 2 ^ (e - 1) then q * 2 ^ e
    else if 2 ^ (e - 1) < r then (q + 1) * 2 ^ e
    else if q % 2 = 0 then q * 2 ^ e else (q + 1) * 2 ^ e

/-- Conversion of a sampleCount (signed) to double. -/
def roundToDouble (n : Int) : Int :=
  if 0 ≤ n then (roundNatToDouble n.toNat : Int)
  else -(roundNatToDouble (-n).toNat : Int)

/-- `Overflows(a_double + b_double)` from Sequence.cpp: both operands are
converted to double, added (the double addition rounds the exact sum), and
the result is compared against the double value of 2^63 - 1, which is 2^63. -/
def Overflows (a b : Int) : Bool :=
  roundToDouble (roundToDouble a + roundToDouble b) > 2 ^ 63

end DoubleRounding

/-- The walk inside Sequence::ConsistencyCheck: starting at position `pos`,
check each block's start and length bound, returning the final running
position, or none if some check failed. -/
def ccWalk (maxSamples : Nat) : Int → List SeqBlock → Option Int
  | pos, [] => some pos
  | pos, b :: rest =>
    if b.start = pos ∧ b.f.GetLength ≤ maxSamples then
      ccWalk maxSamples (pos + b.f.GetLength) rest
    else
      none

/-- Sequence::ConsistencyCheck (static overload) as a decidable check:
returns true when no error is flagged.  The null-file branch of the source
cannot fire in this model, where block files are always present. -/
def Sequence.ConsistencyCheckB
    (mBlock : List SeqBlock) (maxSamples : Nat) (from_ : Nat)
    (mNumSamples : Int) : Bool :=
  let tail := mBlock.drop from_
  let pos : Int :=
    match tail.head? with
    | some b => b.start
    | none => mNumSamples
  (!(from_ = 0 ∧ pos ≠ 0) : Bool) && (ccWalk maxSamples pos tail == some mNumSamples)

/-- Sequence::CommitChangesIfConsistent: full check, then non-throwing swap. -/
def Sequence.CommitChangesIfConsistent
    (s : Sequence) (newBlock : List SeqBlock) (numSamples : Int) :
    OpResult Sequence :=
  if Sequence.ConsistencyCheckB newBlock s.mMaxSamples 0 numSamples then
    .ok { s with mBlock := newBlock, mNumSamples := numSamples }
  else
    .exn s

/-- Sequence::AppendBlocksIfConsistent: pop the last block if it is being
replaced, append the additional blocks, check only from the old length, and
restore on failure. -/
def Sequence.AppendBlocksIfConsistent
    (s : Sequence) (additionalBlocks : List SeqBlock) (replaceLast : Bool)
    (numSamples : Int) : OpResult Sequence :=
  if additionalBlocks.isEmpty then .ok s
  else
    let base := if replaceLast ∧ ¬s.mBlock.isEmpty then s.mBlock.dropLast else s.mBlock
    let prevSize := base.length
    let all := base ++ additionalBlocks
    if Sequence.ConsistencyCheckB all s.mMaxSamples prevSize numSamples then
      .ok { s with mBlock := all, mNumSamples := numSamples }
    else
      .exn s

/-- The invariants, as the spec states them. -/
def Sequence.I1 (s : Sequence) : Prop :=
  ∀ b ∈ s.mBlock.head?, b.start = 0

def Sequence.I2 (s : Sequence) : Prop :=
  ∀ i : Nat, ∀ h1 : i < s.mBlock.length, ∀ h0 : 0 < i,
    (s.mBlock.get ⟨i, h1⟩).start =
      (s.mBlock.get ⟨i - 1, by omega⟩).start +
        (s.mBlock.get ⟨i - 1, by omega⟩).f.GetLength

def Sequence.I3 (s : Sequence) : Prop :=
  s.mNumSamples = sumLens s.mBlock

def Sequence.I4 (s : Sequence) : Prop :=
  ∀ b ∈ s.mBlock, b.f.GetLength ≤ s.mMaxSamples

def Sequence.I5 (s : Sequence) : Prop :=
  ∀ b ∈ s.mBlock, b.f.GetLength ≠ 0

/-- All five invariants together. -/
def Sequence.Inv (s : Sequence) : Prop :=
  s.I1 ∧ s.I2 ∧ s.I3 ∧ s.I4 ∧ s.I5

/-!  ## Block locator (Sequence::FindBlock)  -/

/-- One round of the dictionary search in Sequence::FindBlock, on fuel.
The interpolation fraction is computed here in exact integer arithmetic;
the C++ computes it in double precision, but the returned index does not
depend on the estimate because the guess is clamped into [lo, hi-1] and
then corrected by the exact comparisons below (see findBlockLoop_correct).
When the searched range is empty (which happens exactly when the asserted
precondition pos < mNumSamples is violated), the C++ divides by zero and
converts NaN to size_t, looping without a defined result; exhausting the
fuel models that. -/
def findBlockLoop (mBlock : List SeqBlock) (pos : Int) :
    Nat → Nat → Nat → Int → Int → Option Nat
  | 0, _, _, _, _ => none
  | fuel + 1, lo, hi, loSamples, hiSamples =>
    let guess := min (hi - 1)
      (lo + (pos - loSamples).toNat * (hi - lo) / (hiSamples - loSamples).toNat)
    match mBlock[guess]? with
    | none => none
    | some block =>
      if pos < block.start then
        findBlockLoop mBlock pos fuel lo guess loSamples block.start
      else if pos < block.start + block.f.GetLength then
        some guess
      else
        findBlockLoop mBlock pos fuel (guess + 1) hi
          (block.start + block.f.GetLength) hiSamples

/-- Sequence::FindBlock. -/
def Sequence.FindBlock (s : Sequence) (pos : Int) : Option Nat :=
  if pos = 0 then some 0
  else
    findBlockLoop s.mBlock pos (s.mBlock.length + 1)
      0 s.mBlock.length 0 s.mNumSamples

/-!  ## Reading samples  -/

/-- Sequence::Read on a single block: the samples a successful read yields.
The source asserts blockRelativeStart + len <= f->GetLength(); all uses
below respect that. -/
def Sequence.ReadBlock (b : SeqBlock) (blockRelativeStart len : Nat) :
    List Sample :=
  (b.f.samples.drop blockRelativeStart).take len

/-- The loop of Sequence::Get (the private overload taking a starting block
index): reads `len` samples starting at absolute position `start`, walking
blocks from index `b`.  The source's loop makes progress only while `start`
stays inside block `b`; an out-of-range block access is divergence. -/
def Sequence.GetLoop (mBlock : List SeqBlock) :
    Nat → Nat → Int → Nat → Option (List Sample)
  | _, _, _, 0 => some []
  | 0, _, _, _ + 1 => none
  | fuel + 1, b, start, len + 1 =>
    match mBlock[b]? with
    | none => none
    | some block =>
      let bstart := (start - block.start).toNat
      let blen := min (len + 1) (block.f.GetLength - bstart)
      (Sequence.GetLoop mBlock fuel (b + 1) (start + blen) (len + 1 - blen)).map
        (Sequence.ReadBlock block bstart blen ++ ·)

/-- Sequence::Get starting from block index b. -/
def Sequence.Get (s : Sequence) (b : Nat) (start : Int) (len : Nat) :
    Option (List Sample) :=
  Sequence.GetLoop s.mBlock (s.mBlock.length + 1) b start len

/-!  ## Blockifier (Sequence::Blockify)  -/

/-- Sequence::Blockify: split `buffer` into `ceil(len / mMaxSamples)` nearly
equal pieces, each a new simple block file; the source appends them to its
`list` argument, modelled by returning the new pieces for the caller to
append. -/
def Sequence.Blockify (mMaxSamples : Nat) (start : Int) (buffer : List Sample) :
    List SeqBlock :=
  if buffer.length = 0 then []
  else
    let len := buffer.length
    let num := (len + (mMaxSamples - 1)) / mMaxSamples
    (List.range num).map fun i =>
      let offset := i * len / num
      let newLen := (i + 1) * len / num - offset
      ⟨⟨(buffer.drop offset).take newLen⟩, start + offset⟩

/-!  ## Paste  -/

/-- The loop of Paste branch one: Sequence::AppendBlock on each source
block.  AppendBlock first checks `Overflows` (throwing, modelled as none),
then pushes a copy of the block file positioned at the running total. -/
def Sequence.AppendBlockLoop :
    List SeqBlock → Int → List SeqBlock → Option (List SeqBlock × Int)
  | acc, samples, [] => some (acc, samples)
  | acc, samples, sb :: rest =>
    if Overflows samples (sb.f.GetLength : Int) then none
    else
      Sequence.AppendBlockLoop (acc ++ [⟨sb.f, samples⟩])
        (samples + sb.f.GetLength) rest

/-- Sequence::Paste. -/
def Sequence.Paste (s : Sequence) (s0 : Int) (src : Sequence) :
    OpResult Sequence :=
  if s0 < 0 ∨ s0 > s.mNumSamples then .exn s
  else if Overflows s.mNumSamples src.mNumSamples then .exn s
  else if src.mSampleFormat ≠ s.mSampleFormat then .exn s
  else
    let addedLen := src.mNumSamples
    let srcNumBlocks := src.mBlock.length
    if addedLen = 0 ∨ srcNumBlocks = 0 then .ok s
    else
      let numBlocks := s.mBlock.length
      let appendCase : Bool :=
        numBlocks == 0 ||
          (s0 == s.mNumSamples &&
            (match s.mBlock.getLast? with
             | some lastBlock => decide (s.mMinSamples ≤ lastBlock.f.GetLength)
             | none => false))
      if appendCase then
        match Sequence.AppendBlockLoop s.mBlock s.mNumSamples src.mBlock with
        | none => .exn s
        | some (newBlock, samples) =>
          s.CommitChangesIfConsistent newBlock samples
      else
        let bOpt : Option Nat :=
          if s0 = s.mNumSamples then some (numBlocks - 1) else s.FindBlock s0
        match bOpt with
        | none => .diverge
        | some b =>
          match s.mBlock[b]? with
          | none => .diverge
          | some splitBlock =>
            let length := splitBlock.f.GetLength
            let largerBlockLen := addedLen + (length : Int)
            let splitPoint := (s0 - splitBlock.start).toNat
            if largerBlockLen ≤ (s.mMaxSamples : Int) then
              match src.Get 0 0 addedLen.toNat with
              | none => .diverge
              | some srcSamples =>
                let buffer := Sequence.ReadBlock splitBlock 0 splitPoint ++
                  srcSamples ++
                  Sequence.ReadBlock splitBlock splitPoint (length - splitPoint)
                let newBlocks := s.mBlock.take b ++
                  [⟨⟨buffer⟩, splitBlock.start⟩] ++
                  (s.mBlock.drop (b + 1)).map (·.Plus addedLen)
                .ok { s with mBlock := newBlocks,
                             mNumSamples := s.mNumSamples + addedLen }
            else if srcNumBlocks ≤ 4 then
              match src.Get 0 0 addedLen.toNat with
              | none => .diverge
              | some srcSamples =>
                let sumBuffer := Sequence.ReadBlock splitBlock 0 splitPoint ++
                  srcSamples ++
                  Sequence.ReadBlock splitBlock splitPoint (length - splitPoint)
                let newBlock := s.mBlock.take b ++
                  Sequence.Blockify s.mMaxSamples splitBlock.start sumBuffer ++
                  (s.mBlock.drop (b + 1)).map (·.Plus addedLen)
                s.CommitChangesIfConsistent newBlock (s.mNumSamples + addedLen)
            else
              match src.mBlock[0]?, src.mBlock[1]?,
                    src.mBlock[srcNumBlocks - 2]?, src.mBlock[srcNumBlocks - 1]? with
              | some sb0, some sb1, some penultimate, some lastSb =>
                let srcFirstTwoLen := sb0.f.GetLength + sb1.f.GetLength
                let srcLastTwoLen :=
                  penultimate.f.GetLength + lastSb.f.GetLength
                let rightSplit := length - splitPoint
                let lastStart := penultimate.start
                match src.Get 0 0 srcFirstTwoLen,
                      src.Get (srcNumBlocks - 2) lastStart srcLastTwoLen with
                | some firstTwo, some lastTwo =>
                  let newBlock := s.mBlock.take b ++
                    Sequence.Blockify s.mMaxSamples splitBlock.start
                      (Sequence.ReadBlock splitBlock 0 splitPoint ++ firstTwo) ++
                    ((src.mBlock.drop 2).take (srcNumBlocks - 4)).map
                      (fun blk => SeqBlock.mk blk.f (blk.start + s0)) ++
                    Sequence.Blockify s.mMaxSamples (s0 + lastStart)
                      (lastTwo ++
                        Sequence.ReadBlock splitBlock splitPoint rightSplit) ++
                    (s.mBlock.drop (b + 1)).map (·.Plus addedLen)
                  s.CommitChangesIfConsistent newBlock (s.mNumSamples + addedLen)
                | _, _ => .diverge
              | _, _, _, _ => .diverge

/-!  ## Delete  -/

/-- Sequence::Delete. -/
def Sequence.Delete (s : Sequence) (start len : Int) : OpResult Sequence :=
  if len = 0 then .ok s
  else if len < 0 ∨ start < 0 ∨ start ≥ s.mNumSamples then .exn s
  else
    let numBlocks := s.mBlock.length
    match s.FindBlock start, s.FindBlock (start + len - 1) with
    | some b0, some b1 =>
      match s.mBlock[b0]?, s.mBlock[b1]? with
      | some preBlock, some postBlock =>
        let length := preBlock.f.GetLength
        if b0 = b1 ∧ (s.mMinSamples : Int) ≤ (length : Int) - len then
          let pos := (start - preBlock.start).toNat
          let newLen := ((length : Int) - len).toNat
          let buffer := Sequence.ReadBlock preBlock 0 pos ++
            Sequence.ReadBlock preBlock (pos + len.toNat) (newLen - pos)
          let newBlocks := s.mBlock.take b0 ++ [⟨⟨buffer⟩, preBlock.start⟩] ++
            (s.mBlock.drop (b0 + 1)).map (·.Plus (-len))
          .ok { s with mBlock := newBlocks,
                       mNumSamples := s.mNumSamples - len }
        else
          let preBufferLen := (start - preBlock.start).toNat
          let preHandled : Option (List SeqBlock) :=
            if preBufferLen ≠ 0 then
              if s.mMinSamples ≤ preBufferLen ∨ b0 = 0 then
                some (s.mBlock.take b0 ++
                  [⟨⟨Sequence.ReadBlock preBlock 0 preBufferLen⟩, preBlock.start⟩])
              else
                match s.mBlock[b0 - 1]? with
                | none => none
                | some prepreBlock =>
                  some (s.mBlock.take (b0 - 1) ++
                    Sequence.Blockify s.mMaxSamples prepreBlock.start
                      (prepreBlock.f.samples ++
                        Sequence.ReadBlock preBlock 0 preBufferLen))
            else some (s.mBlock.take b0)
          let postBufferLen :=
            ((postBlock.start + postBlock.f.GetLength) - (start + len)).toNat
          let postHandled : Option (List SeqBlock × Nat) :=
            if postBufferLen ≠ 0 then
              let pos := (start + len - postBlock.start).toNat
              if s.mMinSamples ≤ postBufferLen ∨ b1 = numBlocks - 1 then
                some ([⟨⟨Sequence.ReadBlock postBlock pos postBufferLen⟩, start⟩], b1)
              else
                match s.mBlock[b1 + 1]? with
                | none => none
                | some postpostBlock =>
                  some (Sequence.Blockify s.mMaxSamples start
                    (Sequence.ReadBlock postBlock pos postBufferLen ++
                      postpostBlock.f.samples), b1 + 1)
            else some ([], b1)
          match preHandled, postHandled with
          | some preList, some (postList, b1x) =>
            let newBlock := preList ++ postList ++
              (s.mBlock.drop (b1x + 1)).map (·.Plus (-len))
            s.CommitChangesIfConsistent newBlock (s.mNumSamples - len)
          | _, _ => .diverge
      | _, _ => .diverge
    | _, _ => .diverge

/-!  ## SetSamples  -/

/-- Result of an inner loop that can hit THROW_INCONSISTENCY_EXCEPTION
without owning the sequence state. -/
inductive LoopResult (α : Type) where
  | ok : α → LoopResult α
  | threw : LoopResult α
  | diverge : LoopResult α
deriving DecidableEq, Repr

/-- The block loop of Sequence::SetSamples.  The sample source is a
function of the index (a raw pointer in the source); a `none` buffer writes
silence.  CopySamples format conversion does not change the modelled sample
values.  Returns the replacement blocks pushed onto newBlock and the final
block index. -/
def Sequence.SetSamplesLoop (mBlock : List SeqBlock) (mMaxSamples : Nat)
    (buffer : Option (Nat → Sample)) :
    Nat → Nat → Nat → Int → Int → LoopResult (List SeqBlock × Nat)
  | 0, b, _, _, len => if len = 0 then .ok ([], b) else .diverge
  | fuel + 1, b, bufOff, start, len =>
    if len = 0 then .ok ([], b)
    else
      match mBlock[b]? with
      | none => .diverge
      | some block =>
        let bstart := (start - block.start).toNat
        let fileLength := block.f.GetLength
        let blen := min (fileLength - bstart) len.toNat
        if ¬(fileLength ≤ mMaxSamples ∧ bstart + blen ≤ fileLength) then .threw
        else
          let newSamples : List Sample :=
            if 0 < bstart ∨ blen < fileLength then
              block.f.samples.take bstart ++
                (match buffer with
                 | some buf => (List.range blen).map fun i => buf (bufOff + i)
                 | none => List.replicate blen 0) ++
                block.f.samples.drop (bstart + blen)
            else
              match buffer with
              | some buf => (List.range fileLength).map fun i => buf (bufOff + i)
              | none => (SilentBlockFile fileLength).samples
          match Sequence.SetSamplesLoop mBlock mMaxSamples buffer fuel
              (b + 1) (bufOff + blen) (start + blen) (len - blen) with
          | .ok (pieces, bEnd) => .ok (⟨⟨newSamples⟩, block.start⟩ :: pieces, bEnd)
          | .threw => .threw
          | .diverge => .diverge

/-- Sequence::SetSamples. -/
def Sequence.SetSamples (s : Sequence) (buffer : Option (Nat → Sample))
    (format : SampleFormat) (start len : Int) : OpResult Sequence :=
  if start < 0 ∨ start ≥ s.mNumSamples ∨ start + len > s.mNumSamples then
    .exn s
  else
    match s.FindBlock start with
    | none => .diverge
    | some b =>
      match Sequence.SetSamplesLoop s.mBlock s.mMaxSamples buffer
          (s.mBlock.length + 1) b 0 start len with
      | .ok (pieces, bEnd) =>
        s.CommitChangesIfConsistent
          (s.mBlock.take b ++ pieces ++ s.mBlock.drop bEnd) s.mNumSamples
      | .threw => .exn s
      | .diverge => .diverge

/-!  ## Append  -/

/-- The chunking loop of Sequence::Append: split the remaining input into
blocks of GetIdealBlockSize() == mMaxSamples samples.  With mMaxSamples = 0
the source makes no progress; fuel exhaustion models that. -/
def Sequence.AppendChunks (mMaxSamples : Nat) :
    Nat → Int → List Sample → Option (List SeqBlock)
  | 0, _, buf => if buf.isEmpty then some [] else none
  | fuel + 1, pos, buf =>
    if buf.isEmpty then some []
    else
      let addedLen := min mMaxSamples buf.length
      if addedLen = 0 then none
      else
        (Sequence.AppendChunks mMaxSamples fuel (pos + addedLen)
            (buf.drop addedLen)).map (⟨⟨buf.take addedLen⟩, pos⟩ :: ·)

/-- Sequence::Append.  The buffer carries exactly `len` samples; CopySamples
format conversion does not change the modelled values. -/
def Sequence.Append (s : Sequence) (buffer : List Sample)
    (format : SampleFormat) : OpResult Sequence :=
  let len := buffer.length
  if len = 0 then .ok s
  else if Overflows s.mNumSamples (len : Int) then .exn s
  else
    let enlarged : Option (SeqBlock × Nat) :=
      match s.mBlock.getLast? with
      | some lastBlock =>
        if lastBlock.f.GetLength < s.mMinSamples then
          let addLen := min (s.mMaxSamples - lastBlock.f.GetLength) len
          some (⟨⟨lastBlock.f.samples ++ buffer.take addLen⟩, lastBlock.start⟩,
            addLen)
        else none
      | none => none
    match enlarged with
    | some (newLastBlock, addLen) =>
      match Sequence.AppendChunks s.mMaxSamples (len + 1)
          (s.mNumSamples + addLen) (buffer.drop addLen) with
      | none => .diverge
      | some rest =>
        s.AppendBlocksIfConsistent (newLastBlock :: rest) true
          (s.mNumSamples + len)
    | none =>
      match Sequence.AppendChunks s.mMaxSamples (len + 1) s.mNumSamples
          buffer with
      | none => .diverge
      | some chunks =>
        s.AppendBlocksIfConsistent chunks false (s.mNumSamples + len)

/-!  ## Constructor and format conversion  -/

/-- The Sequence constructor: mMinSamples and mMaxSamples as computed in
the initialiser list from the static sMaxDiskBlockSize. -/
def Sequence.create (sMaxDiskBlockSize : Nat) (format : SampleFormat) :
    Sequence :=
  let mMinSamples := sMaxDiskBlockSize / SAMPLE_SIZE format / 2
  { mBlock := [], mNumSamples := 0, mMinSamples := mMinSamples,
    mMaxSamples := mMinSamples * 2, mSampleFormat := format,
    mErrorOpening := false }

/-- Result of ConvertToSampleFormat: the returned bool and the sequence,
or an escaping exception with the state the caller then observes. -/
inductive ConvertResult where
  | ok : Bool → Sequence → ConvertResult
  | exn : Sequence → ConvertResult
deriving DecidableEq, Repr

/-- Sequence::ConvertToSampleFormat.  `oracle k` tells whether the k-th
NewSimpleBlockFile call succeeds (IO fault injection, spec P5); on any
failure the function-scope `finally` restores mSampleFormat, mMaxSamples
and mMinSamples, and since newBlockArray is local the committed state is
exactly the original.  CopySamples conversion does not change the modelled
sample values. -/
def Sequence.ConvertToSampleFormat (s : Sequence) (format : SampleFormat)
    (sMaxDiskBlockSize : Nat) (oracle : Nat → Bool) : ConvertResult :=
  if format = s.mSampleFormat then .ok false s
  else if s.mBlock.isEmpty then .ok true { s with mSampleFormat := format }
  else
    let mMinSamples := sMaxDiskBlockSize / SAMPLE_SIZE format / 2
    let mMaxSamples := mMinSamples * 2
    let newBlockArray := s.mBlock.flatMap fun b =>
      Sequence.Blockify mMaxSamples b.start b.f.samples
    let converted : Sequence :=
      { s with
        mSampleFormat := format
        mMinSamples := mMinSamples
        mMaxSamples := mMaxSamples
        mBlock := newBlockArray }
    if (List.range newBlockArray.length).all oracle then
      if Sequence.ConsistencyCheckB newBlockArray mMaxSamples 0
          s.mNumSamples then
        .ok true converted
      else .exn s
    else .exn s

/-!  ## XML load repair (Sequence::HandleXMLEndTag)  -/

/-- A block as it stands at the end of the sequence tag: the file pointer
may still be null if the block file failed to load. -/
structure RawBlock where
  f : Option BlockFile
  start : Int
deriving DecidableEq, Repr

/-- sampleCount::as_size_t on a possibly negative value: conversion of the
64-bit signed value to the unsigned size_t. -/
def asSizeT (n : Int) : Nat := (n % (2 ^ 64 : Int)).toNat

/-- First loop of HandleXMLEndTag: replace a missing block file with a
silent block of the gap length (the distance to the next block's stored
start, or to mNumSamples for the last block), capped at mMaxSamples when it
exceeds it. -/
def xmlFixBlock (mMaxSamples : Nat) (b : RawBlock) (gap : Int) : BlockFile :=
  match b.f with
  | some f => f
  | none =>
    SilentBlockFile (asSizeT
      (if (mMaxSamples : Int) < gap then (mMaxSamples : Int) else gap))

def xmlPass1 (mMaxSamples : Nat) (mNumSamples : Int) :
    List RawBlock → List SeqBlock
  | [] => []
  | b :: rest =>
    ⟨xmlFixBlock mMaxSamples b
        ((match rest.head? with
          | some b2 => b2.start
          | none => mNumSamples) - b.start), b.start⟩ ::
      xmlPass1 mMaxSamples mNumSamples rest

/-- Second loop of HandleXMLEndTag: make starts contiguous, accumulating
the running sample count and whether any start was moved. -/
def xmlPass2 (numSamples : Int) : List SeqBlock → List SeqBlock × Bool
  | [] => ([], false)
  | b :: rest =>
    let b2 := if b.start = numSamples then b
      else { b with start := numSamples }
    let r := xmlPass2 (numSamples + b.f.GetLength) rest
    (b2 :: r.1, (!decide (b.start = numSamples)) || r.2)

/-- Sequence::HandleXMLEndTag for the sequence tag: returns the repaired
block list, the recomputed mNumSamples, and the resulting mErrorOpening. -/
def Sequence.HandleXMLEndTag (mBlock : List RawBlock) (mNumSamples : Int)
    (mMaxSamples : Nat) (mErrorOpening : Bool) :
    List SeqBlock × Int × Bool :=
  let anyMissing := mBlock.any (·.f.isNone)
  let blocks1 := xmlPass1 mMaxSamples mNumSamples mBlock
  let blocks2 := (xmlPass2 0 blocks1).1
  let numSamples := (sumLens blocks2 : Int)
  (blocks2, numSamples,
    mErrorOpening || anyMissing || (xmlPass2 0 blocks1).2 ||
      decide (mNumSamples ≠ numSamples))

/-!  ## Structural helper lemmas  -/

/-- The blocks of `bs` sit contiguously starting at absolute position
`pos`. -/
def ContigFrom (pos : Int) (bs : List SeqBlock) : Prop :=
  ∀ i : Nat, ∀ h : i < bs.length,
    (bs.get ⟨i, h⟩).start = pos + (sumLens (bs.take i) : Int)

theorem contigFrom_nil (pos : Int) : ContigFrom pos [] := by
  intro i h
  simp at h

theorem contigFrom_cons {pos : Int} {b : SeqBlock} {bs : List SeqBlock} :
    ContigFrom pos (b :: bs) ↔
      b.start = pos ∧ ContigFrom (pos + b.f.GetLength) bs := by
  constructor
  · intro h
    refine ⟨by simpa using h 0 (by simp), ?_⟩
    intro i hi
    have := h (i + 1) (by simpa using Nat.succ_lt_succ hi)
    simpa [List.get, sumLens_cons, add_assoc] using this
  · rintro ⟨h0, h⟩
    intro i hi
    match i with
    | 0 => simpa using h0
    | j + 1 =>
      have hj : j < bs.length := by simpa using Nat.lt_of_succ_lt_succ hi
      have := h j hj
      simpa [List.get, sumLens_cons, add_assoc] using this

theorem sumLens_take_succ {bs : List SeqBlock} {i : Nat} (h : i < bs.length) :
    sumLens (bs.take (i + 1)) = sumLens (bs.take i) + (bs.get ⟨i, h⟩).f.GetLength := by
  induction bs generalizing i with
  | nil => simp at h
  | cons b rest ih =>
    match i with
    | 0 => simp
    | j + 1 =>
      have hj : j < rest.length := by simpa using Nat.lt_of_succ_lt_succ h
      simp only [List.take_succ_cons, sumLens_cons, ih hj]
      simp [List.get, Nat.add_assoc]

theorem sumLens_take_le (bs : List SeqBlock) (i : Nat) :
    sumLens (bs.take i) ≤ sumLens bs := by
  have h := sumLens_append (bs.take i) (bs.drop i)
  rw [List.take_append_drop] at h
  omega

/-- ccWalk success yields contiguity, the length bound, and the final
position. -/
theorem ccWalk_sound {maxSamples : Nat} {pos q : Int} {bs : List SeqBlock}
    (h : ccWalk maxSamples pos bs = some q) :
    ContigFrom pos bs ∧ (∀ b ∈ bs, b.f.GetLength ≤ maxSamples) ∧
      q = pos + (sumLens bs : Int) := by
  induction bs generalizing pos with
  | nil =>
    simp only [ccWalk] at h
    refine ⟨contigFrom_nil pos, by simp, ?_⟩
    simp [← Option.some_inj.mp h]
  | cons b rest ih =>
    simp only [ccWalk] at h
    split at h
    · next hcond =>
      obtain ⟨hstart, hlen⟩ := hcond
      obtain ⟨hc, hb, hq⟩ := ih h
      refine ⟨contigFrom_cons.mpr ⟨hstart, hc⟩, ?_, ?_⟩
      · intro x hx
        rcases List.mem_cons.mp hx with rfl | hx
        · exact hlen
        · exact hb x hx
      · rw [hq]
        simp only [sumLens_cons]
        push_cast
        ring
    · exact absurd h (by simp)

/-- The converse: a contiguous list within the length bound passes ccWalk. -/
theorem ccWalk_complete {maxSamples : Nat} {pos : Int} {bs : List SeqBlock}
    (hc : ContigFrom pos bs) (hb : ∀ b ∈ bs, b.f.GetLength ≤ maxSamples) :
    ccWalk maxSamples pos bs = some (pos + (sumLens bs : Int)) := by
  induction bs generalizing pos with
  | nil => simp [ccWalk]
  | cons b rest ih =>
    obtain ⟨hstart, hc⟩ := contigFrom_cons.mp hc
    have : ccWalk maxSamples (pos + b.f.GetLength) rest =
        some (pos + b.f.GetLength + (sumLens rest : Int)) :=
      ih hc (fun x hx => hb x (List.mem_cons_of_mem _ hx))
    simp only [ccWalk, if_pos (⟨hstart, hb b (List.mem_cons_self b rest)⟩ :
      b.start = pos ∧ b.f.GetLength ≤ maxSamples), this]
    congr 1
    simp only [sumLens_cons]
    push_cast
    ring

/-- Soundness of the full consistency check (from index 0). -/
theorem consistencyCheckB_sound {bs : List SeqBlock} {maxSamples : Nat}
    {total : Int}
    (h : Sequence.ConsistencyCheckB bs maxSamples 0 total = true) :
    ContigFrom 0 bs ∧ (∀ b ∈ bs, b.f.GetLength ≤ maxSamples) ∧
      total = (sumLens bs : Int) := by
  unfold Sequence.ConsistencyCheckB at h
  simp only [List.drop_zero] at h
  obtain ⟨h1, h2⟩ := Bool.and_eq_true_iff.mp h
  have hwalk := beq_iff_eq.mp h2
  cases bs with
  | nil =>
    refine ⟨contigFrom_nil 0, by simp, ?_⟩
    simp only [List.head?] at h1
    simp only [sumLens_nil, Nat.cast_zero]
    by_contra hne
    simp [hne] at h1
  | cons b rest =>
    simp only [List.head?] at h1 hwalk
    have hb0 : b.start = 0 := by
      by_contra hne
      simp [hne] at h1
    obtain ⟨hc, hlen, hq⟩ := ccWalk_sound hwalk
    rw [hb0] at hc
    exact ⟨contigFrom_cons.mpr ⟨by simpa using hb0, (contigFrom_cons.mp hc).2⟩,
      hlen, by rw [hq, hb0]; ring⟩

/-!  ## Invariants versus contiguity  -/

theorem inv_characterisation (s : Sequence) :
    s.Inv ↔ ContigFrom 0 s.mBlock ∧
      s.mNumSamples = (sumLens s.mBlock : Int) ∧
      (∀ b ∈ s.mBlock, b.f.GetLength ≤ s.mMaxSamples) ∧
      (∀ b ∈ s.mBlock, b.f.GetLength ≠ 0) := by
  constructor
  · rintro ⟨h1, h2, h3, h4, h5⟩
    refine ⟨?_, h3, h4, h5⟩
    intro i
    induction i with
    | zero =>
      intro h
      have hhead : s.mBlock.head? = some (s.mBlock.get ⟨0, h⟩) := by
        rw [List.head?_eq_getElem?]
        simpa using List.getElem?_eq_getElem h
      have := h1 _ (by rw [hhead]; exact rfl)
      simpa using this
    | succ j ih =>
      intro h
      have hj : j < s.mBlock.length := Nat.lt_of_succ_lt h
      have h2j := h2 (j + 1) h (Nat.succ_pos j)
      simp only [Nat.add_sub_cancel] at h2j
      rw [h2j, ih hj, sumLens_take_succ hj]
      push_cast
      ring
  · rintro ⟨hc, h3, h4, h5⟩
    refine ⟨?_, ?_, h3, h4, h5⟩
    · intro b hb
      cases hbs : s.mBlock with
      | nil => rw [hbs] at hb; simp at hb
      | cons b0 rest =>
        rw [hbs] at hb
        simp only [List.head?_cons, Option.mem_some_iff] at hb
        have := hc 0 (by rw [hbs]; simp)
        subst hb
        simpa [hbs] using this
    · intro i h1 h0
      have hi1 : i - 1 < s.mBlock.length := by omega
      have ha := hc i h1
      have hb := hc (i - 1) hi1
      have hst : sumLens (s.mBlock.take ((i - 1) + 1)) =
          sumLens (s.mBlock.take (i - 1)) +
            (s.mBlock.get ⟨i - 1, hi1⟩).f.GetLength :=
        sumLens_take_succ hi1
      have hi' : (i - 1) + 1 = i := by omega
      rw [hi'] at hst
      rw [ha, hb, hst]
      push_cast
      ring

/-- Absolute start position of the take-prefix of length i, as an Int. -/
def sumTake (bs : List SeqBlock) (i : Nat) : Int := (sumLens (bs.take i) : Int)

theorem sumTake_mono (bs : List SeqBlock) {i j : Nat} (h : i ≤ j) :
    sumTake bs i ≤ sumTake bs j := by
  unfold sumTake
  have : bs.take i = (bs.take j).take i := by
    rw [List.take_take, Nat.min_eq_left h]
  rw [this]
  exact_mod_cast sumLens_take_le (bs.take j) i

theorem sumTake_strict_mono {bs : List SeqBlock}
    (h5 : ∀ b ∈ bs, b.f.GetLength ≠ 0) {i j : Nat} (hij : i < j)
    (hj : j ≤ bs.length) : sumTake bs i < sumTake bs j := by
  have hi : i < bs.length := Nat.lt_of_lt_of_le hij hj
  have hstep : sumLens (bs.take (i + 1)) =
      sumLens (bs.take i) + (bs.get ⟨i, hi⟩).f.GetLength :=
    sumLens_take_succ hi
  have hmem : bs.get ⟨i, hi⟩ ∈ bs := List.get_mem bs i hi
  have hpos : 0 < (bs.get ⟨i, hi⟩).f.GetLength :=
    Nat.pos_of_ne_zero (h5 _ hmem)
  have h1 : sumTake bs i < sumTake bs (i + 1) := by
    unfold sumTake
    rw [hstep]
    push_cast
    omega
  exact lt_of_lt_of_le h1 (sumTake_mono bs hij)

theorem contig_get_start {bs : List SeqBlock} (hc : ContigFrom 0 bs)
    {i : Nat} (h : i < bs.length) :
    (bs.get ⟨i, h⟩).start = sumTake bs i := by
  have := hc i h
  simpa [sumTake] using this

theorem contig_get_end {bs : List SeqBlock} (hc : ContigFrom 0 bs)
    {i : Nat} (h : i < bs.length) :
    (bs.get ⟨i, h⟩).start + ((bs.get ⟨i, h⟩).f.GetLength : Int) =
      sumTake bs (i + 1) := by
  rw [contig_get_start hc h]
  unfold sumTake
  rw [sumLens_take_succ h]
  push_cast
  ring

theorem sumTake_length (bs : List SeqBlock) (i : Nat) (h : bs.length ≤ i) :
    sumTake bs i = (sumLens bs : Int) := by
  unfold sumTake
  rw [List.take_of_length_le h]

/-!  ## FindBlock correctness  -/

theorem findBlockLoop_correct {bs : List SeqBlock} {pos : Int}
    (hc : ContigFrom 0 bs) (h5 : ∀ b ∈ bs, b.f.GetLength ≠ 0) :
    ∀ fuel lo hi : Nat, lo < hi → hi ≤ bs.length →
      sumTake bs lo ≤ pos → pos < sumTake bs hi → hi - lo ≤ fuel →
      ∃ g : Nat, findBlockLoop bs pos fuel lo hi
          (sumTake bs lo) (sumTake bs hi) = some g ∧
        lo ≤ g ∧ g < hi ∧
        ∃ hg : g < bs.length,
          (bs.get ⟨g, hg⟩).start ≤ pos ∧
          pos < (bs.get ⟨g, hg⟩).start + (bs.get ⟨g, hg⟩).f.GetLength := by
  intro fuel
  induction fuel with
  | zero =>
    intro lo hi hlh _ _ _ hfuel
    omega
  | succ f ih =>
    intro lo hi hlh hhi hlo hhiS hfuel
    set guess := min (hi - 1)
      (lo + (pos - sumTake bs lo).toNat * (hi - lo) /
        (sumTake bs hi - sumTake bs lo).toNat) with hguess
    have hg_lo : lo ≤ guess := by
      have h1 : lo ≤ hi - 1 := by omega
      have h2 : lo ≤ lo + (pos - sumTake bs lo).toNat * (hi - lo) /
          (sumTake bs hi - sumTake bs lo).toNat := Nat.le_add_right _ _
      exact le_min h1 h2
    have hg_hi : guess < hi := by
      have : guess ≤ hi - 1 := min_le_left _ _
      omega
    have hg_len : guess < bs.length := Nat.lt_of_lt_of_le hg_hi hhi
    have hsome : bs[guess]? = some (bs.get ⟨guess, hg_len⟩) :=
      List.getElem?_eq_getElem hg_len
    rw [findBlockLoop]
    simp only [← hguess, hsome]
    set block := bs.get ⟨guess, hg_len⟩ with hblock
    have hstart : block.start = sumTake bs guess := contig_get_start hc hg_len
    have hnext : block.start + (block.f.GetLength : Int) =
        sumTake bs (guess + 1) := contig_get_end hc hg_len
    by_cases hcase1 : pos < block.start
    · rw [if_pos hcase1]
      have hlog : lo < guess := by
        rcases Nat.lt_or_ge lo guess with h | h
        · exact h
        · exfalso
          have : sumTake bs guess ≤ sumTake bs lo := sumTake_mono bs h
          rw [hstart] at hcase1
          omega
      rw [hstart]
      obtain ⟨g, hrun, hg1, hg2, hg3⟩ := ih lo guess hlog
        (le_of_lt hg_len) hlo (hstart ▸ hcase1) (by omega)
      exact ⟨g, hrun, hg1, lt_trans hg2 hg_hi, hg3⟩
    · rw [if_neg hcase1]
      by_cases hcase2 : pos < block.start + (block.f.GetLength : Int)
      · rw [if_pos hcase2]
        exact ⟨guess, rfl, hg_lo, hg_hi,
          hg_len, le_of_not_lt hcase1, hcase2⟩
      · rw [if_neg hcase2]
        have hpos2 : sumTake bs (guess + 1) ≤ pos := by
          rw [← hnext]
          exact le_of_not_lt hcase2
        have hlog : guess + 1 < hi := by
          rcases Nat.lt_or_ge (guess + 1) hi with h | h
          · exact h
          · exfalso
            have : sumTake bs hi ≤ sumTake bs (guess + 1) := sumTake_mono bs h
            omega
        rw [hnext]
        obtain ⟨g, hrun, hg1, hg2, hg3⟩ := ih (guess + 1) hi hlog hhi
          hpos2 hhiS (by omega)
        exact ⟨g, hrun, le_trans (le_trans hg_lo (Nat.le_succ guess)) hg1, hg2, hg3⟩

/-- Sequence::FindBlock meets its contract on every consistent sequence
and every in-range position: it returns an index whose block contains
`pos`. -/
theorem findBlock_spec {s : Sequence} (hInv : s.Inv) {pos : Int}
    (h0 : 0 ≤ pos) (h1 : pos < s.mNumSamples) :
    ∃ g : Nat, s.FindBlock pos = some g ∧
      ∃ hg : g < s.mBlock.length,
        (s.mBlock.get ⟨g, hg⟩).start ≤ pos ∧
        pos < (s.mBlock.get ⟨g, hg⟩).start +
          (s.mBlock.get ⟨g, hg⟩).f.GetLength := by
  obtain ⟨hc, h3, h4, h5⟩ := (inv_characterisation s).mp hInv
  have hne : s.mBlock.length ≠ 0 := by
    intro hlen
    rw [List.length_eq_zero] at hlen
    rw [hlen] at h3
    simp at h3
    omega
  by_cases hz : pos = 0
  · subst hz
    refine ⟨0, by simp [Sequence.FindBlock], ?_⟩
    have hg : 0 < s.mBlock.length := Nat.pos_of_ne_zero hne
    refine ⟨hg, ?_, ?_⟩
    · rw [contig_get_start hc hg]
      simp [sumTake]
    · rw [contig_get_start hc hg]
      have hlen := Nat.pos_of_ne_zero (h5 _ (List.get_mem s.mBlock 0 hg))
      have h0' : sumTake s.mBlock 0 = 0 := by simp [sumTake]
      rw [h0']
      push_cast
      omega
  · have hrun := findBlockLoop_correct hc h5 (s.mBlock.length + 1)
      0 s.mBlock.length (Nat.pos_of_ne_zero hne) (le_refl _)
      (by simp [sumTake]; exact h0) ?_ (by omega)
    · obtain ⟨g, hrun, _, _, hg3⟩ := hrun
      refine ⟨g, ?_, hg3⟩
      rw [Sequence.FindBlock, if_neg hz]
      have hzero : sumTake s.mBlock 0 = 0 := by simp [sumTake]
      have hlenS : sumTake s.mBlock s.mBlock.length = s.mNumSamples := by
        rw [sumTake_length _ _ (le_refl _), h3]
      rw [← hzero, ← hlenS]
      exact hrun
    · rw [sumTake_length _ _ (le_refl _), ← h3]
      exact h1

/-- Positions at or beyond mNumSamples make the FindBlock search loop
forever (the asserted precondition is violated; the C++ divides by zero
producing NaN): the loop never returns, whatever its arguments. -/
theorem findBlockLoop_none {bs : List SeqBlock} {pos : Int}
    (hc : ContigFrom 0 bs) (hpos : (sumLens bs : Int) ≤ pos) :
    ∀ fuel lo hi : Nat, ∀ loS hiS : Int,
      findBlockLoop bs pos fuel lo hi loS hiS = none := by
  intro fuel
  induction fuel with
  | zero => intro lo hi loS hiS; rfl
  | succ f ih =>
    intro lo hi loS hiS
    rw [findBlockLoop]
    set g := min (hi - 1) (lo + (pos - loS).toNat * (hi - lo) /
        (hiS - loS).toNat) with hgdef
    cases hsome : bs[g]? with
    | none => rfl
    | some block =>
      have hg_len : g < bs.length := by
        by_contra hge
        rw [List.getElem?_eq_none (le_of_not_lt hge)] at hsome
        exact absurd hsome (by simp)
      have hval : block = bs.get ⟨g, hg_len⟩ := by
        have := List.getElem?_eq_getElem hg_len
        rw [this] at hsome
        have := Option.some_inj.mp hsome
        simpa using this.symm
      have hnext : block.start + (block.f.GetLength : Int) =
          sumTake bs (g + 1) := by
        rw [hval]
        exact contig_get_end hc hg_len
      have hle : block.start + (block.f.GetLength : Int) ≤ pos := by
        rw [hnext]
        calc sumTake bs (g + 1) ≤ (sumLens bs : Int) := by
              rcases Nat.le_total (g + 1) bs.length with h | h
              · unfold sumTake
                exact_mod_cast sumLens_take_le bs _
              · rw [sumTake_length _ _ h]
            _ ≤ pos := hpos
      have hnotin : ¬pos < block.start := by
        have hlenpos : (0 : Int) ≤ (block.f.GetLength : Int) := by positivity
        omega
      show (if pos < block.start then findBlockLoop bs pos f lo g loS block.start
        else if pos < block.start + (block.f.GetLength : Int) then some g
        else findBlockLoop bs pos f (g + 1) hi
          (block.start + (block.f.GetLength : Int)) hiS) = none
      rw [if_neg hnotin, if_neg (by omega)]
      exact ih _ _ _ _

/-- An invariant-satisfying sequence from a passing consistency check plus
positivity of block lengths (the check does not test I5). -/
theorem inv_of_check {s : Sequence}
    (h : Sequence.ConsistencyCheckB s.mBlock s.mMaxSamples 0
      s.mNumSamples = true)
    (h5 : ∀ b ∈ s.mBlock, b.f.GetLength ≠ 0) : s.Inv := by
  obtain ⟨hc, hb, ht⟩ := consistencyCheckB_sound h
  exact (inv_characterisation s).mpr ⟨hc, ht, hb, h5⟩

/-- Two distinct blocks of a consistent sequence cannot both contain a
position. -/
theorem inBlock_unique {s : Sequence} (hInv : s.Inv) {pos : Int}
    {i j : Nat} (hi : i < s.mBlock.length) (hj : j < s.mBlock.length)
    (hi1 : (s.mBlock.get ⟨i, hi⟩).start ≤ pos)
    (hi2 : pos < (s.mBlock.get ⟨i, hi⟩).start +
      (s.mBlock.get ⟨i, hi⟩).f.GetLength)
    (hj1 : (s.mBlock.get ⟨j, hj⟩).start ≤ pos)
    (hj2 : pos < (s.mBlock.get ⟨j, hj⟩).start +
      (s.mBlock.get ⟨j, hj⟩).f.GetLength) : i = j := by
  obtain ⟨hc, h3, h4, h5⟩ := (inv_characterisation s).mp hInv
  by_contra hne
  rcases Nat.lt_or_ge i j with hij | hij
  · have hend := contig_get_end hc hi
    have hstart := contig_get_start hc hj
    have hmono : sumTake s.mBlock (i + 1) ≤ sumTake s.mBlock j :=
      sumTake_mono s.mBlock hij
    omega
  · have hij' : j < i := by omega
    have hend := contig_get_end hc hj
    have hstart := contig_get_start hc hi
    have hmono : sumTake s.mBlock (j + 1) ≤ sumTake s.mBlock i :=
      sumTake_mono s.mBlock hij'
    omega

/-- C2 claim: on every sequence satisfying the block invariants and every
position 0 <= pos < numSamples, FindBlock(pos) returns the unique index i
such that blocks[i].start <= pos < blocks[i].start + length(blocks[i].file);
in particular FindBlock(0) returns 0 and FindBlock(numSamples - 1) returns
the index of the last block. -/
theorem claim_C2_findBlock_correct (s : Sequence) (hInv : s.Inv) (pos : Int)
    (h0 : 0 ≤ pos) (h1 : pos < s.mNumSamples) :
    ∃ g : Nat, s.FindBlock pos = some g ∧
      (∃ hg : g < s.mBlock.length,
        (s.mBlock.get ⟨g, hg⟩).start ≤ pos ∧
        pos < (s.mBlock.get ⟨g, hg⟩).start +
          (s.mBlock.get ⟨g, hg⟩).f.GetLength) ∧
      (∀ j : Nat, ∀ hj : j < s.mBlock.length,
        (s.mBlock.get ⟨j, hj⟩).start ≤ pos →
        pos < (s.mBlock.get ⟨j, hj⟩).start +
          (s.mBlock.get ⟨j, hj⟩).f.GetLength → j = g) ∧
      (pos = 0 → g = 0) ∧
      (pos = s.mNumSamples - 1 → g = s.mBlock.length - 1) := by
  obtain ⟨g, hrun, hg, hga, hgb⟩ := findBlock_spec hInv h0 h1
  refine ⟨g, hrun, ⟨hg, hga, hgb⟩, ?_, ?_, ?_⟩
  · intro j hj hja hjb
    exact inBlock_unique hInv hj hg hja hjb hga hgb
  · intro hz
    subst hz
    have : s.FindBlock 0 = some 0 := by simp [Sequence.FindBlock]
    rw [this] at hrun
    exact (Option.some_inj.mp hrun).symm
  · intro hlast
    obtain ⟨hc, h3, h4, h5⟩ := (inv_characterisation s).mp hInv
    have hn : s.mBlock.length ≠ 0 := by
      intro hlen
      rw [List.length_eq_zero] at hlen
      rw [hlen] at h3
      simp at h3
      omega
    have hlt : s.mBlock.length - 1 < s.mBlock.length := by omega
    have hstart := contig_get_start hc hlt
    have hend := contig_get_end hc hlt
    have hsucc : s.mBlock.length - 1 + 1 = s.mBlock.length := by omega
    rw [hsucc] at hend
    have hns : sumTake s.mBlock s.mBlock.length = s.mNumSamples := by
      rw [sumTake_length _ _ (le_refl _)]
      omega
    have hmono : sumTake s.mBlock (s.mBlock.length - 1) ≤
        sumTake s.mBlock s.mBlock.length :=
      sumTake_mono s.mBlock (by omega)
    have hlenpos : (s.mBlock.get ⟨s.mBlock.length - 1, hlt⟩).f.GetLength ≠ 0 :=
      h5 _ (List.get_mem s.mBlock _ hlt)
    refine inBlock_unique hInv hg hlt hga hgb ?_ ?_
    · omega
    · omega

/-- FindBlock on a position at or past the end of a consistent sequence
has no defined result: the search loop does not terminate. -/
theorem findBlock_past_end {s : Sequence} (hInv : s.Inv) {pos : Int}
    (hpos : s.mNumSamples ≤ pos) (hnz : pos ≠ 0) :
    s.FindBlock pos = none := by
  obtain ⟨hc, h3, _, _⟩ := (inv_characterisation s).mp hInv
  rw [Sequence.FindBlock, if_neg hnz]
  exact findBlockLoop_none hc (by omega) _ _ _ _ _

/-!  ## Claim C2 witness  -/

def seqC2 : Sequence :=
  ⟨[⟨⟨[1, 2]⟩, 0⟩, ⟨⟨[3]⟩, 2⟩], 3, 1, 4, .floatSample, false⟩

theorem seqC2_inv : seqC2.Inv := inv_of_check (by decide) (by decide)

theorem claim_C2_witness :
    seqC2.Inv ∧ (0 : Int) ≤ 2 ∧ (2 : Int) < seqC2.mNumSamples ∧
      (∃ g : Nat, seqC2.FindBlock 2 = some g ∧
        (∃ hg : g < seqC2.mBlock.length,
          (seqC2.mBlock.get ⟨g, hg⟩).start ≤ 2 ∧
          (2 : Int) < (seqC2.mBlock.get ⟨g, hg⟩).start +
            (seqC2.mBlock.get ⟨g, hg⟩).f.GetLength) ∧
        (∀ j : Nat, ∀ hj : j < seqC2.mBlock.length,
          (seqC2.mBlock.get ⟨j, hj⟩).start ≤ 2 →
          (2 : Int) < (seqC2.mBlock.get ⟨j, hj⟩).start +
            (seqC2.mBlock.get ⟨j, hj⟩).f.GetLength → j = g) ∧
        ((2 : Int) = 0 → g = 0) ∧
        ((2 : Int) = seqC2.mNumSamples - 1 → g = seqC2.mBlock.length - 1)) :=
  ⟨seqC2_inv, by decide, by decide,
    claim_C2_findBlock_correct seqC2 seqC2_inv 2 (by decide) (by decide)⟩

/-!  ## Claim C10: the SetSamples guard  -/

/-- C10 claim: SetSamples throws Inconsistency, leaving the sequence
unchanged, whenever start >= mNumSamples, even when len = 0; in particular
every SetSamples call on an empty sequence throws, and SetSamples at
start = numSamples with len = 0 is rejected rather than a no-op. -/
theorem claim_C10_setSamples_guard (s : Sequence)
    (buffer : Option (Nat → Sample)) (format : SampleFormat)
    (start len : Int) :
    (start ≥ s.mNumSamples →
      s.SetSamples buffer format start len = .exn s) ∧
    (s.mNumSamples = 0 →
      s.SetSamples buffer format start len = .exn s) ∧
    s.SetSamples buffer format s.mNumSamples 0 = .exn s := by
  refine ⟨?_, ?_, ?_⟩
  · intro h
    rw [Sequence.SetSamples, if_pos (by omega)]
  · intro h
    rcases Int.lt_or_le start 0 with hs | hs
    · rw [Sequence.SetSamples, if_pos (by omega)]
    · rw [Sequence.SetSamples, if_pos (by omega)]
  · rw [Sequence.SetSamples, if_pos (by omega)]

def seqC10 : Sequence := ⟨[], 0, 512, 1024, .int16Sample, false⟩

theorem claim_C10_witness :
    (5 : Int) ≥ seqC10.mNumSamples ∧
      seqC10.SetSamples none .int16Sample 5 0 = .exn seqC10 :=
  ⟨by decide,
    (claim_C10_setSamples_guard seqC10 none .int16Sample 5 0).1 (by decide)⟩

/-!  ## Claim C8: constructor-derived block size bounds  -/

/-- The value the claim asserts for a new sequence's maxSamples:
maxDiskBlockSize / SAMPLE_SIZE(format), clamped to [1024, 64 * 2^20]. -/
def claimedCtorMaxSamples (sMaxDiskBlockSize : Nat)
    (format : SampleFormat) : Nat :=
  max 1024 (min (sMaxDiskBlockSize / SAMPLE_SIZE format) (64 * 2 ^ 20))

/-- C8 counterexample: with the configured disk block size 2 and int16
format, the claim gives maxSamples = 1024 (the clamp's lower edge) but the
constructor, which never clamps, gives 0. -/
theorem claim_C8_counterexample :
    (Sequence.create 2 .int16Sample).mMaxSamples = 0 ∧
    claimedCtorMaxSamples 2 .int16Sample = 1024 ∧
    (Sequence.create 2 .int16Sample).mMaxSamples ≠
      claimedCtorMaxSamples 2 .int16Sample := by decide

/-- C8 amended: a newly constructed sequence has
minSamples = maxDiskBlockSize / SAMPLE_SIZE(format) / 2 and
maxSamples = 2 * minSamples, with no clamping (so maxSamples also differs
from maxDiskBlockSize / SAMPLE_SIZE when that quotient is odd); the claim's
relation minSamples = maxSamples / 2 does hold exactly. -/
theorem claim_C8_constructor_bounds (sMaxDiskBlockSize : Nat)
    (format : SampleFormat) :
    (Sequence.create sMaxDiskBlockSize format).mMinSamples =
      sMaxDiskBlockSize / SAMPLE_SIZE format / 2 ∧
    (Sequence.create sMaxDiskBlockSize format).mMaxSamples =
      (sMaxDiskBlockSize / SAMPLE_SIZE format / 2) * 2 ∧
    (Sequence.create sMaxDiskBlockSize format).mMinSamples =
      (Sequence.create sMaxDiskBlockSize format).mMaxSamples / 2 := by
  refine ⟨rfl, rfl, ?_⟩
  show sMaxDiskBlockSize / SAMPLE_SIZE format / 2 =
    (sMaxDiskBlockSize / SAMPLE_SIZE format / 2) * 2 / 2
  omega

/-!  ## Claim C5: format conversion rollback  -/

/-- C5 claim: if ConvertToSampleFormat fails at any point (any injected
block-file creation failure, or an inconsistent rebuilt list), the escaping
exception leaves the sequence exactly as it was, so mSampleFormat,
mMaxSamples and mMinSamples are restored; converting to the current format
changes nothing and returns false. -/
theorem claim_C5_convert_rollback (s : Sequence) (format : SampleFormat)
    (sMaxDiskBlockSize : Nat) (oracle : Nat → Bool) :
    (∀ t : Sequence,
      s.ConvertToSampleFormat format sMaxDiskBlockSize oracle = .exn t →
        t = s ∧ t.mSampleFormat = s.mSampleFormat ∧
        t.mMaxSamples = s.mMaxSamples ∧ t.mMinSamples = s.mMinSamples) ∧
    (format = s.mSampleFormat →
      s.ConvertToSampleFormat format sMaxDiskBlockSize oracle =
        .ok false s) := by
  constructor
  · intro t h
    have ht : t = s := by
      rw [Sequence.ConvertToSampleFormat] at h
      dsimp only at h
      split at h
      · exact absurd h (by simp)
      split at h
      · exact absurd h (by simp)
      split at h
      · split at h
        · exact absurd h (by simp)
        · injection h with h'
          exact h'.symm
      · injection h with h'
        exact h'.symm
    exact ⟨ht, by rw [ht], by rw [ht], by rw [ht]⟩
  · intro h
    rw [Sequence.ConvertToSampleFormat, if_pos h]

def seqC5 : Sequence :=
  ⟨[⟨⟨[1, 2, 3]⟩, 0⟩], 3, 512, 1024, .floatSample, false⟩

theorem claim_C5_witness :
    SampleFormat.floatSample = seqC5.mSampleFormat ∧
      seqC5.ConvertToSampleFormat .floatSample 1048576 (fun _ => true) =
        .ok false seqC5 :=
  ⟨rfl,
    (claim_C5_convert_rollback seqC5 .floatSample 1048576
      (fun _ => true)).2 rfl⟩

/-!  ## Claim C3: Delete precondition handling  -/

def seqC3 : Sequence := ⟨[⟨⟨[5, 6]⟩, 0⟩], 2, 1, 4, .floatSample, false⟩

theorem seqC3_inv : seqC3.Inv := inv_of_check (by decide) (by decide)

/-- C3 counterexample: on the consistent one-block sequence of length 2,
Delete(1, 2) violates the precondition start + len <= numSamples, yet it
does not throw Inconsistency: the initial guard only tests
start >= numSamples, and FindBlock(start + len - 1) then searches for
position 2 = numSamples, which never terminates (modelled divergence), so
the call neither throws nor leaves a defined state. -/
theorem claim_C3_counterexample :
    ((0 : Int) ≤ 1 ∧ (1 : Int) < seqC3.mNumSamples ∧
      seqC3.mNumSamples < 1 + 2) ∧
    seqC3.Delete 1 2 = OpResult.diverge ∧
    ∀ t : Sequence, seqC3.Delete 1 2 ≠ OpResult.exn t := by
  have hrun : seqC3.Delete 1 2 = OpResult.diverge := by decide
  refine ⟨by decide, hrun, ?_⟩
  intro t h
  rw [hrun] at h
  exact OpResult.noConfusion h

/-- C3 amended: Delete with len = 0 is a no-op; Delete throws
Inconsistency and leaves the sequence unchanged exactly when the guard
len < 0, start < 0 or start >= numSamples fires; but a violation of
start + len <= numSamples with 0 <= start < numSamples is not caught by
the guard: FindBlock is then asked for position start + len - 1 >=
numSamples and its search does not terminate (no defined result). -/
theorem claim_C3_delete_guard (s : Sequence) (start len : Int) :
    (len = 0 → s.Delete start len = .ok s) ∧
    (len ≠ 0 → (len < 0 ∨ start < 0 ∨ start ≥ s.mNumSamples) →
      s.Delete start len = .exn s) ∧
    (s.Inv → 0 < len → 0 ≤ start → start < s.mNumSamples →
      s.mNumSamples < start + len → s.Delete start len = .diverge) := by
  refine ⟨?_, ?_, ?_⟩
  · intro h
    rw [Sequence.Delete, if_pos h]
  · intro h1 h2
    rw [Sequence.Delete, if_neg h1, if_pos h2]
  · intro hInv hl hs0 hs1 hover
    obtain ⟨g, hb0, _⟩ := findBlock_spec hInv hs0 hs1
    have hb1 : s.FindBlock (start + len - 1) = none :=
      findBlock_past_end hInv (by omega) (by omega)
    rw [Sequence.Delete, if_neg (by omega), if_neg (by omega)]
    dsimp only
    rw [hb0, hb1]

theorem claim_C3_witness :
    ((0 : Int) = 0 ∧ seqC3.Delete 5 0 = .ok seqC3) ∧
    ((2 : Int) ≠ 0 ∧ ((2 : Int) < 0 ∨ (-1 : Int) < 0 ∨
        (-1 : Int) ≥ seqC3.mNumSamples) ∧
      seqC3.Delete (-1) 2 = .exn seqC3) ∧
    (seqC3.Inv ∧ (0 : Int) < 2 ∧ (0 : Int) ≤ 1 ∧
      (1 : Int) < seqC3.mNumSamples ∧ seqC3.mNumSamples < 1 + 2 ∧
      seqC3.Delete 1 2 = .diverge) :=
  ⟨⟨rfl, (claim_C3_delete_guard seqC3 5 0).1 rfl⟩,
   ⟨by decide, by norm_num,
    (claim_C3_delete_guard seqC3 (-1) 2).2.1 (by decide) (by norm_num)⟩,
   ⟨seqC3_inv, by decide, by decide, by decide, by decide,
    (claim_C3_delete_guard seqC3 1 2).2.2 seqC3_inv (by decide) (by decide)
      (by decide) (by decide)⟩⟩

/-!  ## Claim C6: the Append overflow check  -/

def bufC6 : List Sample := List.replicate (2 ^ 62) 0

def seqC6 : Sequence :=
  ⟨[⟨⟨List.replicate (2 ^ 62) 0⟩, 0⟩], 2 ^ 62, 1, 2 ^ 62, .floatSample,
    false⟩

def seqC6After : Sequence :=
  ⟨[⟨⟨List.replicate (2 ^ 62) 0⟩, 0⟩,
    ⟨⟨List.replicate (2 ^ 62) 0⟩, 2 ^ 62⟩],
    2 ^ 62 + 2 ^ 62, 1, 2 ^ 62, .floatSample, false⟩

theorem appendChunks_nil (mMaxSamples fuel : Nat) (pos : Int) :
    Sequence.AppendChunks mMaxSamples fuel pos [] = some [] := by
  cases fuel <;> simp [Sequence.AppendChunks]

theorem appendChunks_single (mMaxSamples fuel : Nat) (pos : Int)
    (buf : List Sample) (hne : buf ≠ []) (hle : buf.length ≤ mMaxSamples)
    (hfuel : 1 ≤ fuel) :
    Sequence.AppendChunks mMaxSamples fuel pos buf = some [⟨⟨buf⟩, pos⟩] := by
  cases fuel with
  | zero => omega
  | succ f =>
    rw [Sequence.AppendChunks]
    have hns : buf.isEmpty = false := by
      cases buf with
      | nil => exact absurd rfl hne
      | cons x xs => rfl
    have hmin : min mMaxSamples buf.length = buf.length :=
      Nat.min_eq_right hle
    have hlen0 : buf.length ≠ 0 := by
      intro h
      exact hne (List.length_eq_zero.mp h)
    rw [hns]
    simp only [Bool.false_eq_true, if_false, hmin, if_neg hlen0,
      List.drop_length, List.take_length, appendChunks_nil, Option.map_some]
    rfl

theorem bufC6_length : bufC6.length = 2 ^ 62 :=
  List.length_replicate _ _

theorem bufC6_ne_nil : bufC6 ≠ [] := by
  intro h
  have h2 : bufC6.length = 0 := by rw [h]; rfl
  rw [bufC6_length] at h2
  exact absurd h2 (by positivity)

/-- C6 counterexample: with numSamples = 2^62 and an appended length of
2^62 samples the sum 2^63 exceeds 2^63 - 1, yet Append does not throw: the
overflow test compares doubles, and the double sum 2^63 is not greater
than the double value of the threshold constant (which is also 2^63), so
the append succeeds and changes the sequence. -/
theorem claim_C6_counterexample :
    seqC6.mNumSamples + (bufC6.length : Int) > 2 ^ 63 - 1 ∧
    seqC6.Append bufC6 .floatSample = .ok seqC6After ∧
    seqC6After ≠ seqC6 := by
  refine ⟨?_, ?_, ?_⟩
  · rw [bufC6_length]
    show (2 ^ 62 : Int) + ((2 ^ 62 : Nat) : Int) > 2 ^ 63 - 1
    norm_num
  · rw [Sequence.Append]
    have hlen0 : bufC6.length ≠ 0 := by
      rw [bufC6_length]
      positivity
    have hov : Overflows seqC6.mNumSamples (bufC6.length : Int) = false := by
      rw [bufC6_length]
      show Overflows (2 ^ 62 : Int) ((2 ^ 62 : Nat) : Int) = false
      decide
    rw [if_neg hlen0, hov, if_neg Bool.false_ne_true]
    have hlast : seqC6.mBlock.getLast? =
        some ⟨⟨List.replicate (2 ^ 62) 0⟩, (0 : Int)⟩ := rfl
    have hnotlt : ¬(⟨⟨List.replicate (2 ^ 62) 0⟩, (0 : Int)⟩ :
        SeqBlock).f.GetLength < seqC6.mMinSamples := by
      show ¬(List.replicate (2 ^ 62) (0 : Sample)).length < 1
      rw [List.length_replicate]
      norm_num
    have henl : (match seqC6.mBlock.getLast? with
        | some lastBlock =>
          if lastBlock.f.GetLength < seqC6.mMinSamples then
            let addLen := min (seqC6.mMaxSamples - lastBlock.f.GetLength)
              bufC6.length
            some (⟨⟨lastBlock.f.samples ++ bufC6.take addLen⟩,
              lastBlock.start⟩, addLen)
          else none
        | none => (none : Option (SeqBlock × Nat))) = none := by
      rw [hlast]
      exact if_neg hnotlt
    rw [henl]
    have hchunks : Sequence.AppendChunks seqC6.mMaxSamples
        (bufC6.length + 1) seqC6.mNumSamples bufC6 =
        some [⟨⟨bufC6⟩, seqC6.mNumSamples⟩] := by
      apply appendChunks_single
      · exact bufC6_ne_nil
      · rw [bufC6_length]
        exact Nat.le_refl _
      · omega
    rw [hchunks]
    dsimp only
    rw [Sequence.AppendBlocksIfConsistent]
    rw [if_neg (by simp : ¬([⟨⟨bufC6⟩, seqC6.mNumSamples⟩] :
      List SeqBlock).isEmpty = true)]
    have hbase : (if (false : Bool) = true ∧ ¬seqC6.mBlock.isEmpty = true
        then seqC6.mBlock.dropLast else seqC6.mBlock) = seqC6.mBlock := by
      simp
    rw [hbase]
    have hcheck : Sequence.ConsistencyCheckB
        (seqC6.mBlock ++ [⟨⟨bufC6⟩, seqC6.mNumSamples⟩])
        seqC6.mMaxSamples seqC6.mBlock.length
        (seqC6.mNumSamples + (bufC6.length : Int)) = true := by
      show Sequence.ConsistencyCheckB
        [⟨⟨List.replicate (2 ^ 62) 0⟩, (0 : Int)⟩,
         ⟨⟨bufC6⟩, (2 ^ 62 : Int)⟩] (2 ^ 62) 1
        ((2 ^ 62 : Int) + (bufC6.length : Int)) = true
      rw [Sequence.ConsistencyCheckB]
      simp only [List.drop_succ_cons, List.drop_zero, List.head?_cons]
      rw [ccWalk]
      rw [if_pos ⟨rfl, by rw [show (⟨⟨bufC6⟩, (2 ^ 62 : Int)⟩ :
        SeqBlock).f.GetLength = bufC6.length from rfl, bufC6_length]⟩]
      rw [ccWalk]
      simp only [Bool.and_eq_true, beq_iff_eq]
      constructor
      · decide
      · show (some ((2 ^ 62 : Int) + ((⟨⟨bufC6⟩, (2 ^ 62 : Int)⟩ :
          SeqBlock).f.GetLength : Int)) : Option Int) =
          some ((2 ^ 62 : Int) + (bufC6.length : Int))
        rfl
    rw [if_pos hcheck]
    show OpResult.ok
      { seqC6 with
        mBlock := seqC6.mBlock ++ [⟨⟨bufC6⟩, seqC6.mNumSamples⟩],
        mNumSamples := seqC6.mNumSamples + (bufC6.length : Int) } =
      .ok seqC6After
    rw [bufC6_length]
    rfl
  · intro h
    have h2 := congrArg Sequence.mNumSamples h
    have h3 : (2 ^ 62 + 2 ^ 62 : Int) = 2 ^ 62 := h2
    norm_num at h3

/-- C6 amended: Append throws Inconsistency and leaves the sequence
unchanged when the double-precision overflow check fires, i.e. when the
rounded double sum of mNumSamples and len exceeds the double threshold
2^63; sums that exceed 2^63 - 1 but whose double value rounds to at most
2^63 are not rejected. -/
theorem claim_C6_append_overflow (s : Sequence) (buffer : List Sample)
    (format : SampleFormat) (hlen : buffer.length ≠ 0)
    (hover : Overflows s.mNumSamples (buffer.length : Int) = true) :
    s.Append buffer format = .exn s := by
  rw [Sequence.Append, if_neg hlen, hover, if_pos rfl]

def seqC6b : Sequence := ⟨[], 2 ^ 63, 512, 1024, .int16Sample, false⟩

theorem claim_C6_witness :
    bufC6.length ≠ 0 ∧
    Overflows seqC6b.mNumSamples (bufC6.length : Int) = true ∧
    seqC6b.Append bufC6 .int16Sample = .exn seqC6b := by
  have h1 : bufC6.length ≠ 0 := by
    rw [bufC6_length]
    positivity
  have h2 : Overflows seqC6b.mNumSamples (bufC6.length : Int) = true := by
    rw [bufC6_length]
    show Overflows (2 ^ 63 : Int) ((2 ^ 62 : Nat) : Int) = true
    decide
  exact ⟨h1, h2, claim_C6_append_overflow seqC6b bufC6 .int16Sample h1 h2⟩

/-!  ## Blockify arithmetic  -/

theorem sumLens_eq_flat_length (bs : List SeqBlock) :
    sumLens bs = (bs.flatMap (·.f.samples)).length := by
  induction bs with
  | nil => rfl
  | cons b rest ih => simp [sumLens_cons, ih, BlockFile.GetLength]

/-- Division distributes over addition up to the ceiling of the second
summand. -/
theorem div_add_le_div_add_ceil (a b n : Nat) (hn : 0 < n) :
    (a + b) / n ≤ a / n + (b + n - 1) / n := by
  have hmod := Nat.div_add_mod a n
  have hr : a % n < n := Nat.mod_lt _ hn
  calc (a + b) / n = (n * (a / n) + (a % n + b)) / n := by
        rw [← Nat.add_assoc, hmod]
      _ = a / n + (a % n + b) / n := by
        rw [Nat.mul_comm, Nat.add_comm (a / n * n), Nat.add_mul_div_right _ _ hn]
        omega
      _ ≤ a / n + (b + n - 1) / n := by
        have : a % n + b ≤ b + n - 1 := by omega
        exact Nat.add_le_add_left (Nat.div_le_div_right this) _
  
theorem div_superadditive (a b n : Nat) (hn : 0 < n) :
    a / n + b / n ≤ (a + b) / n := by
  rw [Nat.le_div_iff_mul_le hn, Nat.add_mul, ]
  exact Nat.add_le_add (Nat.div_mul_le_self a n) (Nat.div_mul_le_self b n)

/-- The number of Blockify pieces times mMaxSamples covers the buffer. -/
theorem ceil_mul_ge (len maxS : Nat) (hmax : 0 < maxS) :
    len ≤ ((len + (maxS - 1)) / maxS) * maxS := by
  have hmod := Nat.div_add_mod (len + (maxS - 1)) maxS
  have hr : (len + (maxS - 1)) % maxS < maxS := Nat.mod_lt _ hmax
  rw [Nat.mul_comm]
  omega

/-- Concatenating the Blockify slices of the first k pieces yields the
prefix of the buffer up to the k-th offset. -/
theorem blockify_flat_aux (buffer : List Sample) (start : Int) (num : Nat) :
    ∀ k : Nat, k ≤ num →
    ((List.range k).map fun i =>
      (⟨⟨(buffer.drop (i * buffer.length / num)).take
        ((i + 1) * buffer.length / num - i * buffer.length / num)⟩,
        start + (i * buffer.length / num : Nat)⟩ : SeqBlock)).flatMap
          (·.f.samples) =
      buffer.take (k * buffer.length / num) := by
  intro k
  induction k with
  | zero => simp
  | succ j ih =>
    intro hk
    rw [List.range_succ, List.map_append, List.flatMap_append,
      ih (Nat.le_of_succ_le hk)]
    simp only [List.map_cons, List.map_nil, List.flatMap_cons,
      List.flatMap_nil, List.append_nil]
    have hmono : j * buffer.length / num ≤ (j + 1) * buffer.length / num :=
      Nat.div_le_div_right (Nat.mul_le_mul_right _ (Nat.le_succ j))
    rw [← List.take_add]
    congr 1
    omega

theorem blockify_eq_map (mMaxSamples : Nat) (start : Int)
    (buffer : List Sample) (h : buffer.length ≠ 0) :
    Sequence.Blockify mMaxSamples start buffer =
      (List.range ((buffer.length + (mMaxSamples - 1)) / mMaxSamples)).map
        fun i =>
          ⟨⟨(buffer.drop
              (i * buffer.length /
                ((buffer.length + (mMaxSamples - 1)) / mMaxSamples))).take
            ((i + 1) * buffer.length /
                ((buffer.length + (mMaxSamples - 1)) / mMaxSamples) -
              i * buffer.length /
                ((buffer.length + (mMaxSamples - 1)) / mMaxSamples))⟩,
            start + (i * buffer.length /
              ((buffer.length + (mMaxSamples - 1)) / mMaxSamples) : Nat)⟩ := by
  rw [Sequence.Blockify, if_neg h]

theorem blockifyNum_pos {mMaxSamples len : Nat} (hb : len ≠ 0)
    (hm : 1 ≤ mMaxSamples) : 0 < (len + (mMaxSamples - 1)) / mMaxSamples := by
  rw [Nat.lt_iff_add_one_le, Nat.le_div_iff_mul_le hm]
  omega

theorem blockifyNum_le {mMaxSamples len : Nat} (hm : 1 ≤ mMaxSamples) :
    (len + (mMaxSamples - 1)) / mMaxSamples ≤ len := by
  have h1 : len + (mMaxSamples - 1) ≤ mMaxSamples * len + (mMaxSamples - 1) := by
    have : len ≤ mMaxSamples * len := Nat.le_mul_of_pos_left len hm
    omega
  have h2 : (len + (mMaxSamples - 1)) / mMaxSamples ≤
      (mMaxSamples * len + (mMaxSamples - 1)) / mMaxSamples :=
    Nat.div_le_div_right h1
  have h3 : (mMaxSamples * len + (mMaxSamples - 1)) / mMaxSamples =
      len + (mMaxSamples - 1) / mMaxSamples := by
    rw [Nat.mul_comm, Nat.add_comm, Nat.add_mul_div_right _ _ hm, Nat.add_comm]
  have h4 : (mMaxSamples - 1) / mMaxSamples = 0 :=
    Nat.div_eq_of_lt (by omega)
  omega

theorem slice_off_succ_ge {len num : Nat} (hnum : 0 < num) (hle : num ≤ len)
    (i : Nat) : i * len / num + 1 ≤ (i + 1) * len / num := by
  have h1 : (i * len + num) / num = i * len / num + 1 :=
    Nat.add_div_right _ hnum
  have h2 : i * len + num ≤ (i + 1) * len := by
    have h3 : (i + 1) * len = i * len + len := by ring
    omega
  calc i * len / num + 1 = (i * len + num) / num := h1.symm
    _ ≤ (i + 1) * len / num := Nat.div_le_div_right h2

theorem slice_off_le {len num : Nat} (hnum : 0 < num) (i : Nat)
    (hi : i ≤ num) : i * len / num ≤ len := by
  have h1 : i * len ≤ num * len := Nat.mul_le_mul_right _ hi
  calc i * len / num ≤ num * len / num := Nat.div_le_div_right h1
    _ = len := by rw [Nat.mul_comm]; exact Nat.mul_div_cancel _ hnum

theorem slice_off_last {len num : Nat} (hnum : 0 < num) :
    num * len / num = len := by
  rw [Nat.mul_comm]
  exact Nat.mul_div_cancel _ hnum

theorem slice_diff_le_ceil {len num : Nat} (hnum : 0 < num) (i : Nat) :
    (i + 1) * len / num - i * len / num ≤ (len + num - 1) / num := by
  have h1 : (i + 1) * len = i * len + len := by ring
  rw [h1]
  have h2 := div_add_le_div_add_ceil (i * len) len num hnum
  exact Nat.sub_le_iff_le_add.mpr
    (Nat.le_trans h2 (Nat.le_of_eq (Nat.add_comm _ _)))

theorem slice_diff_ge_floor {len num : Nat} (hnum : 0 < num) (i : Nat) :
    len / num ≤ (i + 1) * len / num - i * len / num := by
  have h1 : i * len / num + len / num ≤ (i * len + len) / num :=
    div_superadditive _ _ _ hnum
  have h2 : (i + 1) * len = i * len + len := by ring
  rw [h2]
  exact Nat.le_sub_of_add_le (Nat.le_trans (Nat.le_of_eq (Nat.add_comm _ _)) h1)

theorem ceil_le_floor_add_one {len num : Nat} (hnum : 0 < num) :
    (len + num - 1) / num ≤ len / num + 1 := by
  have h1 : len + num - 1 ≤ len + num := by omega
  have h2 : (len + num) / num = len / num + 1 := Nat.add_div_right _ hnum
  have h3 : (len + num - 1) / num ≤ (len + num) / num :=
    Nat.div_le_div_right h1
  omega

theorem slice_ceil_le_max {mMaxSamples len : Nat} (hb : len ≠ 0)
    (hm : 1 ≤ mMaxSamples) :
    (len + (len + (mMaxSamples - 1)) / mMaxSamples - 1) /
      ((len + (mMaxSamples - 1)) / mMaxSamples) ≤ mMaxSamples := by
  have hnum : 0 < (len + (mMaxSamples - 1)) / mMaxSamples :=
    blockifyNum_pos hb hm
  have hcover : len ≤ ((len + (mMaxSamples - 1)) / mMaxSamples) * mMaxSamples :=
    ceil_mul_ge len mMaxSamples hm
  rw [Nat.div_le_iff_le_mul_add_pred hnum]
  have hge : 1 ≤ (len + (mMaxSamples - 1)) / mMaxSamples := hnum
  have h2 : len + (len + (mMaxSamples - 1)) / mMaxSamples - 1 ≤
      len + ((len + (mMaxSamples - 1)) / mMaxSamples - 1) := by omega
  refine Nat.le_trans h2 ?_
  exact Nat.add_le_add hcover (Nat.le_refl _)

theorem blockify_flatMap (mMaxSamples : Nat) (start : Int)
    (buffer : List Sample) (hm : 1 ≤ mMaxSamples) :
    (Sequence.Blockify mMaxSamples start buffer).flatMap (·.f.samples) =
      buffer := by
  by_cases hb : buffer.length = 0
  · rw [Sequence.Blockify, if_pos hb, List.length_eq_zero.mp hb]
    rfl
  · rw [blockify_eq_map _ _ _ hb,
      blockify_flat_aux buffer start _ _ (Nat.le_refl _),
      slice_off_last (blockifyNum_pos hb hm), List.take_length]

theorem blockify_sumLens (mMaxSamples : Nat) (start : Int)
    (buffer : List Sample) (hm : 1 ≤ mMaxSamples) :
    sumLens (Sequence.Blockify mMaxSamples start buffer) = buffer.length := by
  rw [sumLens_eq_flat_length, blockify_flatMap _ _ _ hm]

theorem blockify_contigFrom (mMaxSamples : Nat) (start : Int)
    (buffer : List Sample) (hm : 1 ≤ mMaxSamples) :
    ContigFrom start (Sequence.Blockify mMaxSamples start buffer) := by
  by_cases hb : buffer.length = 0
  · rw [Sequence.Blockify, if_pos hb]
    exact contigFrom_nil start
  · rw [blockify_eq_map _ _ _ hb]
    intro i hi
    have hnum : 0 < (buffer.length + (mMaxSamples - 1)) / mMaxSamples :=
      blockifyNum_pos hb hm
    have hi' : i < (buffer.length + (mMaxSamples - 1)) / mMaxSamples := by
      have h2 := hi
      rw [List.length_map, List.length_range] at h2
      exact h2
    simp only [List.get_eq_getElem, List.getElem_map, List.getElem_range]
    rw [← List.map_take, List.take_range, Nat.min_eq_left (Nat.le_of_lt hi'),
      sumLens_eq_flat_length,
      blockify_flat_aux buffer start _ _ (Nat.le_of_lt hi'),
      List.length_take,
      Nat.min_eq_left (slice_off_le hnum i (Nat.le_of_lt hi'))]

theorem blockify_mem_len {mMaxSamples : Nat} {start : Int}
    {buffer : List Sample} (hm : 1 ≤ mMaxSamples) :
    ∀ b ∈ Sequence.Blockify mMaxSamples start buffer,
      1 ≤ b.f.GetLength ∧ b.f.GetLength ≤ mMaxSamples := by
  by_cases hb : buffer.length = 0
  · rw [Sequence.Blockify, if_pos hb]
    intro b hbm
    simp at hbm
  · intro b hbm
    rw [blockify_eq_map _ _ _ hb] at hbm
    obtain ⟨i, hirange, rfl⟩ := List.mem_map.mp hbm
    have hi : i < (buffer.length + (mMaxSamples - 1)) / mMaxSamples :=
      List.mem_range.mp hirange
    have hnum : 0 < (buffer.length + (mMaxSamples - 1)) / mMaxSamples :=
      blockifyNum_pos hb hm
    have hnle : (buffer.length + (mMaxSamples - 1)) / mMaxSamples ≤
        buffer.length := blockifyNum_le hm
    have hoffle : (i + 1) * buffer.length /
        ((buffer.length + (mMaxSamples - 1)) / mMaxSamples) ≤
        buffer.length := slice_off_le hnum (i + 1) hi
    have hmono : i * buffer.length /
        ((buffer.length + (mMaxSamples - 1)) / mMaxSamples) + 1 ≤
        (i + 1) * buffer.length /
          ((buffer.length + (mMaxSamples - 1)) / mMaxSamples) :=
      slice_off_succ_ge hnum hnle i
    have hlen : (⟨⟨(buffer.drop
        (i * buffer.length /
          ((buffer.length + (mMaxSamples - 1)) / mMaxSamples))).take
      ((i + 1) * buffer.length /
          ((buffer.length + (mMaxSamples - 1)) / mMaxSamples) -
        i * buffer.length /
          ((buffer.length + (mMaxSamples - 1)) / mMaxSamples))⟩,
        start + (i * buffer.length /
          ((buffer.length + (mMaxSamples - 1)) / mMaxSamples) : Nat)⟩ :
        SeqBlock).f.GetLength =
        (i + 1) * buffer.length /
            ((buffer.length + (mMaxSamples - 1)) / mMaxSamples) -
          i * buffer.length /
            ((buffer.length + (mMaxSamples - 1)) / mMaxSamples) := by
      show ((buffer.drop _).take _).length = _
      rw [List.length_take, List.length_drop]
      omega
    rw [hlen]
    constructor
    · omega
    · exact Nat.le_trans (slice_diff_le_ceil hnum i) (slice_ceil_le_max hb hm)

theorem slice_off_mono {len num : Nat} {i j : Nat} (h : i ≤ j) :
    i * len / num ≤ j * len / num :=
  Nat.div_le_div_right (Nat.mul_le_mul_right _ h)

theorem blockify_get_eq (mMaxSamples : Nat) (start : Int)
    (buffer : List Sample) (hb : buffer.length ≠ 0) (i : Nat)
    (hi : i < (Sequence.Blockify mMaxSamples start buffer).length) :
    (Sequence.Blockify mMaxSamples start buffer).get ⟨i, hi⟩ =
      ⟨⟨(buffer.drop (i * buffer.length /
            ((buffer.length + (mMaxSamples - 1)) / mMaxSamples))).take
          ((i + 1) * buffer.length /
              ((buffer.length + (mMaxSamples - 1)) / mMaxSamples) -
            i * buffer.length /
              ((buffer.length + (mMaxSamples - 1)) / mMaxSamples))⟩,
        start + (i * buffer.length /
          ((buffer.length + (mMaxSamples - 1)) / mMaxSamples) : Nat)⟩ := by
  rw [List.get_of_eq (blockify_eq_map _ _ _ hb)]
  simp only [Fin.cast, List.get_eq_getElem, List.getElem_map,
    List.getElem_range]

theorem blockify_len_bound (mMaxSamples : Nat) (start : Int)
    (buffer : List Sample) (hb : buffer.length ≠ 0) (hm : 1 ≤ mMaxSamples)
    (i : Nat) (hi : i < (Sequence.Blockify mMaxSamples start buffer).length) :
    ((Sequence.Blockify mMaxSamples start buffer).get ⟨i, hi⟩).f.GetLength =
      (i + 1) * buffer.length /
          ((buffer.length + (mMaxSamples - 1)) / mMaxSamples) -
        i * buffer.length /
          ((buffer.length + (mMaxSamples - 1)) / mMaxSamples) := by
  have hnum : 0 < (buffer.length + (mMaxSamples - 1)) / mMaxSamples :=
    blockifyNum_pos hb hm
  have hi' : i < (buffer.length + (mMaxSamples - 1)) / mMaxSamples := by
    have h2 := hi
    rw [blockify_eq_map _ _ _ hb, List.length_map, List.length_range] at h2
    exact h2
  rw [blockify_get_eq _ _ _ hb]
  show ((buffer.drop _).take _).length = _
  rw [List.length_take, List.length_drop]
  have h1 : (i + 1) * buffer.length /
      ((buffer.length + (mMaxSamples - 1)) / mMaxSamples) ≤ buffer.length :=
    slice_off_le hnum (i + 1) hi'
  have h0 : i * buffer.length /
      ((buffer.length + (mMaxSamples - 1)) / mMaxSamples) ≤
      (i + 1) * buffer.length /
        ((buffer.length + (mMaxSamples - 1)) / mMaxSamples) :=
    slice_off_mono (Nat.le_succ i)
  omega

/-- C7 claim: for a nonempty buffer of totalLen samples and
mMaxSamples >= 1, Blockify produces exactly ceil(totalLen / mMaxSamples)
new blocks (which the callers append to their list); block i starts at
startOffset + i * totalLen / num (integer division, num the block count)
and has length offset(i+1) - offset(i); all produced lengths differ
pairwise by at most one, each is positive and at most mMaxSamples, and
they sum to totalLen. -/
theorem claim_C7_blockify (mMaxSamples : Nat) (start : Int)
    (buffer : List Sample) (hbuf : 0 < buffer.length)
    (hmax : 1 ≤ mMaxSamples) :
    (Sequence.Blockify mMaxSamples start buffer).length =
      (buffer.length + mMaxSamples - 1) / mMaxSamples ∧
    (∀ i : Nat,
      ∀ hi : i < (Sequence.Blockify mMaxSamples start buffer).length,
      ((Sequence.Blockify mMaxSamples start buffer).get ⟨i, hi⟩).start =
        start + (i * buffer.length /
          ((buffer.length + mMaxSamples - 1) / mMaxSamples) : Nat) ∧
      ((Sequence.Blockify mMaxSamples start buffer).get ⟨i, hi⟩).f.GetLength =
        (i + 1) * buffer.length /
            ((buffer.length + mMaxSamples - 1) / mMaxSamples) -
          i * buffer.length /
            ((buffer.length + mMaxSamples - 1) / mMaxSamples) ∧
      1 ≤ ((Sequence.Blockify mMaxSamples start buffer).get
        ⟨i, hi⟩).f.GetLength ∧
      ((Sequence.Blockify mMaxSamples start buffer).get
        ⟨i, hi⟩).f.GetLength ≤ mMaxSamples) ∧
    (∀ i j : Nat,
      ∀ hi : i < (Sequence.Blockify mMaxSamples start buffer).length,
      ∀ hj : j < (Sequence.Blockify mMaxSamples start buffer).length,
      ((Sequence.Blockify mMaxSamples start buffer).get ⟨i, hi⟩).f.GetLength ≤
        ((Sequence.Blockify mMaxSamples start buffer).get
          ⟨j, hj⟩).f.GetLength + 1) ∧
    sumLens (Sequence.Blockify mMaxSamples start buffer) = buffer.length := by
  have hb : buffer.length ≠ 0 := Nat.pos_iff_ne_zero.mp hbuf
  have hassoc : buffer.length + mMaxSamples - 1 =
      buffer.length + (mMaxSamples - 1) := by omega
  have hnum : 0 < (buffer.length + (mMaxSamples - 1)) / mMaxSamples :=
    blockifyNum_pos hb hmax
  have hnle : (buffer.length + (mMaxSamples - 1)) / mMaxSamples ≤
      buffer.length := blockifyNum_le hmax
  refine ⟨?_, ?_, ?_, blockify_sumLens _ _ _ hmax⟩
  · rw [blockify_eq_map _ _ _ hb, List.length_map, List.length_range, hassoc]
  · intro i hi
    have hi' : i < (buffer.length + (mMaxSamples - 1)) / mMaxSamples := by
      have h2 := hi
      rw [blockify_eq_map _ _ _ hb, List.length_map, List.length_range] at h2
      exact h2
    refine ⟨?_, ?_, ?_, ?_⟩
    · rw [blockify_get_eq _ _ _ hb, hassoc]
    · rw [blockify_len_bound _ _ _ hb hmax, hassoc]
    · rw [blockify_len_bound _ _ _ hb hmax]
      have := slice_off_succ_ge hnum hnle i
      omega
    · rw [blockify_len_bound _ _ _ hb hmax]
      exact Nat.le_trans (slice_diff_le_ceil hnum i) (slice_ceil_le_max hb hmax)
  · intro i j hi hj
    rw [blockify_len_bound _ _ _ hb hmax, blockify_len_bound _ _ _ hb hmax]
    have hiu := @slice_diff_le_ceil buffer.length
      ((buffer.length + (mMaxSamples - 1)) / mMaxSamples) hnum i
    have hic := @ceil_le_floor_add_one buffer.length
      ((buffer.length + (mMaxSamples - 1)) / mMaxSamples) hnum
    have hjl := @slice_diff_ge_floor buffer.length
      ((buffer.length + (mMaxSamples - 1)) / mMaxSamples) hnum j
    omega

def bufC7 : List Sample := [1, 2, 3, 4, 5]

theorem claim_C7_witness :
    0 < bufC7.length ∧ 1 ≤ 2 ∧
    (Sequence.Blockify 2 0 bufC7).length = (bufC7.length + 2 - 1) / 2 ∧
    sumLens (Sequence.Blockify 2 0 bufC7) = bufC7.length :=
  ⟨by decide, by decide,
    (claim_C7_blockify 2 0 bufC7 (by decide) (by decide)).1,
    (claim_C7_blockify 2 0 bufC7 (by decide) (by decide)).2.2.2⟩

/-!  ## XML end tag repair  -/

/-- The gap the first HandleXMLEndTag loop computes for block `i`: the
distance from its stored start to the next block's stored start, or to
mNumSamples for the last block. -/
def xmlGap (mBlock : List RawBlock) (mNumSamples : Int) (i : Nat) : Int :=
  (match mBlock[i + 1]? with
   | some nextBlock => nextBlock.start
   | none => mNumSamples) -
  (match mBlock[i]? with
   | some b => b.start
   | none => 0)

theorem xmlPass1_length (mMaxSamples : Nat) (mNumSamples : Int)
    (l : List RawBlock) : (xmlPass1 mMaxSamples mNumSamples l).length =
      l.length := by
  induction l with
  | nil => rfl
  | cons b rest ih =>
    rw [xmlPass1]
    simpa using ih

theorem xmlGap_cons (b : RawBlock) (l : List RawBlock) (mNumSamples : Int)
    (i : Nat) : xmlGap (b :: l) mNumSamples (i + 1) =
      xmlGap l mNumSamples i := by
  rw [xmlGap, xmlGap]
  simp

theorem xmlGap_zero (b : RawBlock) (l : List RawBlock) (mNumSamples : Int) :
    xmlGap (b :: l) mNumSamples 0 =
      (match l.head? with
       | some b2 => b2.start
       | none => mNumSamples) - b.start := by
  rw [xmlGap]
  cases l with
  | nil => simp
  | cons b2 rest => simp

theorem xmlPass1_getElem (mMaxSamples : Nat) (mNumSamples : Int)
    (l : List RawBlock) :
    ∀ i : Nat, (xmlPass1 mMaxSamples mNumSamples l)[i]? =
      (l[i]?).map fun b =>
        (⟨xmlFixBlock mMaxSamples b (xmlGap l mNumSamples i), b.start⟩ :
          SeqBlock) := by
  induction l with
  | nil =>
    intro i
    rfl
  | cons b rest ih =>
    intro i
    rw [xmlPass1]
    match i with
    | 0 =>
      simp only [List.getElem?_cons_zero, Option.map_some]
      rw [xmlGap_zero]
      rfl
    | j + 1 =>
      simp only [List.getElem?_cons_succ]
      rw [ih j, xmlGap_cons]

theorem xmlPass2_length (pos : Int) (l : List SeqBlock) :
    (xmlPass2 pos l).1.length = l.length := by
  induction l generalizing pos with
  | nil => rfl
  | cons b rest ih =>
    rw [xmlPass2]
    simp [ih]

theorem xmlPass2_files (pos : Int) (l : List SeqBlock) :
    ∀ i : Nat, ((xmlPass2 pos l).1[i]?).map (·.f) = (l[i]?).map (·.f) := by
  induction l generalizing pos with
  | nil =>
    intro i
    rfl
  | cons b rest ih =>
    intro i
    rw [xmlPass2]
    match i with
    | 0 =>
      simp only [List.getElem?_cons_zero, Option.map_some]
      by_cases hk : b.start = pos <;> simp [hk]
    | j + 1 =>
      simp only [List.getElem?_cons_succ]
      exact ih _ j

theorem xmlPass2_contig (pos : Int) (l : List SeqBlock) :
    ContigFrom pos (xmlPass2 pos l).1 := by
  induction l generalizing pos with
  | nil => exact contigFrom_nil pos
  | cons b rest ih =>
    rw [xmlPass2]
    have hfix : (if b.start = pos then b else { b with start := pos }).start
        = pos := by
      by_cases hk : b.start = pos <;> simp [hk]
    refine contigFrom_cons.mpr ⟨hfix, ?_⟩
    have hflen : (if b.start = pos then b
        else { b with start := pos }).f.GetLength = b.f.GetLength := by
      by_cases hk : b.start = pos <;> simp [hk]
    rw [hflen]
    exact ih (pos + b.f.GetLength)

theorem xmlPass2_unchanged (pos : Int) (l : List SeqBlock)
    (h : (xmlPass2 pos l).2 = false) : (xmlPass2 pos l).1 = l := by
  induction l generalizing pos with
  | nil => rfl
  | cons b rest ih =>
    rw [xmlPass2] at h ⊢
    simp only [Bool.or_eq_false_iff, Bool.not_eq_false] at h
    obtain ⟨hk, hrest⟩ := h
    have hk' : b.start = pos := by simpa using hk
    simp only [if_pos hk']
    rw [ih _ hrest]

theorem xmlPass2_sumLens (pos : Int) (l : List SeqBlock) :
    sumLens (xmlPass2 pos l).1 = sumLens l := by
  induction l generalizing pos with
  | nil => rfl
  | cons b rest ih =>
    rw [xmlPass2]
    have hflen : (if b.start = pos then b
        else { b with start := pos }).f.GetLength = b.f.GetLength := by
      by_cases hk : b.start = pos <;> simp [hk]
    simp only [sumLens_cons, hflen, ih]


theorem xmlPass1_starts (mMaxSamples : Nat) (mNumSamples : Int)
    (l : List RawBlock) (i : Nat) :
    ((xmlPass1 mMaxSamples mNumSamples l)[i]?).map (·.start) =
      (l[i]?).map RawBlock.start := by
  rw [xmlPass1_getElem]
  cases l[i]? <;> rfl

def rawC9 : List RawBlock := [⟨none, 3⟩, ⟨some ⟨[5]⟩, 1⟩]

/-- C9 counterexample: block 0 is missing its file and its stored start 3
exceeds the next block's stored start 1, so the computed gap is -2; the
cap applies only when the gap exceeds mMaxSamples, so the negative gap is
not capped, and sampleCount::as_size_t turns it into 2^64 - 2: the silent
replacement block is astronomically longer than mMaxSamples = 4,
contradicting the claimed postcondition that missing files are replaced
by silent blocks of the gap length capped at maxSamples. -/
theorem claim_C9_counterexample :
    (Sequence.HandleXMLEndTag rawC9 2 4 false).1.head? =
      some ⟨SilentBlockFile (2 ^ 64 - 2), 0⟩ ∧
    (SilentBlockFile (2 ^ 64 - 2)).GetLength = 2 ^ 64 - 2 ∧
    ¬(SilentBlockFile (2 ^ 64 - 2)).GetLength ≤ 4 := by
  refine ⟨rfl, List.length_replicate _ _, ?_⟩
  have h : (SilentBlockFile (2 ^ 64 - 2)).GetLength = 2 ^ 64 - 2 :=
    List.length_replicate _ _
  rw [h]
  decide

/-- C9 amended: after the end of the sequence tag — provided the stored
gap at every missing block is nonnegative (stored starts nondecreasing
there; a negative gap wraps through as_size_t and escapes the cap, see the
counterexample) and mMaxSamples is a size_t value — the loaded list
satisfies: it keeps one (non-null) block per stored block; a missing file
is replaced by a silent block of the gap length capped at mMaxSamples;
block starts are contiguous from 0; the resulting numsamples equals the
sum of the block lengths; and mErrorOpening is true whenever it was
already true, a file was missing, a start was moved, or the stored
numsamples was corrected. -/
theorem claim_C9_xml_repair (mBlock : List RawBlock) (mNumSamples : Int)
    (mMaxSamples : Nat) (mErrorOpening : Bool)
    (hmax : (mMaxSamples : Int) < 2 ^ 64)
    (hgap : ∀ i : Nat, ∀ rb ∈ mBlock[i]?, rb.f = none →
      0 ≤ xmlGap mBlock mNumSamples i) :
    ∀ blocks2 : List SeqBlock, ∀ numSamples2 : Int, ∀ flag2 : Bool,
      Sequence.HandleXMLEndTag mBlock mNumSamples mMaxSamples mErrorOpening =
        (blocks2, numSamples2, flag2) →
      blocks2.length = mBlock.length ∧
      (∀ i : Nat, ∀ rb ∈ mBlock[i]?,
        (rb.f = none →
          (blocks2[i]?).map (·.f) = some (SilentBlockFile
            (min (xmlGap mBlock mNumSamples i) (mMaxSamples : Int)).toNat)) ∧
        (∀ file : BlockFile, rb.f = some file →
          (blocks2[i]?).map (·.f) = some file)) ∧
      ContigFrom 0 blocks2 ∧
      numSamples2 = (sumLens blocks2 : Int) ∧
      (mErrorOpening = true → flag2 = true) ∧
      (mBlock.any (fun b => b.f.isNone) = true → flag2 = true) ∧
      ((∃ i : Nat, (blocks2[i]?).map (·.start) ≠
          (mBlock[i]?).map RawBlock.start) → flag2 = true) ∧
      (numSamples2 ≠ mNumSamples → flag2 = true) := by
  intro blocks2 numSamples2 flag2 heq
  rw [Sequence.HandleXMLEndTag] at heq
  injection heq with h1 hrest
  injection hrest with h2 h3
  subst h1
  subst h2
  subst h3
  refine ⟨?_, ?_, xmlPass2_contig 0 _, rfl, ?_, ?_, ?_, ?_⟩
  · rw [xmlPass2_length, xmlPass1_length]
  · intro i rb hrb
    have hfile := xmlPass2_files 0 (xmlPass1 mMaxSamples mNumSamples mBlock) i
    rw [xmlPass1_getElem] at hfile
    constructor
    · intro hnone
      rw [hfile]
      cases hmem : mBlock[i]? with
      | none =>
        rw [hmem] at hrb
        exact absurd hrb (by simp)
      | some rb2 =>
        rw [hmem] at hrb
        obtain rfl : rb2 = rb := by simpa using hrb
        simp only [Option.map_some']
        have hg := hgap i rb2 (by simp [hmem]) hnone
        congr 1
        rw [xmlFixBlock, hnone]
        congr 1
        rw [asSizeT]
        by_cases hcap : (mMaxSamples : Int) < xmlGap mBlock mNumSamples i
        · rw [if_pos hcap]
          rw [Int.min_def, if_neg (by omega)]
          rw [Int.emod_eq_of_lt (by positivity) hmax]
        · rw [if_neg hcap]
          rw [Int.min_def, if_pos (by omega)]
          rw [Int.emod_eq_of_lt hg (by omega)]
    · intro file hfile2
      rw [hfile]
      cases hmem : mBlock[i]? with
      | none =>
        rw [hmem] at hrb
        exact absurd hrb (by simp)
      | some rb2 =>
        rw [hmem] at hrb
        obtain rfl : rb2 = rb := by simpa using hrb
        simp only [Option.map_some']
        rw [xmlFixBlock, hfile2]
  · intro h
    simp [h]
  · intro h
    simp [h]
  · intro h
    obtain ⟨i, hi⟩ := h
    by_cases hch : (xmlPass2 0 (xmlPass1 mMaxSamples mNumSamples mBlock)).2 =
        true
    · simp [hch]
    · exfalso
      have hunch := xmlPass2_unchanged 0
        (xmlPass1 mMaxSamples mNumSamples mBlock)
        (Bool.not_eq_true _ ▸ hch)
      rw [hunch] at hi
      exact hi (xmlPass1_starts mMaxSamples mNumSamples mBlock i)
  · intro h
    simp only [Bool.or_eq_true, decide_eq_true_eq]
    right
    exact Ne.symm h

def rawC9b : List RawBlock := [⟨none, 0⟩, ⟨some ⟨[5]⟩, 7⟩]

theorem claim_C9_witness :
    Sequence.HandleXMLEndTag rawC9b 9 4 false =
      ([⟨SilentBlockFile 4, 0⟩, ⟨⟨[5]⟩, 4⟩], 5, true) ∧
    ((Sequence.HandleXMLEndTag rawC9b 9 4 false).1.length = rawC9b.length ∧
     ContigFrom 0 (Sequence.HandleXMLEndTag rawC9b 9 4 false).1 ∧
     (Sequence.HandleXMLEndTag rawC9b 9 4 false).2.1 =
       (sumLens (Sequence.HandleXMLEndTag rawC9b 9 4 false).1 : Int)) := by
  have h := claim_C9_xml_repair rawC9b 9 4 false (by decide)
    (by
      intro i rb hrb hnone
      match i with
      | 0 => decide
      | 1 => decide
      | n + 2 => simp [rawC9b] at hrb)
    (Sequence.HandleXMLEndTag rawC9b 9 4 false).1
    (Sequence.HandleXMLEndTag rawC9b 9 4 false).2.1
    (Sequence.HandleXMLEndTag rawC9b 9 4 false).2.2
    rfl
  exact ⟨rfl, h.1, h.2.2.1, h.2.2.2.1⟩

/-!  ## Flat-content decomposition  -/

theorem take_app_len {α : Type} (A B : List α) (k : Nat) :
    (A ++ B).take (A.length + k) = A ++ B.take k := by
  simp [List.take_append_eq_append_take]

theorem drop_app_len {α : Type} (A B : List α) (k : Nat) :
    (A ++ B).drop (A.length + k) = B.drop k := by
  simp [List.drop_append_eq_append_drop]

theorem take_add_split {α : Type} (l : List α) (m n : Nat) :
    l.take m ++ (l.drop m).take n = l.take (m + n) :=
  (List.take_add l m n).symm

theorem flat_plus (bs : List SeqBlock) (d : Int) :
    (bs.map (·.Plus d)).flatMap (·.f.samples) = bs.flatMap (·.f.samples) := by
  rw [List.flatMap_map]
  rfl

theorem sumLens_map_plus (bs : List SeqBlock) (d : Int) :
    sumLens (bs.map (·.Plus d)) = sumLens bs := by
  unfold sumLens
  rw [List.map_map]
  rfl

theorem flat_split (bs : List SeqBlock) (i : Nat) :
    bs.flatMap (·.f.samples) =
      (bs.take i).flatMap (·.f.samples) ++
        (bs.drop i).flatMap (·.f.samples) := by
  rw [← List.flatMap_append, List.take_append_drop]

theorem flat_take_eq (bs : List SeqBlock) (i : Nat) :
    (bs.flatMap (·.f.samples)).take (sumLens (bs.take i)) =
      (bs.take i).flatMap (·.f.samples) := by
  rw [flat_split bs i]
  exact List.take_left' (sumLens_eq_flat_length (bs.take i)).symm

theorem flat_drop_eq (bs : List SeqBlock) (i : Nat) :
    (bs.flatMap (·.f.samples)).drop (sumLens (bs.take i)) =
      (bs.drop i).flatMap (·.f.samples) := by
  rw [flat_split bs i]
  exact List.drop_left' (sumLens_eq_flat_length (bs.take i)).symm

theorem contigFrom_append {pos : Int} {xs ys : List SeqBlock} :
    ContigFrom pos (xs ++ ys) ↔
      ContigFrom pos xs ∧ ContigFrom (pos + (sumLens xs : Int)) ys := by
  induction xs generalizing pos with
  | nil =>
    simp only [List.nil_append, sumLens_nil, Nat.cast_zero, add_zero]
    exact ⟨fun h => ⟨contigFrom_nil pos, h⟩, fun h => h.2⟩
  | cons b rest ih =>
    simp only [List.cons_append, contigFrom_cons, ih, sumLens_cons]
    have hcast : pos + ((b.f.GetLength + sumLens rest : Nat) : Int) =
        pos + (b.f.GetLength : Int) + (sumLens rest : Int) := by
      push_cast
      ring
    rw [hcast]
    tauto

theorem contigFrom_take {pos : Int} {bs : List SeqBlock}
    (h : ContigFrom pos bs) (i : Nat) : ContigFrom pos (bs.take i) := by
  rw [← List.take_append_drop i bs] at h
  exact (contigFrom_append.mp h).1

theorem contigFrom_drop {pos : Int} {bs : List SeqBlock}
    (h : ContigFrom pos bs) (i : Nat) :
    ContigFrom (pos + (sumLens (bs.take i) : Int)) (bs.drop i) := by
  rw [← List.take_append_drop i bs] at h
  exact (contigFrom_append.mp h).2

theorem contigFrom_map_plus {pos : Int} {bs : List SeqBlock} (d : Int)
    (h : ContigFrom pos bs) : ContigFrom (pos + d) (bs.map (·.Plus d)) := by
  intro i hi
  have hi' : i < bs.length := by simpa using hi
  have hbase := h i hi'
  simp only [List.get_eq_getElem, List.getElem_map] at hbase ⊢
  rw [← List.map_take, sumLens_map_plus]
  show bs[i].start + d = pos + d + (sumLens (bs.take i) : Int)
  omega

theorem contigFrom_singleton {pos : Int} {b : SeqBlock} :
    ContigFrom pos [b] ↔ b.start = pos := by
  rw [show [b] = b :: [] from rfl, contigFrom_cons]
  exact ⟨fun h => h.1, fun h => ⟨h, contigFrom_nil _⟩⟩

/-!  ## Result extraction for the commit helpers  -/

theorem commit_ok {s : Sequence} {nb : List SeqBlock} {ns : Int}
    {t : Sequence} (h : s.CommitChangesIfConsistent nb ns = .ok t) :
    t = { s with mBlock := nb, mNumSamples := ns } ∧
      Sequence.ConsistencyCheckB nb s.mMaxSamples 0 ns = true := by
  unfold Sequence.CommitChangesIfConsistent at h
  split at h
  · next hchk =>
    injection h with h'
    exact ⟨h'.symm, hchk⟩
  · exact absurd h (by simp)

theorem checkB_tail {bs : List SeqBlock} {maxS from_ : Nat} {total : Int}
    {b0 : SeqBlock} {tl : List SeqBlock}
    (hdrop : bs.drop from_ = b0 :: tl)
    (h : Sequence.ConsistencyCheckB bs maxS from_ total = true) :
    ContigFrom b0.start (b0 :: tl) ∧
      (∀ b ∈ b0 :: tl, b.f.GetLength ≤ maxS) ∧
      total = b0.start + (sumLens (b0 :: tl) : Int) := by
  unfold Sequence.ConsistencyCheckB at h
  rw [hdrop] at h
  simp only [List.head?_cons] at h
  obtain ⟨h1, h2⟩ := Bool.and_eq_true_iff.mp h
  exact ccWalk_sound (beq_iff_eq.mp h2)

/-!  ## Correctness of the Get loop  -/

/-- On a consistent block list, the Get loop starting inside block `b`
reads exactly the requested window of the flat contents. -/
theorem getLoop_eq {bs : List SeqBlock} (hc : ContigFrom 0 bs)
    (h5 : ∀ blk ∈ bs, blk.f.GetLength ≠ 0) :
    ∀ fuel b len : Nat, ∀ start : Int,
      bs.length ≤ b + fuel →
      (len ≠ 0 → sumTake bs b ≤ start ∧ start < sumTake bs (b + 1)) →
      start + (len : Int) ≤ (sumLens bs : Int) →
      Sequence.GetLoop bs fuel b start len =
        some (((bs.flatMap (·.f.samples)).drop start.toNat).take len) := by
  intro fuel
  induction fuel with
  | zero =>
    intro b len start hfuel hin hhi
    match len with
    | 0 => rfl
    | k + 1 =>
      exfalso
      obtain ⟨hlo, hup⟩ := hin (by omega)
      have h1 := sumTake_length bs b (by omega)
      have h2 := sumTake_length bs (b + 1) (by omega)
      omega
  | succ f ih =>
    intro b len start hfuel hin hhi
    match len with
    | 0 => rfl
    | k + 1 =>
      obtain ⟨hlo, hup⟩ := hin (by omega)
      have hblt : b < bs.length := by
        by_contra hge
        have h1 := sumTake_length bs b (by omega)
        have h2 := sumTake_length bs (b + 1) (by omega)
        omega
      have hsome : bs[b]? = some (bs.get ⟨b, hblt⟩) :=
        List.getElem?_eq_getElem hblt
      have hstart := contig_get_start hc hblt
      have hend := contig_get_end hc hblt
      set block := bs.get ⟨b, hblt⟩ with hblockdef
      have hsb : sumTake bs b = ((sumLens (bs.take b) : Nat) : Int) := rfl
      have hsb1 : sumTake bs (b + 1) =
          ((sumLens (bs.take (b + 1)) : Nat) : Int) := rfl
      have hsbstep : sumLens (bs.take (b + 1)) =
          sumLens (bs.take b) + block.f.GetLength := sumLens_take_succ hblt
      have hpos : 0 ≤ start := le_trans (by rw [hsb]; positivity) hlo
      rw [Sequence.GetLoop]
      simp only [hsome]
      set bstart := (start - block.start).toNat with hbstartdef
      have hbs_cast : (bstart : Int) = start - block.start := by
        rw [hbstartdef]
        rw [Int.toNat_of_nonneg (by omega)]
      have hbslt : bstart < block.f.GetLength := by
        rw [hsb1] at hup
        omega
      set L := block.f.GetLength with hLdef
      set blen := min (k + 1) (L - bstart) with hblendef
      have hblen1 : 1 ≤ blen := by omega
      have hblenk : blen ≤ k + 1 := by omega
      have hblenL : blen ≤ L - bstart := by omega
      have hrec := ih (b + 1) (k + 1 - blen) (start + (blen : Int))
        (by omega) ?_ ?_
      · rw [hrec, Option.map_some']
        congr 1
        have hstN : start.toNat = sumLens (bs.take b) + bstart := by omega
        have hA : (bs.flatMap (·.f.samples)).drop start.toNat =
            block.f.samples.drop bstart ++
              (bs.drop (b + 1)).flatMap (·.f.samples) := by
          rw [hstN, ← List.drop_drop, flat_drop_eq,
            List.drop_eq_getElem_cons hblt, List.flatMap_cons,
            List.drop_append_eq_append_drop]
          have hbg : (bs[b] : SeqBlock) = block := rfl
          have hlen : block.f.samples.length = L := rfl
          rw [hbg, hlen, show bstart - L = 0 by omega, List.drop_zero]
        have hlenA : (block.f.samples.drop bstart).length = L - bstart := by
          rw [List.length_drop]
          rfl
        have hstN2 : (start + (blen : Int)).toNat = start.toNat + blen := by
          omega
        rw [hstN2, ← List.drop_drop, hA]
        show Sequence.ReadBlock block bstart blen ++
            ((block.f.samples.drop bstart ++
              (bs.drop (b + 1)).flatMap (·.f.samples)).drop blen).take
                (k + 1 - blen) =
          (block.f.samples.drop bstart ++
            (bs.drop (b + 1)).flatMap (·.f.samples)).take (k + 1)
        have hread : Sequence.ReadBlock block bstart blen =
            (block.f.samples.drop bstart ++
              (bs.drop (b + 1)).flatMap (·.f.samples)).take blen := by
          rw [List.take_append_of_le_length (by omega)]
          rfl
        rw [hread, take_add_split, show blen + (k + 1 - blen) = k + 1 by omega]
      · intro hne
        have hblenL2 : blen = L - bstart := by omega
        have heq : start + (blen : Int) = sumTake bs (b + 1) := by
          rw [hsb1, hsbstep]
          rw [hstart, hsb] at hbs_cast
          omega
        refine ⟨le_of_eq heq.symm, ?_⟩
        have hb1lt : b + 1 < bs.length := by
          by_contra hge
          have h1 := sumTake_length bs (b + 1) (by omega)
          omega
        have := sumTake_strict_mono h5 (show b + 1 < b + 1 + 1 by omega) hb1lt
        omega
      · push_cast
        push_cast at hhi
        omega

/-- Whole-contents read: Get from block 0 at position 0 over the full
length returns the flat contents. -/
theorem get_all {s : Sequence} (hInv : s.Inv) (hns : s.mNumSamples ≠ 0) :
    s.Get 0 0 s.mNumSamples.toNat = some s.contents := by
  obtain ⟨hc, h3, h4, h5⟩ := (inv_characterisation s).mp hInv
  have hlen : s.mNumSamples.toNat = sumLens s.mBlock := by omega
  have hne : s.mBlock ≠ [] := by
    intro hmt
    rw [hmt] at h3
    simp at h3
    exact hns h3
  have hlpos : 1 ≤ s.mBlock.length := by
    cases hbs : s.mBlock with
    | nil => exact absurd hbs hne
    | cons a l => simp [hbs]
  have h01 : sumTake s.mBlock 0 < sumTake s.mBlock (0 + 1) :=
    sumTake_strict_mono h5 (by omega) (by omega)
  have h00 : sumTake s.mBlock 0 = 0 := by simp [sumTake]
  have hrun := getLoop_eq hc h5 (s.mBlock.length + 1) 0 s.mNumSamples.toNat 0
    (by omega) (fun _ => ⟨by omega, by omega⟩) (by rw [hlen]; omega)
  rw [Sequence.Get, hrun]
  congr 1
  rw [Int.toNat_zero, List.drop_zero, hlen, Sequence.contents,
    sumLens_eq_flat_length]
  exact List.take_length _

/-!  ## The AppendBlock loop of Paste  -/

theorem appendBlockLoop_ok :
    ∀ {rest acc : List SeqBlock} {samples : Int} {out : List SeqBlock × Int},
      Sequence.AppendBlockLoop acc samples rest = some out →
      out.1.flatMap (·.f.samples) =
          acc.flatMap (·.f.samples) ++ rest.flatMap (·.f.samples) ∧
        out.2 = samples + (sumLens rest : Int) ∧
        (∀ b ∈ out.1, b ∈ acc ∨ ∃ sb ∈ rest, b.f = sb.f) := by
  intro rest
  induction rest with
  | nil =>
    intro acc samples out h
    rw [Sequence.AppendBlockLoop] at h
    injection h with h
    subst h
    refine ⟨by simp, by simp, ?_⟩
    intro b hb
    exact Or.inl hb
  | cons sb r ih =>
    intro acc samples out h
    rw [Sequence.AppendBlockLoop] at h
    split at h
    · exact absurd h (by simp)
    · obtain ⟨hflat, hsum, hmem⟩ := ih h
      refine ⟨?_, ?_, ?_⟩
      · rw [hflat, List.flatMap_append, List.flatMap_cons]
        simp
      · rw [hsum, sumLens_cons]
        push_cast
        ring
      · intro b hb
        rcases hmem b hb with hacc | ⟨sb2, hsb2, hf⟩
        · rcases List.mem_append.mp hacc with h1 | h1
          · exact Or.inl h1
          · refine Or.inr ⟨sb, List.mem_cons_self sb r, ?_⟩
            have : b = ⟨sb.f, samples⟩ := by simpa using h1
            rw [this]
        · exact Or.inr ⟨sb2, List.mem_cons_of_mem sb hsb2, hf⟩

/-!  ## The chunking loop of Append  -/

theorem appendChunks_ok {maxS : Nat} :
    ∀ {fuel : Nat} {pos : Int} {buf : List Sample} {cs : List SeqBlock},
      Sequence.AppendChunks maxS fuel pos buf = some cs →
      (∀ c ∈ cs, c.f.GetLength ≠ 0) ∧
        (cs.flatMap (·.f.samples) = buf) ∧
        (buf ≠ [] → ∃ c tl, cs = c :: tl ∧ c.start = pos) := by
  intro fuel
  induction fuel with
  | zero =>
    intro pos buf cs h
    rw [Sequence.AppendChunks] at h
    split at h
    · next hmt =>
      injection h with h
      subst h
      rw [List.isEmpty_iff] at hmt
      exact ⟨by simp, by simp [hmt], fun hne => absurd hmt hne⟩
    · exact absurd h (by simp)
  | succ f ih =>
    intro pos buf cs h
    rw [Sequence.AppendChunks] at h
    split at h
    · next hmt =>
      injection h with h
      subst h
      rw [List.isEmpty_iff] at hmt
      exact ⟨by simp, by simp [hmt], fun hne => absurd hmt hne⟩
    · next hmt =>
      rw [List.isEmpty_iff] at hmt
      simp only [] at h
      split at h
      · exact absurd h (by simp)
      · next hadd =>
        cases hrec : Sequence.AppendChunks maxS f
            (pos + (min maxS buf.length : Nat)) (buf.drop (min maxS buf.length)) with
        | none =>
          rw [hrec] at h
          exact absurd h (by simp)
        | some cs2 =>
          rw [hrec] at h
          simp only [Option.map_some'] at h
          injection h with h
          subst h
          obtain ⟨hlen, hflat, _⟩ := ih hrec
          have htk : (buf.take (min maxS buf.length)).length =
              min maxS buf.length := by
            rw [List.length_take]
            omega
          refine ⟨?_, ?_, ?_⟩
          · intro c hc
            rcases List.mem_cons.mp hc with rfl | hc2
            · show (buf.take (min maxS buf.length)).length ≠ 0
              omega
            · exact hlen c hc2
          · rw [List.flatMap_cons, hflat]
            exact List.take_append_drop _ _
          · intro _
            exact ⟨_, _, rfl, rfl⟩

/-!  ## The block loop of SetSamples  -/

theorem setSamplesLoop_pieces {bs : List SeqBlock} {maxS : Nat}
    {buffer : Option (Nat → Sample)} :
    ∀ {fuel b bufOff : Nat} {start len : Int}
      {pieces : List SeqBlock} {bEnd : Nat},
      Sequence.SetSamplesLoop bs maxS buffer fuel b bufOff start len =
        .ok (pieces, bEnd) →
      ∀ p ∈ pieces, ∃ blk ∈ bs, p.f.GetLength = blk.f.GetLength := by
  intro fuel
  induction fuel with
  | zero =>
    intro b bufOff start len pieces bEnd h
    rw [Sequence.SetSamplesLoop] at h
    split at h
    · injection h with h
      injection h with h1 h2
      subst h1
      simp
    · exact absurd h (by simp)
  | succ f ih =>
    intro b bufOff start len pieces bEnd h
    rw [Sequence.SetSamplesLoop] at h
    split at h
    · injection h with h
      injection h with h1 h2
      subst h1
      simp
    · cases hb : bs[b]? with
      | none =>
        rw [hb] at h
        exact absurd h (by simp)
      | some block =>
        rw [hb] at h
        simp only [] at h
        split at h
        · exact absurd h (by simp)
        · next hchk =>
          rw [Classical.not_not] at hchk
          obtain ⟨hfl, hbb⟩ := hchk
          split at h
          · next pieces2 bEnd2 hrec =>
            injection h with h
            injection h with h1 h2
            subst h1
            intro p hp
            rcases List.mem_cons.mp hp with rfl | hp2
            · have hmemblk : block ∈ bs := by
                obtain ⟨hlt, hval⟩ := List.getElem?_eq_some_iff.mp hb
                rw [← hval]
                exact List.getElem_mem hlt
              refine ⟨block, hmemblk, ?_⟩
              have hsl : block.f.samples.length = block.f.GetLength := rfl
              simp only [BlockFile.GetLength]
              split
              · simp only [List.length_append, List.length_take]
                split
                · simp only [List.length_map, List.length_range,
                    List.length_drop]
                  omega
                · simp only [List.length_replicate, List.length_drop]
                  omega
              · split
                · simp only [List.length_map, List.length_range]
                · simp only [SilentBlockFile, List.length_replicate]
            · exact ih hrec p hp2
          · exact absurd h (by simp)
          · exact absurd h (by simp)

/-!  ## Pointwise flat decomposition around one block  -/

theorem flat_decomp {bs : List SeqBlock} {g : Nat} (hg : g < bs.length) :
    bs.flatMap (·.f.samples) =
      (bs.take g).flatMap (·.f.samples) ++
        ((bs.get ⟨g, hg⟩).f.samples ++
          (bs.drop (g + 1)).flatMap (·.f.samples)) := by
  rw [flat_split bs g, List.drop_eq_getElem_cons hg, List.flatMap_cons]
  rfl

theorem flat_take_succ {bs : List SeqBlock} {g : Nat} (hg : g < bs.length) :
    (bs.take (g + 1)).flatMap (·.f.samples) =
      (bs.take g).flatMap (·.f.samples) ++ (bs.get ⟨g, hg⟩).f.samples := by
  rw [List.take_succ, List.flatMap_append, List.getElem?_eq_getElem hg]
  simp

theorem contents_take_mid {bs : List SeqBlock} {g : Nat} (hg : g < bs.length)
    {p : Nat} (hp : p ≤ (bs.get ⟨g, hg⟩).f.GetLength) :
    (bs.flatMap (·.f.samples)).take (sumLens (bs.take g) + p) =
      (bs.take g).flatMap (·.f.samples) ++
        (bs.get ⟨g, hg⟩).f.samples.take p := by
  have hp2 : p ≤ (bs.get ⟨g, hg⟩).f.samples.length := hp
  rw [flat_decomp hg,
    show sumLens (bs.take g) = ((bs.take g).flatMap (·.f.samples)).length from
      sumLens_eq_flat_length (bs.take g), take_app_len,
    List.take_append_of_le_length hp2]

theorem contents_drop_mid {bs : List SeqBlock} {g : Nat} (hg : g < bs.length)
    {p : Nat} (hp : p ≤ (bs.get ⟨g, hg⟩).f.GetLength) :
    (bs.flatMap (·.f.samples)).drop (sumLens (bs.take g) + p) =
      (bs.get ⟨g, hg⟩).f.samples.drop p ++
        (bs.drop (g + 1)).flatMap (·.f.samples) := by
  rw [flat_decomp hg,
    show sumLens (bs.take g) = ((bs.take g).flatMap (·.f.samples)).length from
      sumLens_eq_flat_length (bs.take g), drop_app_len,
    List.drop_append_eq_append_drop,
    show p - (bs.get ⟨g, hg⟩).f.samples.length = 0 by
      have : (bs.get ⟨g, hg⟩).f.samples.length =
        (bs.get ⟨g, hg⟩).f.GetLength := rfl
      omega,
    List.drop_zero]

theorem sumLens_decomp {bs : List SeqBlock} {g : Nat} (hg : g < bs.length) :
    sumLens bs = sumLens (bs.take g) + (bs.get ⟨g, hg⟩).f.GetLength +
      sumLens (bs.drop (g + 1)) := by
  conv_lhs => rw [← List.take_append_drop g bs]
  rw [sumLens_append, List.drop_eq_getElem_cons hg, sumLens_cons]
  have : (bs[g] : SeqBlock) = bs.get ⟨g, hg⟩ := rfl
  rw [this]
  omega

theorem plus_f (b : SeqBlock) (d : Int) : (b.Plus d).f = b.f := rfl

/-- Common ending of the general branch of Delete: a successful commit of
preList ++ postList ++ shifted-tail yields the expected contents and the
invariants. -/
theorem delete_commit_finish {s u : Sequence} {start len : Int}
    {preList postList : List SeqBlock} {b1x : Nat}
    (hcommit : s.CommitChangesIfConsistent
      (preList ++ postList ++
        (s.mBlock.drop (b1x + 1)).map (·.Plus (-len)))
      (s.mNumSamples - len) = .ok u)
    (hpre1 : preList.flatMap (·.f.samples) =
      (s.mBlock.flatMap (·.f.samples)).take start.toNat)
    (hpre2 : ∀ b ∈ preList, b.f.GetLength ≠ 0)
    (hpost1 : postList.flatMap (·.f.samples) ++
        (s.mBlock.drop (b1x + 1)).flatMap (·.f.samples) =
      (s.mBlock.flatMap (·.f.samples)).drop (start + len).toNat)
    (hpost2 : ∀ b ∈ postList, b.f.GetLength ≠ 0)
    (h5 : ∀ b ∈ s.mBlock, b.f.GetLength ≠ 0) :
    u.contents = s.contents.take start.toNat ++
        s.contents.drop (start + len).toNat ∧
      u.mNumSamples = s.mNumSamples - len ∧
      u.mMinSamples = s.mMinSamples ∧ u.mMaxSamples = s.mMaxSamples ∧
      u.mSampleFormat = s.mSampleFormat ∧ u.Inv := by
  obtain ⟨hu, hchk⟩ := commit_ok hcommit
  subst hu
  refine ⟨?_, rfl, rfl, rfl, rfl, ?_⟩
  · show (preList ++ postList ++
        (s.mBlock.drop (b1x + 1)).map (·.Plus (-len))).flatMap
          (·.f.samples) = _
    rw [List.flatMap_append, List.flatMap_append, flat_plus,
      List.append_assoc, hpre1, hpost1]
    rfl
  · refine inv_of_check hchk ?_
    intro b hb
    rcases List.mem_append.mp hb with h1 | h1
    · rcases List.mem_append.mp h1 with h2 | h2
      · exact hpre2 b h2
      · exact hpost2 b h2
    · obtain ⟨x, hx, rfl⟩ := List.mem_map.mp h1
      show x.f.GetLength ≠ 0
      exact h5 x (List.mem_of_mem_drop hx)

theorem seqBlock_mk_f (fb : BlockFile) (st : Int) :
    (SeqBlock.mk fb st).f = fb := rfl

theorem seqBlock_mk_start (fb : BlockFile) (st : Int) :
    (SeqBlock.mk fb st).start = st := rfl

theorem blockFile_mk_samples (l : List Sample) :
    (BlockFile.mk l).samples = l := rfl

theorem getLength_mk (l : List Sample) :
    (BlockFile.mk l).GetLength = l.length := rfl

set_option maxHeartbeats 1000000 in
theorem delete_ok_main {s u : Sequence} (hInv : s.Inv) {start len : Int}
    (h : s.Delete start len = .ok u) :
    u.contents = s.contents.take start.toNat ++
        s.contents.drop (start + len).toNat ∧
      u.mNumSamples = s.mNumSamples - len ∧
      u.mMinSamples = s.mMinSamples ∧ u.mMaxSamples = s.mMaxSamples ∧
      u.mSampleFormat = s.mSampleFormat ∧
      ((s.mMinSamples = 0 → s.mMaxSamples = 0) → u.Inv) := by
  obtain ⟨hc, h3, h4, h5⟩ := (inv_characterisation s).mp hInv
  rw [Sequence.Delete] at h
  by_cases hlen0 : len = 0
  · rw [if_pos hlen0] at h
    injection h with h
    subst h
    subst hlen0
    refine ⟨?_, by omega, rfl, rfl, rfl, fun _ => hInv⟩
    rw [add_zero]
    exact (List.take_append_drop _ _).symm
  rw [if_neg hlen0] at h
  by_cases hguard : len < 0 ∨ start < 0 ∨ start ≥ s.mNumSamples
  · rw [if_pos hguard] at h
    exact absurd h (by simp)
  rw [if_neg hguard] at h
  push_neg at hguard
  obtain ⟨hlen_nn, hstart_nn, hstart_lt⟩ := hguard
  have hlpos : 0 < len := by omega
  obtain ⟨g, hfb0, hg, hga, hgb⟩ := findBlock_spec hInv hstart_nn hstart_lt
  by_cases hend_lt : start + len - 1 < s.mNumSamples
  case neg =>
    exfalso
    have hnone := findBlock_past_end hInv
      (show s.mNumSamples ≤ start + len - 1 by omega)
      (show start + len - 1 ≠ 0 by omega)
    rw [hfb0, hnone] at h
    exact absurd h (by simp)
  obtain ⟨g1, hfb1, hg1, h1a, h1b⟩ := findBlock_spec hInv (by omega) hend_lt
  rw [hfb0, hfb1] at h
  have hpreS : s.mBlock[g]? = some (s.mBlock.get ⟨g, hg⟩) :=
    List.getElem?_eq_getElem hg
  have hpostS : s.mBlock[g1]? = some (s.mBlock.get ⟨g1, hg1⟩) :=
    List.getElem?_eq_getElem hg1
  simp only [] at h
  rw [hpreS, hpostS] at h
  simp only [] at h
  obtain ⟨pre, hpredef⟩ : ∃ x, s.mBlock.get ⟨g, hg⟩ = x := ⟨_, rfl⟩
  obtain ⟨post, hpostdef⟩ : ∃ x, s.mBlock.get ⟨g1, hg1⟩ = x := ⟨_, rfl⟩
  rw [hpredef] at hga hgb hpreS
  rw [hpostdef] at h1a h1b hpostS
  rw [hpredef, hpostdef] at h
  have hmem_pre : pre ∈ s.mBlock := hpredef ▸ List.get_mem s.mBlock g hg
  have hmem_post : post ∈ s.mBlock := hpostdef ▸ List.get_mem s.mBlock g1 hg1
  have hslpre : pre.f.samples.length = pre.f.GetLength := rfl
  have hslpost : post.f.samples.length = post.f.GetLength := rfl
  have hLpre_pos : pre.f.GetLength ≠ 0 := h5 pre hmem_pre
  have hLpre_max : pre.f.GetLength ≤ s.mMaxSamples := h4 pre hmem_pre
  have hLpost_pos : post.f.GetLength ≠ 0 := h5 post hmem_post
  have hLpost_max : post.f.GetLength ≤ s.mMaxSamples := h4 post hmem_post
  have hmax1 : 1 ≤ s.mMaxSamples := by omega
  have hsg : ((sumLens (s.mBlock.take g) : Nat) : Int) =
    sumTake s.mBlock g := rfl
  have hsgS : ((sumLens (s.mBlock.take (g + 1)) : Nat) : Int) =
    sumTake s.mBlock (g + 1) := rfl
  have hsq : ((sumLens (s.mBlock.take g1) : Nat) : Int) =
    sumTake s.mBlock g1 := rfl
  have hsqS : ((sumLens (s.mBlock.take (g1 + 1)) : Nat) : Int) =
    sumTake s.mBlock (g1 + 1) := rfl
  have hpre_start : pre.start = sumTake s.mBlock g :=
    hpredef ▸ contig_get_start hc hg
  have hpre_end : pre.start + (pre.f.GetLength : Int) =
    sumTake s.mBlock (g + 1) := hpredef ▸ contig_get_end hc hg
  have hpost_start : post.start = sumTake s.mBlock g1 :=
    hpostdef ▸ contig_get_start hc hg1
  have hpost_end : post.start + (post.f.GetLength : Int) =
    sumTake s.mBlock (g1 + 1) := hpostdef ▸ contig_get_end hc hg1
  by_cases hsplit1 : g = g1 ∧
      (s.mMinSamples : Int) ≤ (pre.f.GetLength : Int) - len
  · -- in-place branch: b0 = b1 and the shrunken block stays large enough
    rw [if_pos hsplit1] at h
    obtain ⟨hgg, hminle⟩ := hsplit1
    have hppe : post = pre := by
      rw [← hpredef, ← hpostdef]
      exact congrArg s.mBlock.get (Fin.ext hgg.symm)
    rw [hppe] at h1a h1b hpost_start hpost_end
    injection h with h
    subst h
    have hlenN : ((len.toNat : Nat) : Int) = len :=
      Int.toNat_of_nonneg (by omega)
    have hfit : (start - pre.start).toNat + len.toNat ≤ pre.f.GetLength := by
      omega
    obtain ⟨buf, hbufdef⟩ : ∃ x,
        Sequence.ReadBlock pre 0 (start - pre.start).toNat ++
          Sequence.ReadBlock pre ((start - pre.start).toNat + len.toNat)
            (((pre.f.GetLength : Int) - len).toNat -
              (start - pre.start).toNat) = x := ⟨_, rfl⟩
    rw [hbufdef]
    have hrb1 : Sequence.ReadBlock pre 0 (start - pre.start).toNat =
        pre.f.samples.take (start - pre.start).toNat := by
      rw [Sequence.ReadBlock, List.drop_zero]
    have hrb2 : Sequence.ReadBlock pre
        ((start - pre.start).toNat + len.toNat)
        (((pre.f.GetLength : Int) - len).toNat - (start - pre.start).toNat) =
        pre.f.samples.drop ((start - pre.start).toNat + len.toNat) := by
      rw [Sequence.ReadBlock]
      exact List.take_of_length_le (by rw [List.length_drop]; omega)
    have hbufval : buf = pre.f.samples.take (start - pre.start).toNat ++
        pre.f.samples.drop ((start - pre.start).toNat + len.toNat) := by
      rw [← hbufdef, hrb1, hrb2]
    have hbuflen : buf.length = ((pre.f.GetLength : Int) - len).toNat := by
      rw [hbufval, List.length_append, List.length_take, List.length_drop]
      omega
    refine ⟨?_, rfl, rfl, rfl, rfl, ?_⟩
    · have hcont : (List.take g s.mBlock ++
          [(⟨⟨buf⟩, pre.start⟩ : SeqBlock)] ++
          (s.mBlock.drop (g + 1)).map (·.Plus (-len))).flatMap
            (·.f.samples) =
          (s.mBlock.flatMap (·.f.samples)).take start.toNat ++
            (s.mBlock.flatMap (·.f.samples)).drop (start + len).toNat := by
        rw [List.flatMap_append, List.flatMap_append, flat_plus]
        rw [show start.toNat =
          sumLens (s.mBlock.take g) + (start - pre.start).toNat by omega]
        rw [contents_take_mid hg (by rw [hpredef]; omega), hpredef]
        rw [show (start + len).toNat = sumLens (s.mBlock.take g) +
          ((start - pre.start).toNat + len.toNat) by omega]
        rw [contents_drop_mid hg (by rw [hpredef]; omega), hpredef]
        simp only [List.flatMap_cons, List.flatMap_nil, List.append_nil,
          seqBlock_mk_f, blockFile_mk_samples]
        rw [hbufval]
        simp [List.append_assoc]
      exact hcont
    · intro himp
      have hnl : ((pre.f.GetLength : Int) - len).toNat ≠ 0 := by
        by_cases hminz : s.mMinSamples = 0
        · have := himp hminz
          omega
        · omega
      have hcontig : ContigFrom 0 (List.take g s.mBlock ++
          [(⟨⟨buf⟩, pre.start⟩ : SeqBlock)] ++
          (s.mBlock.drop (g + 1)).map (·.Plus (-len))) := by
        rw [contigFrom_append]
        constructor
        · rw [contigFrom_append]
          refine ⟨contigFrom_take hc g, ?_⟩
          rw [contigFrom_singleton, seqBlock_mk_start]
          omega
        · have hshift := contigFrom_map_plus (-len) (contigFrom_drop hc (g + 1))
          have hswap : sumLens (List.take g s.mBlock ++
              [(⟨⟨buf⟩, pre.start⟩ : SeqBlock)]) =
              sumLens (s.mBlock.take g) + buf.length := by
            rw [sumLens_append]
            simp [sumLens, getLength_mk]
          have hstep : sumLens (s.mBlock.take (g + 1)) =
              sumLens (s.mBlock.take g) + pre.f.GetLength := by
            rw [← hpredef]
            exact sumLens_take_succ hg
          have hpos_eq : 0 + (sumLens (s.mBlock.take (g + 1)) : Int) + (-len) =
              0 + (sumLens (List.take g s.mBlock ++
                [(⟨⟨buf⟩, pre.start⟩ : SeqBlock)]) : Int) := by
            rw [hswap]
            omega
          rw [hpos_eq] at hshift
          exact hshift
      have hsum : s.mNumSamples - len = (sumLens (List.take g s.mBlock ++
          [(⟨⟨buf⟩, pre.start⟩ : SeqBlock)] ++
          (s.mBlock.drop (g + 1)).map (·.Plus (-len))) : Int) := by
        rw [sumLens_append, sumLens_append, sumLens_map_plus]
        simp only [sumLens_cons, sumLens_nil, seqBlock_mk_f, getLength_mk]
        have hdec : sumLens s.mBlock = sumLens (s.mBlock.take g) +
            pre.f.GetLength + sumLens (s.mBlock.drop (g + 1)) := by
          rw [← hpredef]
          exact sumLens_decomp hg
        omega
      have hI4 : ∀ b ∈ List.take g s.mBlock ++
          [(⟨⟨buf⟩, pre.start⟩ : SeqBlock)] ++
          (s.mBlock.drop (g + 1)).map (·.Plus (-len)),
          b.f.GetLength ≤ s.mMaxSamples := by
        intro b hb
        rcases List.mem_append.mp hb with h1 | h1
        · rcases List.mem_append.mp h1 with h2 | h2
          · exact h4 b (List.mem_of_mem_take h2)
          · have hbv : b = ⟨⟨buf⟩, pre.start⟩ := by simpa using h2
            subst hbv
            simp only [seqBlock_mk_f, getLength_mk]
            omega
        · obtain ⟨x, hx, rfl⟩ := List.mem_map.mp h1
          have hxf : (x.Plus (-len)).f.GetLength = x.f.GetLength := rfl
          rw [hxf]
          exact h4 x (List.mem_of_mem_drop hx)
      have hI5 : ∀ b ∈ List.take g s.mBlock ++
          [(⟨⟨buf⟩, pre.start⟩ : SeqBlock)] ++
          (s.mBlock.drop (g + 1)).map (·.Plus (-len)),
          b.f.GetLength ≠ 0 := by
        intro b hb
        rcases List.mem_append.mp hb with h1 | h1
        · rcases List.mem_append.mp h1 with h2 | h2
          · exact h5 b (List.mem_of_mem_take h2)
          · have hbv : b = ⟨⟨buf⟩, pre.start⟩ := by simpa using h2
            subst hbv
            simp only [seqBlock_mk_f, getLength_mk]
            omega
        · obtain ⟨x, hx, rfl⟩ := List.mem_map.mp h1
          have hxf : (x.Plus (-len)).f.GetLength = x.f.GetLength := rfl
          rw [hxf]
          exact h5 x (List.mem_of_mem_drop hx)
      exact (inv_characterisation _).mpr ⟨hcontig, hsum, hI4, hI5⟩
  · -- general branch
    rw [if_neg hsplit1] at h
    have HPre : ∃ preList : List SeqBlock,
        (if (start - pre.start).toNat ≠ 0 then
          if s.mMinSamples ≤ (start - pre.start).toNat ∨ g = 0 then
            some (List.take g s.mBlock ++
              [⟨⟨Sequence.ReadBlock pre 0 (start - pre.start).toNat⟩,
                pre.start⟩])
          else
            match s.mBlock[g - 1]? with
            | none => none
            | some prepreBlock =>
              some (List.take (g - 1) s.mBlock ++
                Sequence.Blockify s.mMaxSamples prepreBlock.start
                  (prepreBlock.f.samples ++
                    Sequence.ReadBlock pre 0 (start - pre.start).toNat))
        else some (List.take g s.mBlock)) = some preList ∧
        preList.flatMap (·.f.samples) =
          (s.mBlock.flatMap (·.f.samples)).take start.toNat ∧
        ∀ b ∈ preList, b.f.GetLength ≠ 0 := by
      by_cases hpb : (start - pre.start).toNat ≠ 0
      · rw [if_pos hpb]
        by_cases hpc : s.mMinSamples ≤ (start - pre.start).toNat ∨ g = 0
        · rw [if_pos hpc]
          refine ⟨_, rfl, ?_, ?_⟩
          · rw [List.flatMap_append]
            rw [show start.toNat =
              sumLens (s.mBlock.take g) + (start - pre.start).toNat by omega]
            rw [contents_take_mid hg (by rw [hpredef]; omega), hpredef]
            simp only [List.flatMap_cons, List.flatMap_nil, List.append_nil,
              seqBlock_mk_f, blockFile_mk_samples]
            congr 1
          · intro b hb
            rcases List.mem_append.mp hb with h1 | h1
            · exact h5 b (List.mem_of_mem_take h1)
            · have hbv : b = ⟨⟨Sequence.ReadBlock pre 0
                  (start - pre.start).toNat⟩, pre.start⟩ := by simpa using h1
              subst hbv
              simp only [seqBlock_mk_f, getLength_mk, Sequence.ReadBlock,
                List.length_take, List.length_drop]
              omega
        · rw [if_neg hpc]
          push_neg at hpc
          obtain ⟨hpc1, hpc2⟩ := hpc
          have hgm1 : g - 1 < s.mBlock.length := by omega
          have hppS : s.mBlock[g - 1]? = some (s.mBlock.get ⟨g - 1, hgm1⟩) :=
            List.getElem?_eq_getElem hgm1
          rw [hppS]
          refine ⟨_, rfl, ?_, ?_⟩
          · rw [List.flatMap_append, blockify_flatMap _ _ _ hmax1]
            rw [show start.toNat =
              sumLens (s.mBlock.take g) + (start - pre.start).toNat by omega]
            rw [contents_take_mid hg (by rw [hpredef]; omega), hpredef]
            have hstep : (s.mBlock.take ((g - 1) + 1)).flatMap (·.f.samples) =
                (s.mBlock.take (g - 1)).flatMap (·.f.samples) ++
                  (s.mBlock.get ⟨g - 1, hgm1⟩).f.samples :=
              flat_take_succ hgm1
            rw [show (g - 1) + 1 = g from by omega] at hstep
            have hrb : Sequence.ReadBlock pre 0 (start - pre.start).toNat =
                pre.f.samples.take (start - pre.start).toNat := by
              simp [Sequence.ReadBlock]
            rw [hrb, hstep, List.append_assoc]
          · intro b hb
            rcases List.mem_append.mp hb with h1 | h1
            · exact h5 b (List.mem_of_mem_take h1)
            · have := (blockify_mem_len hmax1 b h1).1
              omega
      · rw [if_neg hpb]
        refine ⟨_, rfl, ?_, ?_⟩
        · rw [show start.toNat = sumLens (s.mBlock.take g) by omega]
          exact (flat_take_eq s.mBlock g).symm
        · intro b hb
          exact h5 b (List.mem_of_mem_take hb)
    obtain ⟨preList, hpreRW, hpre1, hpre2⟩ := HPre
    have HPost : ∃ postList : List SeqBlock, ∃ b1x : Nat,
        (if (post.start + (post.f.GetLength : Int) -
            (start + len)).toNat ≠ 0 then
          if s.mMinSamples ≤ (post.start + (post.f.GetLength : Int) -
              (start + len)).toNat ∨ g1 = s.mBlock.length - 1 then
            some ([⟨⟨Sequence.ReadBlock post (start + len - post.start).toNat
              (post.start + (post.f.GetLength : Int) -
                (start + len)).toNat⟩, start⟩], g1)
          else
            match s.mBlock[g1 + 1]? with
            | none => none
            | some postpostBlock =>
              some (Sequence.Blockify s.mMaxSamples start
                (Sequence.ReadBlock post (start + len - post.start).toNat
                  (post.start + (post.f.GetLength : Int) -
                    (start + len)).toNat ++ postpostBlock.f.samples), g1 + 1)
        else some ([], g1)) = some (postList, b1x) ∧
        postList.flatMap (·.f.samples) ++
          (s.mBlock.drop (b1x + 1)).flatMap (·.f.samples) =
          (s.mBlock.flatMap (·.f.samples)).drop (start + len).toNat ∧
        ∀ b ∈ postList, b.f.GetLength ≠ 0 := by
      have hpos2_le : (start + len - post.start).toNat ≤ post.f.GetLength := by
        omega
      by_cases hqb : (post.start + (post.f.GetLength : Int) -
          (start + len)).toNat ≠ 0
      · rw [if_pos hqb]
        by_cases hqc : s.mMinSamples ≤ (post.start + (post.f.GetLength : Int) -
            (start + len)).toNat ∨ g1 = s.mBlock.length - 1
        · rw [if_pos hqc]
          refine ⟨_, _, rfl, ?_, ?_⟩
          · simp only [List.flatMap_cons, List.flatMap_nil, List.append_nil,
              seqBlock_mk_f, blockFile_mk_samples]
            rw [show (start + len).toNat = sumLens (s.mBlock.take g1) +
              (start + len - post.start).toNat by omega]
            rw [contents_drop_mid hg1 (by rw [hpostdef]; omega), hpostdef]
            congr 1
            rw [Sequence.ReadBlock]
            exact List.take_of_length_le (by rw [List.length_drop]; omega)
          · intro b hb
            have hbv : b = ⟨⟨Sequence.ReadBlock post
                (start + len - post.start).toNat
                (post.start + (post.f.GetLength : Int) -
                  (start + len)).toNat⟩, start⟩ := by simpa using hb
            subst hbv
            simp only [seqBlock_mk_f, getLength_mk, Sequence.ReadBlock,
              List.length_take, List.length_drop]
            omega
        · rw [if_neg hqc]
          push_neg at hqc
          obtain ⟨hqc1, hqc2⟩ := hqc
          have hq1lt : g1 + 1 < s.mBlock.length := by omega
          have hppS2 : s.mBlock[g1 + 1]? =
              some (s.mBlock.get ⟨g1 + 1, hq1lt⟩) :=
            List.getElem?_eq_getElem hq1lt
          rw [hppS2]
          refine ⟨_, _, rfl, ?_, ?_⟩
          · rw [blockify_flatMap _ _ _ hmax1]
            rw [show (start + len).toNat = sumLens (s.mBlock.take g1) +
              (start + len - post.start).toNat by omega]
            rw [contents_drop_mid hg1 (by rw [hpostdef]; omega), hpostdef]
            have hdropstep : s.mBlock.drop (g1 + 1) =
                s.mBlock.get ⟨g1 + 1, hq1lt⟩ ::
                  s.mBlock.drop (g1 + 1 + 1) := by
              rw [List.drop_eq_getElem_cons hq1lt]
              rfl
            rw [hdropstep, List.flatMap_cons]
            have hrb : Sequence.ReadBlock post (start + len - post.start).toNat
                (post.start + (post.f.GetLength : Int) - (start + len)).toNat =
                post.f.samples.drop (start + len - post.start).toNat := by
              rw [Sequence.ReadBlock]
              exact List.take_of_length_le (by rw [List.length_drop]; omega)
            rw [hrb, List.append_assoc]
          · intro b hb
            have := (blockify_mem_len hmax1 b hb).1
            omega
      · rw [if_neg hqb]
        refine ⟨_, _, rfl, ?_, ?_⟩
        · simp only [List.flatMap_nil, List.nil_append]
          rw [show (start + len).toNat = sumLens (s.mBlock.take g1) +
            post.f.GetLength by omega]
          rw [contents_drop_mid hg1
            (show post.f.GetLength ≤
              (s.mBlock.get ⟨g1, hg1⟩).f.GetLength by rw [hpostdef]), hpostdef]
          rw [show post.f.samples.drop post.f.GetLength = [] from by
            rw [← hslpost]
            exact List.drop_length _]
          rfl
        · intro b hb
          simp at hb
    obtain ⟨postList, b1x, hpostRW, hpost1, hpost2⟩ := HPost
    rw [hpreRW, hpostRW] at h
    simp only [] at h
    have hres := delete_commit_finish h hpre1 hpre2 hpost1 hpost2 h5
    exact ⟨hres.1, hres.2.1, hres.2.2.1, hres.2.2.2.1, hres.2.2.2.2.1,
      fun hx => hres.2.2.2.2.2⟩

theorem flat_map_fstart (bs : List SeqBlock) (s0 : Int) :
    (bs.map (fun blk => SeqBlock.mk blk.f (blk.start + s0))).flatMap
      (·.f.samples) = bs.flatMap (·.f.samples) := by
  rw [List.flatMap_map]

set_option maxHeartbeats 1000000 in
theorem paste_split_finish {s src t : Sequence} {s0 : Int} {b : Nat}
    {splitBlock : SeqBlock}
    (hcS : ContigFrom 0 s.mBlock)
    (h3S : s.mNumSamples = (sumLens s.mBlock : Int))
    (h4S : ∀ x ∈ s.mBlock, x.f.GetLength ≤ s.mMaxSamples)
    (h5S : ∀ x ∈ s.mBlock, x.f.GetLength ≠ 0)
    (hsrc : src.Inv)
    (hns_ne : src.mNumSamples ≠ 0) (hnb_ne : src.mBlock.length ≠ 0)
    (hblt : b < s.mBlock.length)
    (hsplitdef : s.mBlock.get ⟨b, hblt⟩ = splitBlock)
    (hba : splitBlock.start ≤ s0)
    (hbb : s0 ≤ splitBlock.start + (splitBlock.f.GetLength : Int))
    (h : (if src.mNumSamples + (splitBlock.f.GetLength : Int) ≤
          (s.mMaxSamples : Int) then
        match src.Get 0 0 src.mNumSamples.toNat with
        | none => OpResult.diverge
        | some srcSamples =>
          OpResult.ok
            (Sequence.mk
              (List.take b s.mBlock ++
                  [(⟨⟨Sequence.ReadBlock splitBlock 0
                      (s0 - splitBlock.start).toNat ++ srcSamples ++
                    Sequence.ReadBlock splitBlock
                      (s0 - splitBlock.start).toNat
                      (splitBlock.f.GetLength -
                        (s0 - splitBlock.start).toNat)⟩,
                    splitBlock.start⟩ : SeqBlock)] ++
                List.map (fun x => x.Plus src.mNumSamples)
                  (List.drop (b + 1) s.mBlock))
              (s.mNumSamples + src.mNumSamples) s.mMinSamples
              s.mMaxSamples s.mSampleFormat s.mErrorOpening)
      else
        if src.mBlock.length ≤ 4 then
          match src.Get 0 0 src.mNumSamples.toNat with
          | none => OpResult.diverge
          | some srcSamples =>
            s.CommitChangesIfConsistent
              (List.take b s.mBlock ++
                  Sequence.Blockify s.mMaxSamples splitBlock.start
                    (Sequence.ReadBlock splitBlock 0
                        (s0 - splitBlock.start).toNat ++ srcSamples ++
                      Sequence.ReadBlock splitBlock
                        (s0 - splitBlock.start).toNat
                        (splitBlock.f.GetLength -
                          (s0 - splitBlock.start).toNat)) ++
                List.map (fun x => x.Plus src.mNumSamples)
                  (List.drop (b + 1) s.mBlock))
              (s.mNumSamples + src.mNumSamples)
        else
          match src.mBlock[0]?, src.mBlock[1]?,
            src.mBlock[src.mBlock.length - 2]?,
            src.mBlock[src.mBlock.length - 1]? with
          | some sb0, some sb1, some penultimate, some lastSb =>
            match src.Get 0 0 (sb0.f.GetLength + sb1.f.GetLength),
              src.Get (src.mBlock.length - 2) penultimate.start
                (penultimate.f.GetLength + lastSb.f.GetLength) with
            | some firstTwo, some lastTwo =>
              s.CommitChangesIfConsistent
                (List.take b s.mBlock ++
                        Sequence.Blockify s.mMaxSamples splitBlock.start
                          (Sequence.ReadBlock splitBlock 0
                              (s0 - splitBlock.start).toNat ++ firstTwo) ++
                      List.map (fun blk => { f := blk.f, start := blk.start + s0 })
                        (List.take (src.mBlock.length - 4)
                          (List.drop 2 src.mBlock)) ++
                    Sequence.Blockify s.mMaxSamples (s0 + penultimate.start)
                      (lastTwo ++
                        Sequence.ReadBlock splitBlock
                          (s0 - splitBlock.start).toNat
                          (splitBlock.f.GetLength -
                            (s0 - splitBlock.start).toNat)) ++
                  List.map (fun x => x.Plus src.mNumSamples)
                    (List.drop (b + 1) s.mBlock))
                (s.mNumSamples + src.mNumSamples)
            | x, x_1 => OpResult.diverge
          | x, x_1, x_2, x_3 => OpResult.diverge) = OpResult.ok t) :
    t.contents = s.contents.take s0.toNat ++ src.contents ++
        s.contents.drop s0.toNat ∧
      t.mNumSamples = s.mNumSamples + src.mNumSamples ∧
      t.mMinSamples = s.mMinSamples ∧ t.mMaxSamples = s.mMaxSamples ∧
      t.mSampleFormat = s.mSampleFormat ∧ t.Inv := by
  obtain ⟨hcR, h3R, h4R, h5R⟩ := (inv_characterisation src).mp hsrc
  have hsl : splitBlock.f.samples.length = splitBlock.f.GetLength := rfl
  have hLpos : splitBlock.f.GetLength ≠ 0 := by
    rw [← hsplitdef]
    exact h5S _ (List.get_mem s.mBlock b hblt)
  have hLmax : splitBlock.f.GetLength ≤ s.mMaxSamples := by
    rw [← hsplitdef]
    exact h4S _ (List.get_mem s.mBlock b hblt)
  have hmax1 : 1 ≤ s.mMaxSamples := by omega
  have hsplit_start : splitBlock.start = sumTake s.mBlock b :=
    hsplitdef ▸ contig_get_start hcS hblt
  have hsplit_end : splitBlock.start + (splitBlock.f.GetLength : Int) =
    sumTake s.mBlock (b + 1) := hsplitdef ▸ contig_get_end hcS hblt
  have hsg : ((sumLens (s.mBlock.take b) : Nat) : Int) =
    sumTake s.mBlock b := rfl
  have hsrc_nn : 0 ≤ src.mNumSamples := by
    rw [h3R]
    positivity
  have hsrclen : src.contents.length = sumLens src.mBlock :=
    (sumLens_eq_flat_length src.mBlock).symm
  have hsrcns : src.mNumSamples.toNat = sumLens src.mBlock := by omega
  have hsple : (s0 - splitBlock.start).toNat ≤ splitBlock.f.GetLength := by
    omega
  have hrb1 : Sequence.ReadBlock splitBlock 0 (s0 - splitBlock.start).toNat =
      splitBlock.f.samples.take (s0 - splitBlock.start).toNat := by
    rw [Sequence.ReadBlock, List.drop_zero]
  have hrb2 : Sequence.ReadBlock splitBlock (s0 - splitBlock.start).toNat
      (splitBlock.f.GetLength - (s0 - splitBlock.start).toNat) =
      splitBlock.f.samples.drop (s0 - splitBlock.start).toNat := by
    rw [Sequence.ReadBlock]
    exact List.take_of_length_le (by rw [List.length_drop]; omega)
  have hs0N : s0.toNat = sumLens (s.mBlock.take b) +
      (s0 - splitBlock.start).toNat := by omega
  have hTake : (s.mBlock.flatMap (·.f.samples)).take s0.toNat =
      (s.mBlock.take b).flatMap (·.f.samples) ++
        splitBlock.f.samples.take (s0 - splitBlock.start).toNat := by
    rw [hs0N, contents_take_mid hblt (by rw [hsplitdef]; omega), hsplitdef]
  have hDrop : (s.mBlock.flatMap (·.f.samples)).drop s0.toNat =
      splitBlock.f.samples.drop (s0 - splitBlock.start).toNat ++
        (s.mBlock.drop (b + 1)).flatMap (·.f.samples) := by
    rw [hs0N, contents_drop_mid hblt (by rw [hsplitdef]; omega), hsplitdef]
  rw [get_all hsrc hns_ne] at h
  by_cases hb2 : src.mNumSamples + (splitBlock.f.GetLength : Int) ≤
      (s.mMaxSamples : Int)
  · rw [if_pos hb2] at h
    simp only [] at h
    injection h with h
    subst h
    have hbuflen : (Sequence.ReadBlock splitBlock 0
          (s0 - splitBlock.start).toNat ++ src.contents ++
        Sequence.ReadBlock splitBlock (s0 - splitBlock.start).toNat
          (splitBlock.f.GetLength - (s0 - splitBlock.start).toNat)).length =
        splitBlock.f.GetLength + src.mNumSamples.toNat := by
      rw [hrb1, hrb2, List.length_append, List.length_append,
        List.length_take, List.length_drop]
      omega
    refine ⟨?_, rfl, rfl, rfl, rfl, ?_⟩
    · have hcont : (List.take b s.mBlock ++
          [(⟨⟨Sequence.ReadBlock splitBlock 0
              (s0 - splitBlock.start).toNat ++ src.contents ++
            Sequence.ReadBlock splitBlock (s0 - splitBlock.start).toNat
              (splitBlock.f.GetLength - (s0 - splitBlock.start).toNat)⟩,
            splitBlock.start⟩ : SeqBlock)] ++
          (s.mBlock.drop (b + 1)).map (·.Plus src.mNumSamples)).flatMap
            (·.f.samples) =
          (s.mBlock.flatMap (·.f.samples)).take s0.toNat ++
            src.contents ++
            (s.mBlock.flatMap (·.f.samples)).drop s0.toNat := by
        rw [List.flatMap_append, List.flatMap_append, flat_plus, hTake, hDrop]
        simp only [List.flatMap_cons, List.flatMap_nil, List.append_nil,
          seqBlock_mk_f, blockFile_mk_samples]
        rw [hrb1, hrb2]
        simp [List.append_assoc]
      exact hcont
    · have hcontig : ContigFrom 0 (List.take b s.mBlock ++
          [(⟨⟨Sequence.ReadBlock splitBlock 0
              (s0 - splitBlock.start).toNat ++ src.contents ++
            Sequence.ReadBlock splitBlock (s0 - splitBlock.start).toNat
              (splitBlock.f.GetLength - (s0 - splitBlock.start).toNat)⟩,
            splitBlock.start⟩ : SeqBlock)] ++
          (s.mBlock.drop (b + 1)).map (·.Plus src.mNumSamples)) := by
        rw [contigFrom_append]
        constructor
        · rw [contigFrom_append]
          refine ⟨contigFrom_take hcS b, ?_⟩
          rw [contigFrom_singleton, seqBlock_mk_start]
          omega
        · have hshift := contigFrom_map_plus src.mNumSamples
            (contigFrom_drop hcS (b + 1))
          have hswap : sumLens (List.take b s.mBlock ++
              [(⟨⟨Sequence.ReadBlock splitBlock 0
                  (s0 - splitBlock.start).toNat ++ src.contents ++
                Sequence.ReadBlock splitBlock (s0 - splitBlock.start).toNat
                  (splitBlock.f.GetLength -
                    (s0 - splitBlock.start).toNat)⟩,
                splitBlock.start⟩ : SeqBlock)]) =
              sumLens (s.mBlock.take b) +
                (splitBlock.f.GetLength + src.mNumSamples.toNat) := by
            rw [sumLens_append]
            simp only [sumLens_cons, sumLens_nil, seqBlock_mk_f, getLength_mk]
            omega
          have hstep : sumLens (s.mBlock.take (b + 1)) =
              sumLens (s.mBlock.take b) + splitBlock.f.GetLength := by
            rw [← hsplitdef]
            exact sumLens_take_succ hblt
          have hpos_eq : 0 + (sumLens (s.mBlock.take (b + 1)) : Int) +
              src.mNumSamples =
              0 + (sumLens (List.take b s.mBlock ++
                [(⟨⟨Sequence.ReadBlock splitBlock 0
                    (s0 - splitBlock.start).toNat ++ src.contents ++
                  Sequence.ReadBlock splitBlock (s0 - splitBlock.start).toNat
                    (splitBlock.f.GetLength -
                      (s0 - splitBlock.start).toNat)⟩,
                  splitBlock.start⟩ : SeqBlock)]) : Int) := by
            rw [hswap]
            omega
          rw [hpos_eq] at hshift
          exact hshift
      have hsum : s.mNumSamples + src.mNumSamples =
          (sumLens (List.take b s.mBlock ++
            [(⟨⟨Sequence.ReadBlock splitBlock 0
                (s0 - splitBlock.start).toNat ++ src.contents ++
              Sequence.ReadBlock splitBlock (s0 - splitBlock.start).toNat
                (splitBlock.f.GetLength - (s0 - splitBlock.start).toNat)⟩,
              splitBlock.start⟩ : SeqBlock)] ++
            (s.mBlock.drop (b + 1)).map (·.Plus src.mNumSamples)) : Int) := by
        rw [sumLens_append, sumLens_append, sumLens_map_plus]
        simp only [sumLens_cons, sumLens_nil, seqBlock_mk_f, getLength_mk]
        have hdec : sumLens s.mBlock = sumLens (s.mBlock.take b) +
            splitBlock.f.GetLength + sumLens (s.mBlock.drop (b + 1)) := by
          rw [← hsplitdef]
          exact sumLens_decomp hblt
        omega
      have hI4 : ∀ x ∈ List.take b s.mBlock ++
          [(⟨⟨Sequence.ReadBlock splitBlock 0
              (s0 - splitBlock.start).toNat ++ src.contents ++
            Sequence.ReadBlock splitBlock (s0 - splitBlock.start).toNat
              (splitBlock.f.GetLength - (s0 - splitBlock.start).toNat)⟩,
            splitBlock.start⟩ : SeqBlock)] ++
          (s.mBlock.drop (b + 1)).map (·.Plus src.mNumSamples),
          x.f.GetLength ≤ s.mMaxSamples := by
        intro x hx
        rcases List.mem_append.mp hx with h1 | h1
        · rcases List.mem_append.mp h1 with h2 | h2
          · exact h4S x (List.mem_of_mem_take h2)
          · have hbv : x = ⟨⟨Sequence.ReadBlock splitBlock 0
                (s0 - splitBlock.start).toNat ++ src.contents ++
              Sequence.ReadBlock splitBlock (s0 - splitBlock.start).toNat
                (splitBlock.f.GetLength - (s0 - splitBlock.start).toNat)⟩,
              splitBlock.start⟩ := by simpa using h2
            subst hbv
            simp only [seqBlock_mk_f, getLength_mk]
            rw [hbuflen]
            omega
        · obtain ⟨x2, hx2, rfl⟩ := List.mem_map.mp h1
          have hxf : (x2.Plus src.mNumSamples).f.GetLength =
            x2.f.GetLength := rfl
          rw [hxf]
          exact h4S x2 (List.mem_of_mem_drop hx2)
      have hI5 : ∀ x ∈ List.take b s.mBlock ++
          [(⟨⟨Sequence.ReadBlock splitBlock 0
              (s0 - splitBlock.start).toNat ++ src.contents ++
            Sequence.ReadBlock splitBlock (s0 - splitBlock.start).toNat
              (splitBlock.f.GetLength - (s0 - splitBlock.start).toNat)⟩,
            splitBlock.start⟩ : SeqBlock)] ++
          (s.mBlock.drop (b + 1)).map (·.Plus src.mNumSamples),
          x.f.GetLength ≠ 0 := by
        intro x hx
        rcases List.mem_append.mp hx with h1 | h1
        · rcases List.mem_append.mp h1 with h2 | h2
          · exact h5S x (List.mem_of_mem_take h2)
          · have hbv : x = ⟨⟨Sequence.ReadBlock splitBlock 0
                (s0 - splitBlock.start).toNat ++ src.contents ++
              Sequence.ReadBlock splitBlock (s0 - splitBlock.start).toNat
                (splitBlock.f.GetLength - (s0 - splitBlock.start).toNat)⟩,
              splitBlock.start⟩ := by simpa using h2
            subst hbv
            simp only [seqBlock_mk_f, getLength_mk]
            rw [hbuflen]
            omega
        · obtain ⟨x2, hx2, rfl⟩ := List.mem_map.mp h1
          have hxf : (x2.Plus src.mNumSamples).f.GetLength =
            x2.f.GetLength := rfl
          rw [hxf]
          exact h5S x2 (List.mem_of_mem_drop hx2)
      exact (inv_characterisation _).mpr ⟨hcontig, hsum, hI4, hI5⟩
  · rw [if_neg hb2] at h
    by_cases hb3 : src.mBlock.length ≤ 4
    · rw [if_pos hb3] at h
      simp only [] at h
      obtain ⟨ht, hchk⟩ := commit_ok h
      subst ht
      refine ⟨?_, rfl, rfl, rfl, rfl, ?_⟩
      · have hcont : (List.take b s.mBlock ++
            Sequence.Blockify s.mMaxSamples splitBlock.start
              (Sequence.ReadBlock splitBlock 0
                  (s0 - splitBlock.start).toNat ++ src.contents ++
                Sequence.ReadBlock splitBlock (s0 - splitBlock.start).toNat
                  (splitBlock.f.GetLength - (s0 - splitBlock.start).toNat)) ++
            (s.mBlock.drop (b + 1)).map (·.Plus src.mNumSamples)).flatMap
              (·.f.samples) =
            (s.mBlock.flatMap (·.f.samples)).take s0.toNat ++
              src.contents ++
              (s.mBlock.flatMap (·.f.samples)).drop s0.toNat := by
          rw [List.flatMap_append, List.flatMap_append, flat_plus,
            blockify_flatMap _ _ _ hmax1, hTake, hDrop]
          rw [hrb1, hrb2]
          simp [List.append_assoc]
        exact hcont
      · refine inv_of_check hchk ?_
        intro x hx
        rcases List.mem_append.mp hx with h1 | h1
        · rcases List.mem_append.mp h1 with h2 | h2
          · exact h5S x (List.mem_of_mem_take h2)
          · have := (blockify_mem_len hmax1 x h2).1
            omega
        · obtain ⟨x2, hx2, rfl⟩ := List.mem_map.mp h1
          have hxf : (x2.Plus src.mNumSamples).f.GetLength =
            x2.f.GetLength := rfl
          rw [hxf]
          exact h5S x2 (List.mem_of_mem_drop hx2)
    · rw [if_neg hb3] at h
      push_neg at hb3
      have h0lt : 0 < src.mBlock.length := by omega
      have h1lt : 1 < src.mBlock.length := by omega
      have hplt : src.mBlock.length - 2 < src.mBlock.length := by omega
      have hllt : src.mBlock.length - 1 < src.mBlock.length := by omega
      have h0S : src.mBlock[0]? = some (src.mBlock.get ⟨0, h0lt⟩) :=
        List.getElem?_eq_getElem h0lt
      have h1S : src.mBlock[1]? = some (src.mBlock.get ⟨1, h1lt⟩) :=
        List.getElem?_eq_getElem h1lt
      have hpS : src.mBlock[src.mBlock.length - 2]? =
          some (src.mBlock.get ⟨src.mBlock.length - 2, hplt⟩) :=
        List.getElem?_eq_getElem hplt
      have hlS : src.mBlock[src.mBlock.length - 1]? =
          some (src.mBlock.get ⟨src.mBlock.length - 1, hllt⟩) :=
        List.getElem?_eq_getElem hllt
      rw [h0S, h1S, hpS, hlS] at h
      simp only [] at h
      have e1 : sumLens (src.mBlock.take 1) =
          (src.mBlock.get ⟨0, h0lt⟩).f.GetLength := by
        have := sumLens_take_succ h0lt
        simpa using this
      have e2 : sumLens (src.mBlock.take 2) = sumLens (src.mBlock.take 1) +
          (src.mBlock.get ⟨1, h1lt⟩).f.GetLength := by
        have := sumLens_take_succ h1lt
        norm_num at this
        exact this
      have hdropPen : src.mBlock.drop (src.mBlock.length - 2) =
          src.mBlock.get ⟨src.mBlock.length - 2, hplt⟩ ::
            src.mBlock.drop (src.mBlock.length - 1) := by
        rw [List.drop_eq_getElem_cons hplt]
        rw [show src.mBlock.length - 2 + 1 = src.mBlock.length - 1 from by
          omega]
        rfl
      have hdropLast : src.mBlock.drop (src.mBlock.length - 1) =
          [src.mBlock.get ⟨src.mBlock.length - 1, hllt⟩] := by
        rw [List.drop_eq_getElem_cons hllt]
        rw [show src.mBlock.length - 1 + 1 = src.mBlock.length from by omega]
        rw [List.drop_length]
        rfl
      have hsumLast : sumLens (src.mBlock.drop (src.mBlock.length - 2)) =
          (src.mBlock.get ⟨src.mBlock.length - 2, hplt⟩).f.GetLength +
            (src.mBlock.get ⟨src.mBlock.length - 1, hllt⟩).f.GetLength := by
        rw [hdropPen, sumLens_cons, hdropLast, sumLens_cons, sumLens_nil]
        omega
      have hsumSplit : sumLens src.mBlock =
          sumLens (src.mBlock.take (src.mBlock.length - 2)) +
            sumLens (src.mBlock.drop (src.mBlock.length - 2)) := by
        conv_lhs =>
          rw [← List.take_append_drop (src.mBlock.length - 2) src.mBlock]
        rw [sumLens_append]
      have hpen_start : (src.mBlock.get ⟨src.mBlock.length - 2, hplt⟩).start =
          sumTake src.mBlock (src.mBlock.length - 2) :=
        contig_get_start hcR hplt
      have hcastPen : ((sumLens (src.mBlock.take (src.mBlock.length - 2)) :
          Nat) : Int) = sumTake src.mBlock (src.mBlock.length - 2) := rfl
      have hsum2le : sumLens (src.mBlock.take 2) ≤ sumLens src.mBlock :=
        sumLens_take_le src.mBlock 2
      have hget1 : src.Get 0 0
          ((src.mBlock.get ⟨0, h0lt⟩).f.GetLength +
            (src.mBlock.get ⟨1, h1lt⟩).f.GetLength) =
          some ((src.mBlock.flatMap (·.f.samples)).take
            ((src.mBlock.get ⟨0, h0lt⟩).f.GetLength +
              (src.mBlock.get ⟨1, h1lt⟩).f.GetLength)) := by
        have h01 : sumTake src.mBlock 0 < sumTake src.mBlock (0 + 1) :=
          sumTake_strict_mono h5R (by omega) (by omega)
        have h00 : sumTake src.mBlock 0 = 0 := by simp [sumTake]
        have hrun := getLoop_eq hcR h5R (src.mBlock.length + 1) 0
          ((src.mBlock.get ⟨0, h0lt⟩).f.GetLength +
            (src.mBlock.get ⟨1, h1lt⟩).f.GetLength) 0
          (by omega) (fun _ => ⟨by omega, by omega⟩)
          (by push_cast; omega)
        rw [Sequence.Get, hrun]
        simp
      have hget2 : src.Get (src.mBlock.length - 2)
          (src.mBlock.get ⟨src.mBlock.length - 2, hplt⟩).start
          ((src.mBlock.get ⟨src.mBlock.length - 2, hplt⟩).f.GetLength +
            (src.mBlock.get ⟨src.mBlock.length - 1, hllt⟩).f.GetLength) =
          some ((src.mBlock.drop (src.mBlock.length - 2)).flatMap
            (·.f.samples)) := by
        have hmono : sumTake src.mBlock (src.mBlock.length - 2) <
            sumTake src.mBlock (src.mBlock.length - 2 + 1) :=
          sumTake_strict_mono h5R (by omega) (by omega)
        have hrun := getLoop_eq hcR h5R (src.mBlock.length + 1)
          (src.mBlock.length - 2)
          ((src.mBlock.get ⟨src.mBlock.length - 2, hplt⟩).f.GetLength +
            (src.mBlock.get ⟨src.mBlock.length - 1, hllt⟩).f.GetLength)
          (src.mBlock.get ⟨src.mBlock.length - 2, hplt⟩).start
          (by omega) (fun _ => ⟨by omega, by omega⟩)
          (by push_cast; omega)
        rw [Sequence.Get, hrun]
        have hstN : (src.mBlock.get ⟨src.mBlock.length - 2,
            hplt⟩).start.toNat =
            sumLens (src.mBlock.take (src.mBlock.length - 2)) := by omega
        rw [hstN, flat_drop_eq]
        congr 1
        refine List.take_of_length_le ?_
        rw [← sumLens_eq_flat_length, hsumLast]
      rw [hget1, hget2] at h
      simp only [] at h
      obtain ⟨ht, hchk⟩ := commit_ok h
      subst ht
      refine ⟨?_, rfl, rfl, rfl, rfl, ?_⟩
      · have hsrc_split : src.mBlock.flatMap (·.f.samples) =
            (src.mBlock.take 2).flatMap (·.f.samples) ++
              (((src.mBlock.drop 2).take
                  (src.mBlock.length - 4)).flatMap (·.f.samples) ++
                (src.mBlock.drop (src.mBlock.length - 2)).flatMap
                  (·.f.samples)) := by
          rw [flat_split src.mBlock 2,
            flat_split (src.mBlock.drop 2) (src.mBlock.length - 4),
            List.drop_drop]
          rw [show 2 + (src.mBlock.length - 4) = src.mBlock.length - 2 from by
            omega]
      -- contents
        have hfirstTwo_eq : (src.mBlock.flatMap (·.f.samples)).take
            ((src.mBlock.get ⟨0, h0lt⟩).f.GetLength +
              (src.mBlock.get ⟨1, h1lt⟩).f.GetLength) =
            (src.mBlock.take 2).flatMap (·.f.samples) := by
          rw [show (src.mBlock.get ⟨0, h0lt⟩).f.GetLength +
              (src.mBlock.get ⟨1, h1lt⟩).f.GetLength =
            sumLens (src.mBlock.take 2) from by omega]
          exact flat_take_eq src.mBlock 2
        show (List.take b s.mBlock ++
              Sequence.Blockify s.mMaxSamples splitBlock.start
                (Sequence.ReadBlock splitBlock 0
                    (s0 - splitBlock.start).toNat ++
                  (src.mBlock.flatMap (·.f.samples)).take
                    ((src.mBlock.get ⟨0, h0lt⟩).f.GetLength +
                      (src.mBlock.get ⟨1, h1lt⟩).f.GetLength)) ++
            List.map (fun blk => SeqBlock.mk blk.f (blk.start + s0))
              (List.take (src.mBlock.length - 4) (List.drop 2 src.mBlock)) ++
            Sequence.Blockify s.mMaxSamples
              (s0 + (src.mBlock.get ⟨src.mBlock.length - 2, hplt⟩).start)
              ((src.mBlock.drop (src.mBlock.length - 2)).flatMap
                  (·.f.samples) ++
                Sequence.ReadBlock splitBlock (s0 - splitBlock.start).toNat
                  (splitBlock.f.GetLength - (s0 - splitBlock.start).toNat)) ++
            List.map (fun x => x.Plus src.mNumSamples)
              (List.drop (b + 1) s.mBlock)).flatMap (·.f.samples) =
          (Sequence.contents s).take s0.toNat ++ src.contents ++
            (Sequence.contents s).drop s0.toNat
        simp only [Sequence.contents]
        rw [List.flatMap_append, List.flatMap_append, List.flatMap_append,
          List.flatMap_append, flat_plus, flat_map_fstart,
          blockify_flatMap _ _ _ hmax1, blockify_flatMap _ _ _ hmax1,
          hTake, hDrop, hrb1, hrb2, hfirstTwo_eq, hsrc_split]
        simp [List.append_assoc]
      · refine inv_of_check hchk ?_
        intro x hx
        rcases List.mem_append.mp hx with h1 | h1
        · rcases List.mem_append.mp h1 with h2 | h2
          · rcases List.mem_append.mp h2 with h3 | h3
            · rcases List.mem_append.mp h3 with h4 | h4
              · exact h5S x (List.mem_of_mem_take h4)
              · have := (blockify_mem_len hmax1 x h4).1
                omega
            · obtain ⟨x2, hx2, rfl⟩ := List.mem_map.mp h3
              have hxf : ({ f := x2.f, start := x2.start + s0 } :
                  SeqBlock).f.GetLength = x2.f.GetLength := rfl
              rw [hxf]
              exact h5R x2 (List.mem_of_mem_drop (List.mem_of_mem_take hx2))
          · have := (blockify_mem_len hmax1 x h2).1
            omega
        · obtain ⟨x2, hx2, rfl⟩ := List.mem_map.mp h1
          have hxf : (x2.Plus src.mNumSamples).f.GetLength =
            x2.f.GetLength := rfl
          rw [hxf]
          exact h5S x2 (List.mem_of_mem_drop hx2)

set_option maxHeartbeats 1000000 in
theorem paste_ok_main {s src t : Sequence} (hs : s.Inv) (hsrc : src.Inv)
    {s0 : Int} (h : s.Paste s0 src = .ok t) :
    t.contents = s.contents.take s0.toNat ++ src.contents ++
        s.contents.drop s0.toNat ∧
      t.mNumSamples = s.mNumSamples + src.mNumSamples ∧
      t.mMinSamples = s.mMinSamples ∧ t.mMaxSamples = s.mMaxSamples ∧
      t.mSampleFormat = s.mSampleFormat ∧
      0 ≤ s0 ∧ s0 ≤ s.mNumSamples ∧ t.Inv := by
  obtain ⟨hcS, h3S, h4S, h5S⟩ := (inv_characterisation s).mp hs
  rw [Sequence.Paste] at h
  by_cases hg1 : s0 < 0 ∨ s0 > s.mNumSamples
  · rw [if_pos hg1] at h
    exact absurd h (by simp)
  rw [if_neg hg1] at h
  push_neg at hg1
  obtain ⟨hs0_nn, hs0_le⟩ := hg1
  by_cases hg2 : Overflows s.mNumSamples src.mNumSamples = true
  · rw [if_pos hg2] at h
    exact absurd h (by simp)
  rw [if_neg hg2] at h
  by_cases hg3 : src.mSampleFormat ≠ s.mSampleFormat
  · rw [if_pos hg3] at h
    exact absurd h (by simp)
  rw [if_neg hg3] at h
  simp only [] at h
  by_cases hg4 : src.mNumSamples = 0 ∨ src.mBlock.length = 0
  · rw [if_pos hg4] at h
    injection h with h
    subst h
    obtain ⟨hcR, h3R, h4R, h5R⟩ := (inv_characterisation src).mp hsrc
    have hns0 : src.mNumSamples = 0 := by
      rcases hg4 with h0 | h0
      · exact h0
      · rw [h3R, List.length_eq_zero.mp h0]
        rfl
    have hsrcC : src.contents = [] := by
      have hl : src.contents.length = 0 := by
        rw [Sequence.contents, ← sumLens_eq_flat_length]
        omega
      exact List.length_eq_zero.mp hl
    refine ⟨?_, by omega, rfl, rfl, rfl, hs0_nn, hs0_le, hs⟩
    rw [hsrcC, List.append_nil]
    exact (List.take_append_drop _ _).symm
  rw [if_neg hg4] at h
  push_neg at hg4
  obtain ⟨hns_ne, hnb_ne⟩ := hg4
  by_cases hac : (s.mBlock.length == 0 ||
      (s0 == s.mNumSamples &&
        (match s.mBlock.getLast? with
         | some lastBlock => decide (s.mMinSamples ≤ lastBlock.f.GetLength)
         | none => false))) = true
  · rw [if_pos hac] at h
    have hs0eq : s0 = s.mNumSamples := by
      rcases Bool.or_eq_true_iff.mp hac with hl | hr
      · have hl0 : s.mBlock.length = 0 := by simpa using hl
        have hns0 : s.mNumSamples = 0 := by
          rw [h3S, List.length_eq_zero.mp hl0]
          rfl
        omega
      · have := (Bool.and_eq_true_iff.mp hr).1
        simpa using this
    cases hloop : Sequence.AppendBlockLoop s.mBlock s.mNumSamples
        src.mBlock with
    | none =>
      rw [hloop] at h
      exact absurd h (by simp)
    | some out =>
      obtain ⟨nb, sm⟩ := out
      rw [hloop] at h
      simp only [] at h
      obtain ⟨hflat, hsum, hmem⟩ := appendBlockLoop_ok hloop
      simp only [] at hflat hsum hmem
      obtain ⟨ht, hchk⟩ := commit_ok h
      subst ht
      obtain ⟨hcR, h3R, h4R, h5R⟩ := (inv_characterisation src).mp hsrc
      refine ⟨?_, ?_, rfl, rfl, rfl, hs0_nn, hs0_le, ?_⟩
      · show nb.flatMap (·.f.samples) = _
        simp only [Sequence.contents]
        rw [hflat]
        rw [show s0.toNat = (s.mBlock.flatMap (·.f.samples)).length from by
          rw [← sumLens_eq_flat_length]
          omega]
        rw [List.take_length, List.drop_length, List.append_nil]
      · show sm = _
        rw [hsum, h3R]
      · refine inv_of_check hchk ?_
        intro x hx
        rcases hmem x hx with hA | ⟨sb, hsb, hf⟩
        · exact h5S x hA
        · rw [hf]
          exact h5R sb hsb
  · rw [if_neg hac] at h
    by_cases hb0 : s0 = s.mNumSamples
    · rw [if_pos hb0] at h
      simp only [] at h
      have hlen_ne : s.mBlock.length ≠ 0 := by
        intro h0
        apply hac
        simp [h0]
      have hblt : s.mBlock.length - 1 < s.mBlock.length := by omega
      have hbS : s.mBlock[s.mBlock.length - 1]? =
          some (s.mBlock.get ⟨s.mBlock.length - 1, hblt⟩) :=
        List.getElem?_eq_getElem hblt
      rw [hbS] at h
      simp only [] at h
      have hstart := contig_get_start hcS hblt
      have hend := contig_get_end hcS hblt
      rw [show s.mBlock.length - 1 + 1 = s.mBlock.length from by omega] at hend
      have hfull : sumTake s.mBlock s.mBlock.length =
        (sumLens s.mBlock : Int) := sumTake_length _ _ (le_refl _)
      have hmono : sumTake s.mBlock (s.mBlock.length - 1) ≤
          sumTake s.mBlock s.mBlock.length :=
        sumTake_mono s.mBlock (by omega)
      have hres := paste_split_finish hcS h3S h4S h5S hsrc hns_ne hnb_ne hblt
        rfl (by omega) (by omega) h
      exact ⟨hres.1, hres.2.1, hres.2.2.1, hres.2.2.2.1, hres.2.2.2.2.1,
        hs0_nn, hs0_le, hres.2.2.2.2.2⟩
    · rw [if_neg hb0] at h
      obtain ⟨g, hfb, hglt, hga, hgb⟩ := findBlock_spec hs hs0_nn (by omega)
      rw [hfb] at h
      simp only [] at h
      have hgS : s.mBlock[g]? = some (s.mBlock.get ⟨g, hglt⟩) :=
        List.getElem?_eq_getElem hglt
      rw [hgS] at h
      simp only [] at h
      have hres := paste_split_finish hcS h3S h4S h5S hsrc hns_ne hnb_ne hglt
        rfl hga (le_of_lt hgb) h
      exact ⟨hres.1, hres.2.1, hres.2.2.1, hres.2.2.2.1, hres.2.2.2.2.1,
        hs0_nn, hs0_le, hres.2.2.2.2.2⟩

theorem appendBlocks_ok_inv {s t : Sequence} (hInv : s.Inv)
    {additional : List SeqBlock} {replaceLast : Bool} {ns2 : Int}
    (hne : additional ≠ [])
    (h : s.AppendBlocksIfConsistent additional replaceLast ns2 = .ok t)
    (hI5 : ∀ x ∈ additional, x.f.GetLength ≠ 0)
    (hstart : ∀ c ∈ additional.head?,
      c.start = (sumLens (if replaceLast = true ∧ ¬s.mBlock.isEmpty = true
        then s.mBlock.dropLast else s.mBlock) : Int)) :
    t.Inv ∧ t.mNumSamples = ns2 ∧ t.mMinSamples = s.mMinSamples ∧
      t.mMaxSamples = s.mMaxSamples ∧ t.mSampleFormat = s.mSampleFormat := by
  obtain ⟨hc, h3, h4, h5⟩ := (inv_characterisation s).mp hInv
  obtain ⟨c, tl, hcs⟩ := List.exists_cons_of_ne_nil hne
  rw [Sequence.AppendBlocksIfConsistent] at h
  rw [if_neg (by simpa using hne)] at h
  simp only [] at h
  by_cases hrep : replaceLast = true ∧ ¬s.mBlock.isEmpty = true
  · rw [if_pos hrep] at h
    rw [if_pos hrep] at hstart
    split at h
    case _ hchk =>
      injection h with h
      subst h
      have hcstart : c.start = (sumLens s.mBlock.dropLast : Int) := by
        have := hstart c (by rw [hcs]; rfl)
        exact this
      have hdrop : (s.mBlock.dropLast ++ additional).drop
          s.mBlock.dropLast.length = c :: tl := by
        rw [List.drop_left, hcs]
      obtain ⟨hctail, h4tail, htotal⟩ := checkB_tail hdrop hchk
      have hcbase : ContigFrom 0 s.mBlock.dropLast := by
        rw [List.dropLast_eq_take]
        exact contigFrom_take hc _
      refine ⟨?_, rfl, rfl, rfl, rfl⟩
      refine (inv_characterisation _).mpr ⟨?_, ?_, ?_, ?_⟩
      · show ContigFrom 0 (s.mBlock.dropLast ++ additional)
        rw [contigFrom_append, hcs]
        refine ⟨hcbase, ?_⟩
        rw [show (0 : Int) + (sumLens s.mBlock.dropLast : Int) = c.start from
          by omega]
        exact hctail
      · show ns2 = (sumLens (s.mBlock.dropLast ++ additional) : Int)
        rw [htotal, hcs, sumLens_append]
        push_cast
        omega
      · intro x hx
        rcases List.mem_append.mp hx with h1 | h1
        · refine h4 x ?_
          rw [List.dropLast_eq_take] at h1
          exact List.mem_of_mem_take h1
        · refine h4tail x ?_
          rw [← hcs]
          exact h1
      · intro x hx
        rcases List.mem_append.mp hx with h1 | h1
        · refine h5 x ?_
          rw [List.dropLast_eq_take] at h1
          exact List.mem_of_mem_take h1
        · exact hI5 x h1
    case _ => exact absurd h (by simp)
  · rw [if_neg hrep] at h
    rw [if_neg hrep] at hstart
    split at h
    case _ hchk =>
      injection h with h
      subst h
      have hcstart : c.start = (sumLens s.mBlock : Int) := by
        have := hstart c (by rw [hcs]; rfl)
        exact this
      have hdrop : (s.mBlock ++ additional).drop s.mBlock.length =
          c :: tl := by
        rw [List.drop_left, hcs]
      obtain ⟨hctail, h4tail, htotal⟩ := checkB_tail hdrop hchk
      refine ⟨?_, rfl, rfl, rfl, rfl⟩
      refine (inv_characterisation _).mpr ⟨?_, ?_, ?_, ?_⟩
      · show ContigFrom 0 (s.mBlock ++ additional)
        rw [contigFrom_append, hcs]
        refine ⟨hc, ?_⟩
        rw [show (0 : Int) + (sumLens s.mBlock : Int) = c.start from by omega]
        exact hctail
      · show ns2 = (sumLens (s.mBlock ++ additional) : Int)
        rw [htotal, hcs, sumLens_append]
        push_cast
        omega
      · intro x hx
        rcases List.mem_append.mp hx with h1 | h1
        · exact h4 x h1
        · refine h4tail x ?_
          rw [← hcs]
          exact h1
      · intro x hx
        rcases List.mem_append.mp hx with h1 | h1
        · exact h5 x h1
        · exact hI5 x h1
    case _ => exact absurd h (by simp)

theorem append_ok_inv {s t : Sequence} (hInv : s.Inv) {buffer : List Sample}
    {format : SampleFormat} (h : s.Append buffer format = .ok t) :
    t.Inv ∧ t.mMinSamples = s.mMinSamples ∧ t.mMaxSamples = s.mMaxSamples ∧
      t.mSampleFormat = s.mSampleFormat := by
  obtain ⟨hc, h3, h4, h5⟩ := (inv_characterisation s).mp hInv
  rw [Sequence.Append] at h
  simp only [] at h
  by_cases hlen0 : buffer.length = 0
  · rw [if_pos hlen0] at h
    injection h with h
    subst h
    exact ⟨hInv, rfl, rfl, rfl⟩
  rw [if_neg hlen0] at h
  by_cases hovf : Overflows s.mNumSamples (buffer.length : Int) = true
  · rw [if_pos hovf] at h
    exact absurd h (by simp)
  rw [if_neg hovf] at h
  have hbne : buffer ≠ [] := by
    intro hx
    rw [hx] at hlen0
    exact hlen0 rfl
  cases hlast : s.mBlock.getLast? with
  | none =>
    rw [hlast] at h
    simp only [] at h
    cases hchunks : Sequence.AppendChunks s.mMaxSamples (buffer.length + 1)
        s.mNumSamples buffer with
    | none =>
      rw [hchunks] at h
      exact absurd h (by simp)
    | some chunks =>
      rw [hchunks] at h
      simp only [] at h
      obtain ⟨hI5c, hflatc, hheadc⟩ := appendChunks_ok hchunks
      obtain ⟨c, tl, hcs, hcstart⟩ := hheadc hbne
      have hres := appendBlocks_ok_inv hInv (by rw [hcs]; simp) h hI5c ?_
      · exact ⟨hres.1, hres.2.2.1, hres.2.2.2.1, hres.2.2.2.2⟩
      · intro c2 hc2
        rw [hcs] at hc2
        simp only [List.head?_cons, Option.mem_some_iff] at hc2
        subst hc2
        rw [if_neg (by simp)]
        rw [hcstart, h3]
  | some lastBlock =>
    rw [hlast] at h
    simp only [] at h
    have hmBne : s.mBlock ≠ [] := by
      intro hx
      rw [hx] at hlast
      exact absurd hlast (by simp)
    by_cases hsmall : lastBlock.f.GetLength < s.mMinSamples
    · rw [if_pos hsmall] at h
      simp only [] at h
      cases hchunks : Sequence.AppendChunks s.mMaxSamples (buffer.length + 1)
          (s.mNumSamples +
            (min (s.mMaxSamples - lastBlock.f.GetLength) buffer.length : Nat))
          (buffer.drop
            (min (s.mMaxSamples - lastBlock.f.GetLength) buffer.length)) with
      | none =>
        rw [hchunks] at h
        exact absurd h (by simp)
      | some rest =>
        rw [hchunks] at h
        simp only [] at h
        obtain ⟨hI5c, hflatc, hheadc⟩ := appendChunks_ok hchunks
        have hlast_mem : lastBlock ∈ s.mBlock := by
          rw [List.getLast?_eq_getElem?] at hlast
          obtain ⟨hlt, hval⟩ := List.getElem?_eq_some_iff.mp hlast
          rw [← hval]
          exact List.getElem_mem hlt
        have hlastLen : lastBlock.f.GetLength ≠ 0 := h5 lastBlock hlast_mem
        have hres := appendBlocks_ok_inv hInv (by simp) h ?_ ?_
        · exact ⟨hres.1, hres.2.2.1, hres.2.2.2.1, hres.2.2.2.2⟩
        · intro x hx
          rcases List.mem_cons.mp hx with rfl | hx2
          · simp only [seqBlock_mk_f, getLength_mk, List.length_append]
            have hsl : lastBlock.f.samples.length = lastBlock.f.GetLength :=
              rfl
            omega
          · exact hI5c x hx2
        · intro c2 hc2
          simp only [List.head?_cons, Option.mem_some_iff] at hc2
          subst hc2
          rw [if_pos ⟨rfl, by simpa using hmBne⟩]
          simp only [seqBlock_mk_start]
          have hlt : s.mBlock.length - 1 < s.mBlock.length := by
            have : s.mBlock.length ≠ 0 := by
              intro hx
              exact hmBne (List.length_eq_zero.mp hx)
            omega
          have hlast2 : lastBlock = s.mBlock.get ⟨s.mBlock.length - 1, hlt⟩ := by
            rw [List.getLast?_eq_getElem?] at hlast
            obtain ⟨hlt2, hval⟩ := List.getElem?_eq_some_iff.mp hlast
            rw [← hval]
            rfl
          rw [hlast2, contig_get_start hc hlt, List.dropLast_eq_take]
          rfl
    · rw [if_neg hsmall] at h
      simp only [] at h
      cases hchunks : Sequence.AppendChunks s.mMaxSamples (buffer.length + 1)
          s.mNumSamples buffer with
      | none =>
        rw [hchunks] at h
        exact absurd h (by simp)
      | some chunks =>
        rw [hchunks] at h
        simp only [] at h
        obtain ⟨hI5c, hflatc, hheadc⟩ := appendChunks_ok hchunks
        obtain ⟨c, tl, hcs, hcstart⟩ := hheadc hbne
        have hres := appendBlocks_ok_inv hInv (by rw [hcs]; simp) h hI5c ?_
        · exact ⟨hres.1, hres.2.2.1, hres.2.2.2.1, hres.2.2.2.2⟩
        · intro c2 hc2
          rw [hcs] at hc2
          simp only [List.head?_cons, Option.mem_some_iff] at hc2
          subst hc2
          rw [if_neg (by simp)]
          rw [hcstart, h3]

theorem setSamples_ok_inv {s t : Sequence} (hInv : s.Inv)
    {buffer : Option (Nat → Sample)} {format : SampleFormat}
    {start len : Int}
    (h : s.SetSamples buffer format start len = .ok t) :
    t.Inv ∧ t.mMinSamples = s.mMinSamples ∧ t.mMaxSamples = s.mMaxSamples ∧
      t.mSampleFormat = s.mSampleFormat := by
  obtain ⟨hc, h3, h4, h5⟩ := (inv_characterisation s).mp hInv
  rw [Sequence.SetSamples] at h
  by_cases hg : start < 0 ∨ start ≥ s.mNumSamples ∨
      start + len > s.mNumSamples
  · rw [if_pos hg] at h
    exact absurd h (by simp)
  rw [if_neg hg] at h
  cases hfb : s.FindBlock start with
  | none =>
    rw [hfb] at h
    exact absurd h (by simp)
  | some b =>
    rw [hfb] at h
    simp only [] at h
    cases hloop : Sequence.SetSamplesLoop s.mBlock s.mMaxSamples buffer
        (s.mBlock.length + 1) b 0 start len with
    | ok out =>
      obtain ⟨pieces, bEnd⟩ := out
      rw [hloop] at h
      simp only [] at h
      obtain ⟨ht, hchk⟩ := commit_ok h
      subst ht
      refine ⟨?_, rfl, rfl, rfl⟩
      refine inv_of_check hchk ?_
      intro x hx
      rcases List.mem_append.mp hx with h1 | h1
      · rcases List.mem_append.mp h1 with h2 | h2
        · exact h5 x (List.mem_of_mem_take h2)
        · obtain ⟨blk, hblk, heq⟩ := setSamplesLoop_pieces hloop x h2
          rw [heq]
          exact h5 blk hblk
      · exact h5 x (List.mem_of_mem_drop h1)
    | threw =>
      rw [hloop] at h
      exact absurd h (by simp)
    | diverge =>
      rw [hloop] at h
      exact absurd h (by simp)

/-!  ## Reachability by the public mutators  -/

/-- A sequence together with the constructor relation between its block
size fields. -/
def Sequence.Good (s : Sequence) : Prop :=
  s.Inv ∧ s.mMaxSamples = s.mMinSamples * 2

/-- The sequences reachable from a newly constructed (empty) sequence by
any finite series of Append, Paste, Delete and SetSamples calls that
return normally; a paste source is itself such a sequence. -/
inductive Sequence.Reachable : Sequence → Prop where
  | empty (sMaxDiskBlockSize : Nat) (format : SampleFormat) :
      Sequence.Reachable (Sequence.create sMaxDiskBlockSize format)
  | append {s t : Sequence} (buffer : List Sample) (format : SampleFormat)
      (hr : Sequence.Reachable s) (hok : s.Append buffer format = .ok t) :
      Sequence.Reachable t
  | paste {s src t : Sequence} (s0 : Int) (hr : Sequence.Reachable s)
      (hsrc : Sequence.Reachable src) (hok : s.Paste s0 src = .ok t) :
      Sequence.Reachable t
  | del {s t : Sequence} (start len : Int) (hr : Sequence.Reachable s)
      (hok : s.Delete start len = .ok t) : Sequence.Reachable t
  | set {s t : Sequence} (buffer : Option (Nat → Sample))
      (format : SampleFormat) (start len : Int) (hr : Sequence.Reachable s)
      (hok : s.SetSamples buffer format start len = .ok t) :
      Sequence.Reachable t

theorem reachable_good {s : Sequence} (h : s.Reachable) : s.Good := by
  induction h with
  | empty d format =>
    constructor
    · rw [inv_characterisation]
      refine ⟨contigFrom_nil 0, by simp [Sequence.create], ?_, ?_⟩ <;>
        intro b hb <;> simp [Sequence.create] at hb
    · rfl
  | append buffer format hr hok ih =>
    obtain ⟨hInv, hrel⟩ := ih
    obtain ⟨hi, hmin, hmax, _⟩ := append_ok_inv hInv hok
    exact ⟨hi, by rw [hmax, hmin, hrel]⟩
  | paste s0 hr hsrc hok ihs ihsrc =>
    obtain ⟨hInv, hrel⟩ := ihs
    have hres := paste_ok_main hInv ihsrc.1 hok
    exact ⟨hres.2.2.2.2.2.2.2,
      by rw [hres.2.2.2.1, hres.2.2.1, hrel]⟩
  | del start len hr hok ih =>
    obtain ⟨hInv, hrel⟩ := ih
    have hres := delete_ok_main hInv hok
    refine ⟨hres.2.2.2.2.2 ?_, by rw [hres.2.2.2.1, hres.2.2.1, hrel]⟩
    intro hz
    rw [hrel, hz]
  | set buffer format start len hr hok ih =>
    obtain ⟨hInv, hrel⟩ := ih
    obtain ⟨hi, hmin, hmax, _⟩ := setSamples_ok_inv hInv hok
    exact ⟨hi, by rw [hmax, hmin, hrel]⟩

/-- C1 claim: every sequence reachable from the empty (newly constructed)
sequence by any finite series of Append, Paste, Delete and SetSamples
operations satisfies the invariants I1-I5: the first block (if any)
starts at 0, each later block's start equals the previous block's start
plus its length, numSamples equals the sum of the block lengths, every
block's length is at most maxSamples, and no block has length 0. -/
theorem claim_C1_invariants (s : Sequence) (h : s.Reachable) :
    s.I1 ∧ s.I2 ∧ s.I3 ∧ s.I4 ∧ s.I5 :=
  (reachable_good h).1

theorem claim_C1_witness :
    (⟨[⟨⟨[1, 2]⟩, 0⟩], 2, 4, 8, .int16Sample, false⟩ : Sequence).I1 ∧
    (⟨[⟨⟨[1, 2]⟩, 0⟩], 2, 4, 8, .int16Sample, false⟩ : Sequence).I2 ∧
    (⟨[⟨⟨[1, 2]⟩, 0⟩], 2, 4, 8, .int16Sample, false⟩ : Sequence).I3 ∧
    (⟨[⟨⟨[1, 2]⟩, 0⟩], 2, 4, 8, .int16Sample, false⟩ : Sequence).I4 ∧
    (⟨[⟨⟨[1, 2]⟩, 0⟩], 2, 4, 8, .int16Sample, false⟩ : Sequence).I5 :=
  claim_C1_invariants _
    (Sequence.Reachable.append [1, 2] .int16Sample
      (Sequence.Reachable.empty 16 .int16Sample) (by decide))

/-- C4 claim: for every consistent sequence s, every valid paste offset
0 <= offset <= s.numSamples, and every consistent source sequence src of
the same sample format whose addition does not overflow, performing
Paste(offset, src) and then Delete(offset, src.numSamples), both
completing normally, yields a sequence whose sample contents at every
position equal the original sequence's. -/
theorem claim_C4_paste_delete (s src t u : Sequence) (off : Int)
    (hs : s.Inv) (hsrc : src.Inv)
    (hoff0 : 0 ≤ off) (hoff1 : off ≤ s.mNumSamples)
    (hfmt : src.mSampleFormat = s.mSampleFormat)
    (hovf : Overflows s.mNumSamples src.mNumSamples = false)
    (h1 : s.Paste off src = .ok t)
    (h2 : t.Delete off src.mNumSamples = .ok u) :
    u.contents = s.contents := by
  obtain ⟨hcont, hns, _, _, _, _, _, hInvT⟩ := paste_ok_main hs hsrc h1
  have hdel := delete_ok_main hInvT h2
  obtain ⟨hcR, h3R, _, _⟩ := (inv_characterisation src).mp hsrc
  obtain ⟨hcS, h3S, _, _⟩ := (inv_characterisation s).mp hs
  have hsrc_nn : 0 ≤ src.mNumSamples := by
    rw [h3R]
    positivity
  have hsrclen : src.contents.length = src.mNumSamples.toNat := by
    rw [Sequence.contents, ← sumLens_eq_flat_length]
    omega
  have hslen : s.contents.length = sumLens s.mBlock := by
    rw [Sequence.contents, ← sumLens_eq_flat_length]
  have hlenA : (s.contents.take off.toNat).length = off.toNat := by
    rw [List.length_take]
    omega
  rw [hdel.1, hcont]
  have e1 : ((s.contents.take off.toNat ++ src.contents) ++
      s.contents.drop off.toNat).take off.toNat =
      s.contents.take off.toNat := by
    rw [List.append_assoc]
    exact List.take_left' hlenA
  have e2 : ((s.contents.take off.toNat ++ src.contents) ++
      s.contents.drop off.toNat).drop (off + src.mNumSamples).toNat =
      s.contents.drop off.toNat := by
    refine List.drop_left' ?_
    rw [List.length_append, hlenA, hsrclen]
    omega
  rw [e1, e2]
  exact List.take_append_drop _ _

def seqC4 : Sequence := ⟨[⟨⟨[1, 2]⟩, 0⟩], 2, 1, 4, .int16Sample, false⟩

def srcC4 : Sequence := ⟨[⟨⟨[9]⟩, 0⟩], 1, 1, 4, .int16Sample, false⟩

def seqC4t : Sequence := ⟨[⟨⟨[1, 9, 2]⟩, 0⟩], 3, 1, 4, .int16Sample, false⟩

def seqC4u : Sequence := ⟨[⟨⟨[1, 2]⟩, 0⟩], 2, 1, 4, .int16Sample, false⟩

theorem claim_C4_witness :
    seqC4.Paste 1 srcC4 = .ok seqC4t ∧
    seqC4t.Delete 1 srcC4.mNumSamples = .ok seqC4u ∧
    seqC4u.contents = seqC4.contents :=
  ⟨by decide, by decide,
    claim_C4_paste_delete seqC4 srcC4 seqC4t seqC4u 1
      (inv_of_check (by decide) (by decide))
      (inv_of_check (by decide) (by decide))
      (by decide) (by decide) rfl (by decide) (by decide) (by decide)⟩
